import Mathlib

/-!
BiDi layout and Arabic shaping of the kosmt2 client: a shallow embedding

The definitions below embed, function by function, the text layout core of
`extern/include/utf8.h`, `src/EterLocale/Arabic.cpp` and the layout pass
`CGraphicTextInstance::Update` of `src/EterLib/GrpTextInstance.cpp`.

Conventions of the embedding.
* A `wchar_t` (16 bit on the target platform) is a `Nat`; character constants
  are written as their code, with the character in a comment.
* A C++ `(pointer, length)` pair `(s, n)` is a `List Nat`; `n` is its length and
  `s[i]` is `s.getD i 0`.
* A C++ `int` that can be negative (`linkIndex`, `logicalPos`, the entries of
  the position maps) is an `Int`; indexes and lengths are `Nat`.
* A backward loop `for (j = i - 1; j >= 0; --j)` is a recursion on `j + 1`; a
  forward loop `for (j = i + 1; j < n; ++j)` is a recursion on the number
  `n - j` of indexes left, so that the recursion ends exactly when the loop does.
-/

namespace Kosmt

/-! ## `src/EterLocale/Arabic.cpp` -/

/-- The enum `ARABIC_FORM_TYPE` (without its count `ARABIC_FORM_TYPE_NUM`). -/
inductive ARABIC_FORM_TYPE where
  | DEBUG_CODE
  | ISOLATED
  | INITIAL
  | MEDIAL
  | FINAL
  deriving DecidableEq, Repr

/-- The integer value of an `ARABIC_FORM_TYPE`, used as an index into a table row. -/
def ARABIC_FORM_TYPE.toNat : ARABIC_FORM_TYPE → Nat
  | .DEBUG_CODE => 0
  | .ISOLATED => 1
  | .INITIAL => 2
  | .MEDIAL => 3
  | .FINAL => 4

def ARABIC_CODE_BASE : Nat := 0x0621
def ARABIC_CODE_LAST : Nat := 0x064a

/-- `Arabic_GetComposition`: the Lam-Alef ligature table. -/
def Arabic_GetComposition (cur next : Nat) (pos : ARABIC_FORM_TYPE) : Nat :=
  if cur = 0x0644 then
    if next = 0x0622 then [0x0622, 0xFEF5, 0, 0, 0xFEF6].getD pos.toNat 0
    else if next = 0x0623 then [0x0623, 0xFEF7, 0, 0, 0xFEF8].getD pos.toNat 0
    else if next = 0x0625 then [0x0625, 0xFEF9, 0, 0, 0xFEFA].getD pos.toNat 0
    else if next = 0x0627 then [0x0627, 0xFEFB, 0, 0, 0xFEFC].getD pos.toNat 0
    else 0
  else 0

/-- The row of `Arabic_GetMap` for a code: `[code, isolated, initial, medial, final]`,
and the empty row for a code without a `case`. -/
def Arabic_GetMap.row (code : Nat) : List Nat :=
  if code = 0x0621 then [0x0621, 0xFE80, 0, 0, 0]                 -- HAMZA
  else if code = 0x0622 then [0x0622, 0xFE81, 0, 0, 0xFE82]       -- ALEF_MADDA
  else if code = 0x0623 then [0x0623, 0xFE83, 0, 0, 0xFE84]       -- ALEF_HAMZA_ABOVE
  else if code = 0x0624 then [0x0624, 0xFE85, 0, 0, 0xFE86]       -- WAW_HAMZA
  else if code = 0x0625 then [0x0625, 0xFE87, 0, 0, 0xFE88]       -- ALEF_HAMZA_BELOW
  else if code = 0x0626 then [0x0626, 0xFE89, 0xFE8B, 0xFE8C, 0xFE8A] -- YEH_HAMZA
  else if code = 0x0627 then [0x0627, 0xFE8D, 0, 0, 0xFE8E]       -- ALEF
  else if code = 0x0628 then [0x0628, 0xFE8F, 0xFE91, 0xFE92, 0xFE90] -- BEH
  else if code = 0x0629 then [0x0629, 0xFE93, 0, 0, 0xFE94]       -- TEH_MARBUTA
  else if code = 0x062A then [0x062A, 0xFE95, 0xFE97, 0xFE98, 0xFE96] -- TEH
  else if code = 0x062B then [0x062B, 0xFE99, 0xFE9B, 0xFE9C, 0xFE9A] -- THEH
  else if code = 0x062C then [0x062C, 0xFE9D, 0xFE9F, 0xFEA0, 0xFE9E] -- JEEM
  else if code = 0x062D then [0x062D, 0xFEA1, 0xFEA3, 0xFEA4, 0xFEA2] -- HAH
  else if code = 0x062E then [0x062E, 0xFEA5, 0xFEA7, 0xFEA8, 0xFEA6] -- KHAH
  else if code = 0x062F then [0x062F, 0xFEA9, 0, 0, 0xFEAA]       -- DAL
  else if code = 0x0630 then [0x0630, 0xFEAB, 0, 0, 0xFEAC]       -- THAL
  else if code = 0x0631 then [0x0631, 0xFEAD, 0, 0, 0xFEAE]       -- REH
  else if code = 0x0632 then [0x0632, 0xFEAF, 0, 0, 0xFEB0]       -- ZAIN
  else if code = 0x0633 then [0x0633, 0xFEB1, 0xFEB3, 0xFEB4, 0xFEB2] -- SEEN
  else if code = 0x0634 then [0x0634, 0xFEB5, 0xFEB7, 0xFEB8, 0xFEB6] -- SHEEN
  else if code = 0x0635 then [0x0635, 0xFEB9, 0xFEBB, 0xFEBC, 0xFEBA] -- SAD
  else if code = 0x0636 then [0x0636, 0xFEBD, 0xFEBF, 0xFEC0, 0xFEBE] -- DAD
  else if code = 0x0637 then [0x0637, 0xFEC1, 0xFEC3, 0xFEC4, 0xFEC2] -- TAH
  else if code = 0x0638 then [0x0638, 0xFEC5, 0xFEC7, 0xFEC8, 0xFEC6] -- ZAH
  else if code = 0x0639 then [0x0639, 0xFEC9, 0xFECB, 0xFECC, 0xFECA] -- AIN
  else if code = 0x063A then [0x063A, 0xFECD, 0xFECF, 0xFED0, 0xFECE] -- GHAIN
  else if code = 0x0640 then [0x0640, 0x0640, 0, 0, 0]            -- TATWEEL
  else if code = 0x0641 then [0x0641, 0xFED1, 0xFED3, 0xFED4, 0xFED2] -- OX_FEH
  else if code = 0x0642 then [0x0642, 0xFED5, 0xFED7, 0xFED8, 0xFED6] -- QAF
  else if code = 0x0643 then [0x0643, 0xFED9, 0xFEDB, 0xFEDC, 0xFEDA] -- KAF
  else if code = 0x0644 then [0x0644, 0xFEDD, 0xFEDF, 0xFEE0, 0xFEDE] -- LAM
  else if code = 0x0645 then [0x0645, 0xFEE1, 0xFEE3, 0xFEE4, 0xFEE2] -- MEEM
  else if code = 0x0646 then [0x0646, 0xFEE5, 0xFEE7, 0xFEE8, 0xFEE6] -- NOON
  else if code = 0x0647 then [0x0647, 0xFEE9, 0xFEEB, 0xFEEC, 0xFEEA] -- HEH
  else if code = 0x0648 then [0x0648, 0xFEED, 0, 0, 0xFEEE]       -- WAW
  else if code = 0x0649 then [0x0649, 0xFEEF, 0, 0, 0xFEF0]       -- ALEF_MAKSURA
  else if code = 0x064A then [0x064A, 0xFEF1, 0xFEF3, 0xFEF4, 0xFEF2] -- YEH
  else []

/-- `Arabic_GetMap`: the presentation form of `code` at `pos`, `0` when there is none. -/
def Arabic_GetMap (code : Nat) (pos : ARABIC_FORM_TYPE) : Nat :=
  (Arabic_GetMap.row code).getD pos.toNat 0

/-- `Arabic_IsInMap`. -/
def Arabic_IsInMap (code : Nat) : Bool :=
  decide (ARABIC_CODE_BASE ≤ code) && decide (code ≤ ARABIC_CODE_LAST)

/-- `Arabic_IsInComposing`: the `case` labels of the switch. -/
def Arabic_IsInComposing (code : Nat) : Bool :=
  decide (code ∈ [0x064B, 0x064C, 0x064D, 0x064E, 0x064F, 0x0650, 0x0651, 0x0652,
    0x0653, 0x0654, 0x0655, 0x0670, 0x06D6, 0x06D7, 0x06D8, 0x06D9, 0x06DA, 0x06DB,
    0x06DC, 0x06DF, 0x06E0, 0x06E1, 0x06E2, 0x06E3, 0x06E4, 0x06E7, 0x06E8, 0x06EA,
    0x06EB, 0x06EC, 0x06ED])

/-- `Arabic_IsNext`. -/
def Arabic_IsNext (code : Nat) : Bool := decide (code = 0x0640)

/-- `Arabic_IsComb1`. -/
def Arabic_IsComb1 (code : Nat) : Bool := decide (code = 0x0644)

/-- `Arabic_IsComb2`. -/
def Arabic_IsComb2 (code : Nat) : Bool :=
  decide (code = 0x0622) || decide (code = 0x0623) || decide (code = 0x0625) ||
    decide (code = 0x0627)

/-- `Arabic_CanJoinRight`: the code has an INITIAL or a MEDIAL form. -/
def Arabic_CanJoinRight (code : Nat) : Bool :=
  if !Arabic_IsInMap code then false
  else decide (Arabic_GetMap code .INITIAL ≠ 0) || decide (Arabic_GetMap code .MEDIAL ≠ 0)

/-- `Arabic_CanJoinLeft`: the code has a MEDIAL or a FINAL form, or is the Tatweel. -/
def Arabic_CanJoinLeft (code : Nat) : Bool :=
  if !Arabic_IsInMap code then false
  else decide (Arabic_GetMap code .MEDIAL ≠ 0) || decide (Arabic_GetMap code .FINAL ≠ 0) ||
    Arabic_IsNext code

/-- Phase 1 of `Arabic_MakeShape`, the reverse scan that fills `s_nextArabic`.
After `k` iterations (indexes `srcLen - 1` down to `srcLen - k`) it gives the
variable `nextArabicIdx` and the entries of `s_nextArabic` for those indexes. -/
def Arabic_MakeShape.scan (src : List Nat) : Nat → Nat × List Nat
  | 0 => (src.length, [])
  | k + 1 =>
    let prev := Arabic_MakeShape.scan src k
    let idx := src.length - (k + 1)
    let ch := src.getD idx 0
    (if Arabic_IsInMap ch && !Arabic_IsInComposing ch then idx else prev.1, prev.1 :: prev.2)

/-- The table `s_nextArabic` (its first `srcLen + 1` entries) after phase 1, the
sentinel `s_nextArabic[srcLen] = srcLen` included. -/
def Arabic_MakeShape.s_nextArabic (src : List Nat) : List Nat :=
  (Arabic_MakeShape.scan src src.length).2 ++ [src.length]

/-- The form selection of `Arabic_MakeShape` (the statements from
`wchar_t shaped = 0;` to `shaped = cur;`), run in order on the pair
`(shaped, curJoinsRight)`. -/
def Arabic_MakeShape.selectForm (cur : Nat) (prevJoins : Bool) (next : Nat) : Nat × Bool :=
  let s0 : Nat × Bool := (0, false)
  let s1 : Nat × Bool :=
    if prevJoins && decide (next ≠ 0) then
      (Arabic_GetMap cur .MEDIAL,
        if Arabic_GetMap cur .MEDIAL ≠ 0 then Arabic_CanJoinRight cur else s0.2)
    else s0
  let s2 : Nat × Bool :=
    if decide (s1.1 = 0) && prevJoins then (Arabic_GetMap cur .FINAL, false) else s1
  let s3 : Nat × Bool :=
    if decide (s2.1 = 0) && decide (next ≠ 0) then
      (Arabic_GetMap cur .INITIAL,
        if Arabic_GetMap cur .INITIAL ≠ 0 then Arabic_CanJoinRight cur else s2.2)
    else s2
  let s4 : Nat × Bool :=
    if s3.1 = 0 then (Arabic_GetMap cur .ISOLATED, false) else s3
  if s4.1 = 0 then (cur, s4.2) else s4

/-- Phase 2 of `Arabic_MakeShape`, the forward pass, from the loop state
`(srcIndex, prevJoins, dstIndex)`; the result is the list of the characters
written to `dst[dstIndex ..]`. The first argument bounds the number of
iterations; `srcLen - srcIndex` is enough since every iteration advances
`srcIndex`. -/
def Arabic_MakeShape.loop (src : List Nat) (dstLen : Nat) (tbl : List Nat) :
    Nat → Nat → Bool → Nat → List Nat
  | 0, _, _, _ => []
  | fuel + 1, srcIndex, prevJoins, dstIndex =>
    if srcIndex < src.length then
      let cur := src.getD srcIndex 0
      if Arabic_IsInComposing cur then
        if dstIndex < dstLen then
          cur :: Arabic_MakeShape.loop src dstLen tbl fuel (srcIndex + 1) prevJoins (dstIndex + 1)
        else Arabic_MakeShape.loop src dstLen tbl fuel (srcIndex + 1) prevJoins dstIndex
      else if Arabic_IsInMap cur then
        let nextIdx := tbl.getD srcIndex 0
        let next : Nat :=
          if nextIdx < src.length then
            (if Arabic_CanJoinLeft (src.getD nextIdx 0) then src.getD nextIdx 0 else 0)
          else 0
        if Arabic_IsComb1 cur && decide (nextIdx < src.length) &&
            Arabic_IsComb2 (src.getD nextIdx 0) then
          let composed :=
            if prevJoins then Arabic_GetComposition cur (src.getD nextIdx 0) .FINAL
            else Arabic_GetComposition cur (src.getD nextIdx 0) .ISOLATED
          if dstIndex < dstLen then
            composed :: Arabic_MakeShape.loop src dstLen tbl fuel (nextIdx + 1) false (dstIndex + 1)
          else Arabic_MakeShape.loop src dstLen tbl fuel (nextIdx + 1) false dstIndex
        else
          let r := Arabic_MakeShape.selectForm cur prevJoins next
          if dstIndex < dstLen then
            r.1 :: Arabic_MakeShape.loop src dstLen tbl fuel (srcIndex + 1) r.2 (dstIndex + 1)
          else Arabic_MakeShape.loop src dstLen tbl fuel (srcIndex + 1) r.2 dstIndex
      else
        if dstIndex < dstLen then
          cur :: Arabic_MakeShape.loop src dstLen tbl fuel (srcIndex + 1) false (dstIndex + 1)
        else Arabic_MakeShape.loop src dstLen tbl fuel (srcIndex + 1) false dstIndex
    else []

/-- `Arabic_MakeShape(src, srcLen, dst, dstLen)`: the characters written to `dst`
(the return value is the length of this list). `src` and `dst` are non-null. -/
def Arabic_MakeShape (src : List Nat) (dstLen : Nat) : List Nat :=
  if src.length = 0 ∨ dstLen < src.length then []
  else Arabic_MakeShape.loop src dstLen (Arabic_MakeShape.s_nextArabic src) src.length 0 false 0

/-! ## `extern/include/utf8.h`: character classification -/

namespace BiDiTables

/-- Whether the entry `s_table[i]` built by `GetCharFlagsTable` has the bit `CF_ALPHA`. -/
def tableAlpha (i : Nat) : Bool :=
  decide (65 ≤ i ∧ i ≤ 90) || decide (97 ≤ i ∧ i ≤ 122) ||
  decide (0x0100 ≤ i ∧ i ≤ 0x024F) || decide (0x1E00 ≤ i ∧ i ≤ 0x1EFF) ||
  decide (0x0370 ≤ i ∧ i ≤ 0x03FF) || decide (0x0400 ≤ i ∧ i ≤ 0x04FF) ||
  decide (0x0590 ≤ i ∧ i ≤ 0x05FF) || decide (0x0600 ≤ i ∧ i ≤ 0x06FF) ||
  decide (0x0750 ≤ i ∧ i ≤ 0x077F) || decide (0x08A0 ≤ i ∧ i ≤ 0x08FF) ||
  decide (0xFB50 ≤ i ∧ i ≤ 0xFDFF) || decide (0xFE70 ≤ i ∧ i ≤ 0xFEFF) ||
  decide (0xFB1D ≤ i ∧ i ≤ 0xFB4F) || decide (0x4E00 ≤ i ∧ i ≤ 0x9FFF) ||
  decide (0xAC00 ≤ i ∧ i ≤ 0xD7AF)

/-- Whether the entry `s_table[i]` has the bit `CF_DIGIT`. -/
def tableDigit (i : Nat) : Bool :=
  decide (48 ≤ i ∧ i ≤ 57) || decide (0x0660 ≤ i ∧ i ≤ 0x0669) ||
  decide (0x06F0 ≤ i ∧ i ≤ 0x06F9)

/-- Whether the entry `s_table[i]` has the bit `CF_RTL`. -/
def tableRTL (i : Nat) : Bool :=
  decide (0x0590 ≤ i ∧ i ≤ 0x05FF) || decide (0x0600 ≤ i ∧ i ≤ 0x06FF) ||
  decide (0x0750 ≤ i ∧ i ≤ 0x077F) || decide (0x08A0 ≤ i ∧ i ≤ 0x08FF) ||
  decide (0xFB50 ≤ i ∧ i ≤ 0xFDFF) || decide (0xFE70 ≤ i ∧ i ≤ 0xFEFF) ||
  decide (0xFB1D ≤ i ∧ i ≤ 0xFB4F) || decide (i = 0x200F) || decide (i = 0x061C) ||
  decide (0x202B ≤ i ∧ i ≤ 0x202E) || decide (0x2066 ≤ i ∧ i ≤ 0x2069)

/-- Whether the entry `s_table[i]` has the bit `CF_ARABIC`. -/
def tableArabic (i : Nat) : Bool := decide (0x0621 ≤ i ∧ i ≤ 0x064A)

/-- `BiDiTables::IsRTL`; the index is `(uint16_t)ch`. -/
def IsRTL (ch : Nat) : Bool := tableRTL (ch % 65536)
/-- `BiDiTables::IsAlpha`. -/
def IsAlpha (ch : Nat) : Bool := tableAlpha (ch % 65536)
/-- `BiDiTables::IsDigit`. -/
def IsDigit (ch : Nat) : Bool := tableDigit (ch % 65536)
/-- `BiDiTables::IsArabicLetter`. -/
def IsArabicLetter (ch : Nat) : Bool := tableArabic (ch % 65536)
/-- `BiDiTables::IsStrongLTR`: (Alpha or Digit) and not RTL. -/
def IsStrongLTR (ch : Nat) : Bool :=
  (tableAlpha (ch % 65536) || tableDigit (ch % 65536)) && !tableRTL (ch % 65536)

end BiDiTables

/-- The enum `EBidiDir`. -/
inductive EBidiDir where
  | LTR
  | RTL
  deriving DecidableEq, Repr

/-- The enum `ECharDir`. -/
inductive ECharDir where
  | Neutral
  | LTR
  | RTL
  deriving DecidableEq, Repr

def IsRTLCodepoint (ch : Nat) : Bool := BiDiTables.IsRTL ch
def IsStrongAlpha (ch : Nat) : Bool := BiDiTables.IsAlpha ch
def IsDigit (ch : Nat) : Bool := BiDiTables.IsDigit ch
def IsStrongLTR (ch : Nat) : Bool := BiDiTables.IsStrongLTR ch

/-- `IsNameTokenPunct`: `# @ $ % & * + - _ = . , / \ ( ) { } < >`. -/
def IsNameTokenPunct (ch : Nat) : Bool :=
  decide (ch ∈ [35, 64, 36, 37, 38, 42, 43, 45, 95, 61, 46, 44, 47, 92, 40, 41, 123, 125, 60, 62])

/-- The backward loop of `HasStrongLTRNeighbor`, at `j + 1` (so `j` runs from `i - 1`
down to `0`); `true` when the loop returns `true`, `false` when it ends or breaks. -/
def HasStrongLTRNeighbor.back (s : List Nat) : Nat → Bool
  | 0 => false
  | j + 1 =>
    let ch := s.getD j 0
    if ch = 32 ∨ ch = 9 ∨ ch = 10 then HasStrongLTRNeighbor.back s j
    else if IsStrongLTR ch then true
    else if IsRTLCodepoint ch || IsStrongAlpha ch then false
    else HasStrongLTRNeighbor.back s j

/-- The forward loop of `HasStrongLTRNeighbor`, with `k = n - j` indexes left. -/
def HasStrongLTRNeighbor.fwd (s : List Nat) : Nat → Bool
  | 0 => false
  | k + 1 =>
    let ch := s.getD (s.length - (k + 1)) 0
    if ch = 32 ∨ ch = 9 ∨ ch = 10 then HasStrongLTRNeighbor.fwd s k
    else if IsStrongLTR ch then true
    else if IsRTLCodepoint ch || IsStrongAlpha ch then false
    else HasStrongLTRNeighbor.fwd s k

/-- `HasStrongLTRNeighbor(s, n, i)`. -/
def HasStrongLTRNeighbor (s : List Nat) (i : Nat) : Bool :=
  HasStrongLTRNeighbor.back s i || HasStrongLTRNeighbor.fwd s (s.length - (i + 1))

/-- `GetCharDir`. -/
def GetCharDir (ch : Nat) : ECharDir :=
  if IsRTLCodepoint ch then .RTL
  else if IsStrongLTR ch then .LTR
  else .Neutral

/-- The backward loop of the `%` rule of `GetCharDirSmart`, at `j + 1`. -/
def GetCharDirSmart.percentBack (s : List Nat) (i : Nat) : Nat → Bool
  | 0 => false
  | j + 1 =>
    if i - j < 5 then
      let prev := s.getD j 0
      if IsDigit prev || decide (prev = 37) || decide (prev = 45) || decide (prev = 43) then true
      else if prev ≠ 32 ∧ prev ≠ 9 then false
      else GetCharDirSmart.percentBack s i j
    else false

/-- The forward loop of the `%` rule, with `k = n - j` indexes left. -/
def GetCharDirSmart.percentFwd (s : List Nat) (i : Nat) : Nat → Bool
  | 0 => false
  | k + 1 =>
    let j := s.length - (k + 1)
    if j - i < 5 then
      let next := s.getD j 0
      if IsDigit next || decide (next = 37) || decide (next = 45) || decide (next = 43) then true
      else if next ≠ 32 ∧ next ≠ 9 then false
      else GetCharDirSmart.percentFwd s i k
    else false

/-- The backward loop of the `-` rule, at `j + 1`. -/
def GetCharDirSmart.minusBack (s : List Nat) (i : Nat) : Nat → Bool
  | 0 => false
  | j + 1 =>
    if i - j < 3 then
      let prev := s.getD j 0
      if IsDigit prev || decide (prev = 37) then true
      else if prev ≠ 32 ∧ prev ≠ 9 then false
      else GetCharDirSmart.minusBack s i j
    else false

/-- The forward loop of the `-` rule, with `k = n - j` indexes left. -/
def GetCharDirSmart.minusFwd (s : List Nat) (i : Nat) : Nat → Bool
  | 0 => false
  | k + 1 =>
    let j := s.length - (k + 1)
    if j - i < 3 then
      let next := s.getD j 0
      if IsDigit next || decide (next = 37) then true
      else if next ≠ 32 ∧ next ≠ 9 then false
      else GetCharDirSmart.minusFwd s i k
    else false

/-- The backward loop of the `:` rule, at `j + 1`; `Neutral` when the loop ends. -/
def GetCharDirSmart.colonBack (s : List Nat) : Nat → ECharDir
  | 0 => .Neutral
  | j + 1 =>
    if s.getD j 0 = 32 ∨ s.getD j 0 = 9 then GetCharDirSmart.colonBack s j
    else if IsRTLCodepoint (s.getD j 0) then .RTL
    else if IsStrongLTR (s.getD j 0) then .LTR
    else GetCharDirSmart.colonBack s j

/-- The backward loop of the enhancement-marker rule (`+` before a digit), at `j + 1`;
`LTR` when the loop ends. -/
def GetCharDirSmart.plusBack (s : List Nat) : Nat → ECharDir
  | 0 => .LTR
  | j + 1 =>
    if IsRTLCodepoint (s.getD j 0) then .RTL
    else if IsStrongLTR (s.getD j 0) then .LTR
    else GetCharDirSmart.plusBack s j

/-- The forward loop of the `[` rule, with `k = n - j` indexes left. -/
def GetCharDirSmart.openFwd (s : List Nat) : Nat → ECharDir
  | 0 => .Neutral
  | k + 1 =>
    let next := s.getD (s.length - (k + 1)) 0
    if next = 93 then .Neutral
    else if IsRTLCodepoint next then .RTL
    else if IsStrongLTR next then .LTR
    else GetCharDirSmart.openFwd s k

/-- The backward loop of the `]` rule, at `j + 1`. -/
def GetCharDirSmart.closeBack (s : List Nat) : Nat → ECharDir
  | 0 => .Neutral
  | j + 1 =>
    let prev := s.getD j 0
    if prev = 91 then .Neutral
    else if IsRTLCodepoint prev then .RTL
    else if IsStrongLTR prev then .LTR
    else GetCharDirSmart.closeBack s j

/-- `GetCharDirSmart(s, n, i)`. -/
def GetCharDirSmart (s : List Nat) (i : Nat) : ECharDir :=
  let n := s.length
  let ch := s.getD i 0
  if IsRTLCodepoint ch then .RTL
  else if IsStrongLTR ch then .LTR
  else if ch = 40 ∨ ch = 41 then .LTR                       -- ( )
  else if ch = 43 ∨ ch = 45 ∨ ch = 61 ∨ ch = 42 ∨ ch = 47 ∨   -- + - = * /
      ch = 60 ∨ ch = 62 ∨ ch = 38 ∨ ch = 124 ∨ ch = 64 ∨ ch = 35 then .LTR -- < > & | @ #
  else if ch = 37 then                                      -- %
    if GetCharDirSmart.percentBack s i i then .LTR
    else if GetCharDirSmart.percentFwd s i (n - (i + 1)) then .LTR
    else .Neutral
  else if ch = 45 then                                      -- -
    if GetCharDirSmart.minusBack s i i then .LTR
    else if GetCharDirSmart.minusFwd s i (n - (i + 1)) then .LTR
    else .Neutral
  else if ch = 58 then GetCharDirSmart.colonBack s i        -- :
  else if ch = 43 ∧ i + 1 < n ∧ IsDigit (s.getD (i + 1) 0) = true then
    GetCharDirSmart.plusBack s i
  else if ch = 91 then GetCharDirSmart.openFwd s (n - (i + 1))   -- [
  else if ch = 93 then GetCharDirSmart.closeBack s i             -- ]
  else if (ch = 32 ∨ ch = 9) ∧ HasStrongLTRNeighbor s i = true then .LTR
  else if IsNameTokenPunct ch = true ∧ HasStrongLTRNeighbor s i = true then .LTR
  else .Neutral

/-- The constructor loop of `TStrongDirCache`: after `k` iterations (indexes `n - 1`
down to `n - k`) the variable `lastSeen` and the entries `nextStrong[n - k ..]`. -/
def TStrongDirCache.scan (s : List Nat) (baseDir : EBidiDir) : Nat → EBidiDir × List EBidiDir
  | 0 => (baseDir, [])
  | k + 1 =>
    let prev := TStrongDirCache.scan s baseDir k
    let lastSeen : EBidiDir :=
      match GetCharDirSmart s (s.length - (k + 1)) with
      | .LTR => .LTR
      | .RTL => .RTL
      | .Neutral => prev.1
    (lastSeen, lastSeen :: prev.2)

/-- The struct `TStrongDirCache`. -/
structure TStrongDirCache where
  nextStrong : List EBidiDir
  baseDir : EBidiDir

/-- The constructor `TStrongDirCache(s, n, base)`. -/
def TStrongDirCache.mk' (s : List Nat) (base : EBidiDir) : TStrongDirCache :=
  { nextStrong := (TStrongDirCache.scan s base s.length).2, baseDir := base }

/-- `TStrongDirCache::GetNextStrong`. -/
def TStrongDirCache.GetNextStrong (c : TStrongDirCache) (i : Nat) : EBidiDir :=
  if i + 1 < c.nextStrong.length then c.nextStrong.getD (i + 1) c.baseDir else c.baseDir

/-- The linear scan of `ResolveNeutralDir` (no cache), with `k = n - j` indexes left. -/
def ResolveNeutralDir.scan (s : List Nat) (baseDir : EBidiDir) : Nat → EBidiDir
  | 0 => baseDir
  | k + 1 =>
    match GetCharDirSmart s (s.length - (k + 1)) with
    | .LTR => .LTR
    | .RTL => .RTL
    | .Neutral => ResolveNeutralDir.scan s baseDir k

/-- `ResolveNeutralDir(s, n, i, baseDir, lastStrong, cache)`; `cache = nullptr` is `none`. -/
def ResolveNeutralDir (s : List Nat) (i : Nat) (baseDir lastStrong : EBidiDir)
    (cache : Option TStrongDirCache) : EBidiDir :=
  let nextStrong : EBidiDir :=
    match cache with
    | some c => c.GetNextStrong i
    | none => ResolveNeutralDir.scan s baseDir (s.length - (i + 1))
  if lastStrong = nextStrong then lastStrong
  else if nextStrong = baseDir ∧ lastStrong ≠ baseDir then lastStrong
  else if lastStrong = baseDir ∧ nextStrong ≠ baseDir then nextStrong
  else baseDir

/-- The loop of `DetectBaseDir_FirstStrong`, over the characters left. -/
def DetectBaseDir_FirstStrong.loop : List Nat → EBidiDir
  | [] => .LTR
  | ch :: rest =>
    if IsRTLCodepoint ch then .RTL
    else if IsStrongAlpha ch then .LTR
    else DetectBaseDir_FirstStrong.loop rest

/-- `DetectBaseDir_FirstStrong(s, n)`. -/
def DetectBaseDir_FirstStrong (s : List Nat) : EBidiDir :=
  if s.length = 0 then .LTR else DetectBaseDir_FirstStrong.loop s

/-- The struct `TRunInfo` of `BuildVisualBidiText_Tagless`: the run `[start, end)`. -/
structure TRunInfo where
  start : Nat
  end_ : Nat
  dir : EBidiDir
  deriving DecidableEq, Repr

/-- The variables of the run-splitting loop of `BuildVisualBidiText_Tagless`. -/
structure RunState where
  lastStrong : EBidiDir
  currentRunDir : EBidiDir
  runStart : Nat
  s_runs : List TRunInfo

/-- One iteration, at index `i`, of the run-splitting loop. -/
def BuildVisualBidiText_Tagless.step (s : List Nat) (base : EBidiDir)
    (strongCache : TStrongDirCache) (st : RunState) (i : Nat) : RunState :=
  let cd := GetCharDirSmart s i
  let d : EBidiDir :=
    match cd with
    | .RTL => .RTL
    | .LTR => .LTR
    | .Neutral => ResolveNeutralDir s i base st.lastStrong (some strongCache)
  let lastStrong : EBidiDir :=
    match cd with
    | .RTL => .RTL
    | .LTR => .LTR
    | .Neutral => st.lastStrong
  if d ≠ st.currentRunDir then
    { lastStrong := lastStrong
      currentRunDir := d
      runStart := i
      s_runs := if i > st.runStart then
          st.s_runs ++ [{ start := st.runStart, end_ := i, dir := st.currentRunDir }]
        else st.s_runs }
  else { st with lastStrong := lastStrong }

/-- Steps 1 and 2 of `BuildVisualBidiText_Tagless` for a text of length `n > 0`: the
base direction and the run list `s_runs`, the final run pushed. -/
def BuildVisualBidiText_Tagless.runs (s : List Nat) (forceRTL : Bool) : List TRunInfo :=
  let n := s.length
  let base : EBidiDir := if forceRTL then .RTL else DetectBaseDir_FirstStrong s
  let strongCache := TStrongDirCache.mk' s base
  let st := (List.range n).foldl (BuildVisualBidiText_Tagless.step s base strongCache)
    { lastStrong := base, currentRunDir := base, runStart := 0, s_runs := [] }
  if n > st.runStart then
    st.s_runs ++ [{ start := st.runStart, end_ := n, dir := st.currentRunDir }]
  else st.s_runs

/-- `SIZE_MAX` of a 64-bit build. -/
def SIZE_MAX : Nat := 2 ^ 64 - 1
def ARABIC_SHAPING_EXPANSION_FACTOR : Nat := 2
def ARABIC_SHAPING_SAFETY_MARGIN : Nat := 16
def ARABIC_SHAPING_EXPANSION_FACTOR_RETRY : Nat := 4
def ARABIC_SHAPING_SAFETY_MARGIN_RETRY : Nat := 64

/-- The conversion `(int)x` of a `size_t` value `x` to the 32-bit `int` (two's
complement). -/
def toInt32 (x : Nat) : Int :=
  if x % 4294967296 < 2147483648 then ((x % 4294967296 : Nat) : Int)
  else ((x % 4294967296 : Nat) : Int) - 4294967296

/-- The conversion of an `int` argument to a `size_t` parameter of a 64-bit build. -/
def toSizeT (i : Int) : Nat := (i % 18446744073709551616).toNat

/-- The lambda `shapeRun(start, end)` of `BuildVisualBidiText_Tagless`: the characters
of the returned `(pointer, length)` pair. The buffer handed to `Arabic_MakeShape` has
`len * 2 + 16` units; its size reaches the `size_t` parameter `dstLen` through the cast
`(int)`. The lengths `len` and `outLen` are of type `int` in the code and are not cast
here. -/
def BuildVisualBidiText_Tagless.shapeRun (s : List Nat) (start end_ : Nat) : List Nat :=
  let len := end_ - start
  if len = 0 then []
  else if len > SIZE_MAX / ARABIC_SHAPING_EXPANSION_FACTOR_RETRY - ARABIC_SHAPING_SAFETY_MARGIN_RETRY then
    (s.drop start).take len
  else
    let out := Arabic_MakeShape ((s.drop start).take len)
      (toSizeT (toInt32 (len * ARABIC_SHAPING_EXPANSION_FACTOR + ARABIC_SHAPING_SAFETY_MARGIN)))
    if out.length = 0 then (s.drop start).take len else out

/-- The lambda `emitRun(run)`: the characters it appends to `visual`. -/
def BuildVisualBidiText_Tagless.emitRun (s : List Nat) (run : TRunInfo) : List Nat :=
  if run.dir = .RTL then (BuildVisualBidiText_Tagless.shapeRun s run.start run.end_).reverse
  else (s.drop run.start).take (run.end_ - run.start)

/-- `BuildVisualBidiText_Tagless(s, n, forceRTL)`. -/
def BuildVisualBidiText_Tagless (s : List Nat) (forceRTL : Bool) : List Nat :=
  if s.length = 0 then []
  else
    let base : EBidiDir := if forceRTL then .RTL else DetectBaseDir_FirstStrong s
    let runs := BuildVisualBidiText_Tagless.runs s forceRTL
    if base = .LTR then (runs.map (BuildVisualBidiText_Tagless.emitRun s)).flatten
    else (runs.reverse.map (BuildVisualBidiText_Tagless.emitRun s)).flatten

/-- The loop of `BuildVisualChatMessage` that sets `msgHasRTL` and `msgHasTags`, over
the characters left, from the state `(msgHasRTL, msgHasTags)`. -/
def BuildVisualChatMessage.scan : List Nat → Bool × Bool → Bool × Bool
  | [], st => st
  | ch :: rest, st =>
    let msgHasRTL := if IsRTLCodepoint ch then true else st.1
    let msgHasTags := if ch = 124 then true else st.2
    if msgHasRTL && msgHasTags then (msgHasRTL, msgHasTags)
    else BuildVisualChatMessage.scan rest (msgHasRTL, msgHasTags)

/-- `BuildVisualChatMessage(name, nameLen, msg, msgLen, forceRTL)`. -/
def BuildVisualChatMessage (name msg : List Nat) (forceRTL : Bool) : List Nat :=
  if name.length = 0 ∨ msg.length = 0 then []
  else
    let msgHasTags := (BuildVisualChatMessage.scan msg (false, false)).2
    if forceRTL then
      (if msgHasTags then msg else BuildVisualBidiText_Tagless msg forceRTL) ++
        [32, 58, 32] ++ name
    else
      name ++ [32, 58, 32] ++
        (if msgHasTags then msg else BuildVisualBidiText_Tagless msg forceRTL)

/-! ## `src/EterLib/GrpTextInstance.cpp`: the layout pass `CGraphicTextInstance::Update` -/

/-- The struct `TVisChar` of `Update`: `linkIndex` is `-1` for no link, `logicalPos` is
the index in the tag-bearing text `wTextBuf`. -/
structure TVisChar where
  ch : Nat
  color : Nat
  linkIndex : Int
  logicalPos : Int
  deriving DecidableEq, Repr, Inhabited

/-- The search of `ReorderTaggedWithBidi` for the first `[` and the first `]`: the
variables `(openIdx, closeIdx)` after the loop, `-1` for not found. -/
def ReorderTaggedWithBidi.findBrackets (buf : List Nat) : Int × Int :=
  (List.range buf.length).foldl
    (fun (st : Int × Int) (i : Nat) =>
      let openIdx : Int := if buf.getD i 0 = 91 ∧ st.1 < 0 then (i : Int) else st.1
      let closeIdx : Int := if buf.getD i 0 = 93 ∧ st.2 < 0 then (i : Int) else st.2
      (openIdx, closeIdx))
    (-1, -1)

/-- The write-back of `ReorderTaggedWithBidi`: when the sizes differ, entry `i` takes the
style of `vis[min i (size - 1)]` and the character `visual[i]`; when they agree, the
characters are written over `vis` in place. -/
def ReorderTaggedWithBidi.writeBack (vis : List TVisChar) (visual : List Nat) :
    List TVisChar :=
  if visual.length ≠ vis.length then
    (List.range visual.length).map fun i =>
      let src := if i < vis.length then i else vis.length - 1
      { vis.getD src default with ch := visual.getD i 0 }
  else
    (List.range vis.length).map fun i =>
      { vis.getD i default with ch := visual.getD i 0 }

/-- The text `visual` that `ReorderTaggedWithBidi` computes from the characters `buf`
of the segment. -/
def ReorderTaggedWithBidi.visual (buf : List Nat) (forceRTL isHyperlink : Bool) : List Nat :=
  let br := ReorderTaggedWithBidi.findBrackets buf
  if isHyperlink = true ∧ buf.length > 2 ∧ br.1 ≥ 0 ∧ br.2 > br.1 then
    let openIdx := br.1.toNat
    let closeIdx := br.2.toNat
    let content := (buf.take closeIdx).drop (openIdx + 1)
    let contentVisual := BuildVisualBidiText_Tagless content false
    buf.take openIdx ++ [91] ++ contentVisual ++ [93] ++ buf.drop (closeIdx + 1)
  else BuildVisualBidiText_Tagless buf forceRTL

/-- The lambda `ReorderTaggedWithBidi(vis, forceRTL, isHyperlink)` of `Update`: the new
value of `vis` (the parameter `shapeOnly` is not read by the body). -/
def ReorderTaggedWithBidi (vis : List TVisChar) (forceRTL isHyperlink : Bool) :
    List TVisChar :=
  if vis.length = 0 then vis
  else
    ReorderTaggedWithBidi.writeBack vis
      (ReorderTaggedWithBidi.visual (vis.map (fun vc => vc.ch)) forceRTL isHyperlink)

/-- The return values of `GetTextTag` that `Update` tells apart; `TEXT_TAG_OTHER` stands
for every other value. (The enum is declared in `TextTag.h`.) -/
inductive TextTag where
  | TEXT_TAG_PLAIN
  | TEXT_TAG_COLOR
  | TEXT_TAG_RESTORE_COLOR
  | TEXT_TAG_HYPERLINK_START
  | TEXT_TAG_HYPERLINK_END
  | TEXT_TAG_OTHER
  deriving DecidableEq, Repr

/-- What a call `GetTextTag(src, maxLen, tagLen, tagExtra)` gives: the return value and
the values of the two reference parameters after the call. -/
structure TagResult where
  ret : TextTag
  tagLen : Int
  tagExtra : List Nat
  deriving Repr

/-- The type of `GetTextTag`, a function of the text from the current position to the
end and of the value of `tagLen` before the call (`tagExtra` is cleared before it). -/
abbrev TagReader := List Nat → Int → TagResult

/-- Modelled from the spec: `GetTextTag` of `TextTag.cpp`, which is not among the
sources. `|c` followed by 8 more characters is a color tag of length 10 whose payload
is those 8 characters, `|r` restores the color, `|H` starts and `|h` ends a hyperlink
section, each of length 2; anything else is a plain character. -/
def GetTextTag : TagReader := fun src _ =>
  if src.getD 0 0 = 124 ∧ 2 ≤ src.length then
    if src.getD 1 0 = 99 then
      if 10 ≤ src.length then
        { ret := .TEXT_TAG_COLOR, tagLen := 10, tagExtra := (src.drop 2).take 8 }
      else { ret := .TEXT_TAG_PLAIN, tagLen := 1, tagExtra := [] }
    else if src.getD 1 0 = 114 then { ret := .TEXT_TAG_RESTORE_COLOR, tagLen := 2, tagExtra := [] }
    else if src.getD 1 0 = 72 then { ret := .TEXT_TAG_HYPERLINK_START, tagLen := 2, tagExtra := [] }
    else if src.getD 1 0 = 104 then { ret := .TEXT_TAG_HYPERLINK_END, tagLen := 2, tagExtra := [] }
    else { ret := .TEXT_TAG_PLAIN, tagLen := 1, tagExtra := [] }
  else { ret := .TEXT_TAG_PLAIN, tagLen := 1, tagExtra := [] }

/-- The value of one hexadecimal digit, `0` for any other character. -/
def htoi.digit (c : Nat) : Nat :=
  if 48 ≤ c ∧ c ≤ 57 then c - 48
  else if 65 ≤ c ∧ c ≤ 70 then c - 55
  else if 97 ≤ c ∧ c ≤ 102 then c - 87
  else 0

/-- Modelled from the spec: `htoi(s, 8)` of `EterBase/Utils.h`, which is not among the
sources: the 32-bit value of the first 8 characters read as hexadecimal digits. -/
def htoi (s : List Nat) : Nat :=
  ((s.take 8).foldl (fun acc c => acc * 16 + htoi.digit c) 0) % 2 ^ 32

/-- The variables of the tag-parsing loop (phase 1) of `Update`. The entries of
`m_logicalToVisualPos` written in this loop are left out: the map is cleared and built
again after the segment stage. -/
structure ParseState where
  i : Nat
  tagLen : Int
  curColor : Nat
  hyperlinkStep : Nat
  hyperlinkTarget : List Nat
  activeLinkIndex : Int
  linkTargets : List (List Nat)
  logicalVis : List TVisChar
  deriving Repr

/-- The tag handling of the tag-parsing loop (the chain `if (ret == TEXT_TAG_COLOR) ...
else if (ret == TEXT_TAG_HYPERLINK_END) ...`), for a return value other than
`TEXT_TAG_PLAIN`. -/
def Update.applyTag (hexToInt : List Nat → Nat) (defaultColor : Nat) (r : TagResult)
    (st : ParseState) : ParseState :=
  match r.ret with
  | .TEXT_TAG_COLOR => { st with curColor := hexToInt r.tagExtra }
  | .TEXT_TAG_RESTORE_COLOR => { st with curColor := defaultColor }
  | .TEXT_TAG_HYPERLINK_START =>
    { st with hyperlinkStep := 1, hyperlinkTarget := [], activeLinkIndex := -1 }
  | .TEXT_TAG_HYPERLINK_END =>
    if st.hyperlinkStep = 1 then
      { st with hyperlinkStep := 2
                linkTargets := st.linkTargets ++ [st.hyperlinkTarget]
                activeLinkIndex := ((st.linkTargets ++ [st.hyperlinkTarget]).length : Int) - 1 }
    else if st.hyperlinkStep = 2 then
      { st with hyperlinkStep := 0, activeLinkIndex := -1, hyperlinkTarget := [] }
    else st
  | _ => st

/-- One iteration of the tag-parsing loop, at a state with `i < wTextLen`. -/
def Update.parseStep (getTextTag : TagReader) (hexToInt : List Nat → Nat)
    (wText : List Nat) (defaultColor : Nat) (st : ParseState) : ParseState :=
  let r := getTextTag (wText.drop st.i) st.tagLen
  let tagLen : Int := if r.tagLen ≤ 0 then 1 else r.tagLen
  if r.ret = .TEXT_TAG_PLAIN then
    let ch := wText.getD st.i 0
    if st.hyperlinkStep = 1 then
      { st with i := st.i + 1, tagLen := tagLen, hyperlinkTarget := st.hyperlinkTarget ++ [ch] }
    else
      { st with i := st.i + 1, tagLen := tagLen,
                logicalVis := st.logicalVis ++
                  [{ ch := ch, color := st.curColor, linkIndex := st.activeLinkIndex,
                     logicalPos := (st.i : Int) }] }
  else
    { Update.applyTag hexToInt defaultColor r st with
      i := st.i + tagLen.toNat, tagLen := tagLen }

/-- The tag-parsing loop `for (int i = 0; i < wTextLen; )` of `Update`. The first
argument bounds the number of iterations; `wTextLen - i` is enough since every
iteration advances `i` by at least one. -/
def Update.parseLoop (getTextTag : TagReader) (hexToInt : List Nat → Nat)
    (wText : List Nat) (defaultColor : Nat) : Nat → ParseState → ParseState
  | 0, st => st
  | fuel + 1, st =>
    if st.i < wText.length then
      Update.parseLoop getTextTag hexToInt wText defaultColor fuel
        (Update.parseStep getTextTag hexToInt wText defaultColor st)
    else st

/-- Phase 1 of the tagged path of `Update`: the state after the tag-parsing loop. -/
def Update.parse (getTextTag : TagReader) (hexToInt : List Nat → Nat)
    (wText : List Nat) (defaultColor : Nat) : ParseState :=
  Update.parseLoop getTextTag hexToInt wText defaultColor wText.length
    { i := 0, tagLen := 1, curColor := defaultColor, hyperlinkStep := 0,
      hyperlinkTarget := [], activeLinkIndex := -1, linkTargets := [], logicalVis := [] }

/-- The variables of the segment-splitting loop of `Update`. -/
structure SegState where
  segStart : Nat
  currentLinkIdx : Int
  segments : List (List TVisChar)
  isHyperlink : List Bool
  deriving Repr

/-- One iteration, at index `i`, of the segment-splitting loop. -/
def Update.splitStep (logicalVis : List TVisChar) (st : SegState) (i : Nat) : SegState :=
  let linkIdx : Int :=
    if i < logicalVis.length then (logicalVis.getD i default).linkIndex else -1
  if linkIdx ≠ st.currentLinkIdx then
    { segStart := i
      currentLinkIdx := linkIdx
      segments := st.segments ++ [(logicalVis.take i).drop st.segStart]
      isHyperlink := st.isHyperlink ++ [decide (st.currentLinkIdx ≥ 0)] }
  else st

/-- The segment-splitting loop `for (int i = 1; i <= logicalVisSize2; ++i)` of `Update`:
the state after the loop, holding `segments` and `isHyperlink`. -/
def Update.splitSegments (logicalVis : List TVisChar) : SegState :=
  (List.range' 1 logicalVis.length).foldl (Update.splitStep logicalVis)
    { segStart := 0
      currentLinkIdx := if logicalVis.length = 0 then -1 else (logicalVis.getD 0 default).linkIndex
      segments := []
      isHyperlink := [] }

/-- The per-segment BiDi loop of `Update`: non-hyperlink segments are skipped in an
input field (`m_isCursor`), every other segment goes through `ReorderTaggedWithBidi`. -/
def Update.processSegments (segments : List (List TVisChar)) (isHyperlink : List Bool)
    (baseRTL m_isCursor : Bool) : List (List TVisChar) :=
  (List.range segments.length).map fun s =>
    if m_isCursor && !(isHyperlink.getD s false) then segments.getD s []
    else ReorderTaggedWithBidi (segments.getD s []) baseRTL (isHyperlink.getD s false)

/-- The segment stage of `Update` (`if (shouldProcessBidi)`): the new `logicalVis`. -/
def Update.reorderSegments (logicalVis : List TVisChar) (hasRTL baseRTL m_isCursor
    hasHyperlinks : Bool) : List TVisChar :=
  let shouldProcessBidi := (hasRTL || baseRTL) && (!m_isCursor || hasHyperlinks)
  if shouldProcessBidi then
    let st := Update.splitSegments logicalVis
    let segments := Update.processSegments st.segments st.isHyperlink baseRTL m_isCursor
    let shouldReverseSegments := baseRTL && !m_isCursor
    if shouldReverseSegments then segments.reverse.flatten else segments.flatten
  else logicalVis

/-- The clamp of `logicalPos` into `[0, wTextLen]` in the mapping pass. -/
def Update.clampPos (wTextLen : Nat) (lp : Int) : Nat :=
  if lp < 0 then 0 else if lp > (wTextLen : Int) then wTextLen else lp.toNat

/-- One iteration, at visual index `v`, of the mapping pass, on the pair
`(m_visualToLogicalPos, m_logicalToVisualPos)`. -/
def Update.mapStep (wTextLen : Nat) (logicalVis : List TVisChar)
    (st : List Int × List Int) (v : Nat) : List Int × List Int :=
  let lp := Update.clampPos wTextLen (logicalVis.getD v default).logicalPos
  (st.1.set v (lp : Int),
    if st.2.getD lp 0 < 0 then st.2.set lp (v : Int) else st.2)

/-- One iteration, at logical index `i`, of the gap-filling loop, on the pair
`(last, m_logicalToVisualPos)`. -/
def Update.fillStep (st : Int × List Int) (i : Nat) : Int × List Int :=
  if st.2.getD i 0 < 0 then (st.1, st.2.set i st.1) else (st.2.getD i 0, st.2)

/-- The final stage of the tagged path of `Update`: the maps
`(m_visualToLogicalPos, m_logicalToVisualPos)` built from the final `logicalVis`. -/
def Update.buildMaps (wTextLen : Nat) (logicalVis : List TVisChar) : List Int × List Int :=
  let init : List Int × List Int :=
    (List.replicate (logicalVis.length + 1) (wTextLen : Int), List.replicate (wTextLen + 1) (-1))
  let pass := (List.range logicalVis.length).foldl (Update.mapStep wTextLen logicalVis) init
  let v2l := pass.1.set logicalVis.length (wTextLen : Int)
  let l2v := pass.2.set wTextLen (logicalVis.length : Int)
  let filled := (List.range (wTextLen + 1)).foldl Update.fillStep ((0 : Int), l2v)
  (v2l, filled.2)

/-- What the tagged path of `Update` leaves behind: the final `logicalVis` (the visual
stream that is drawn, with its annotations), the link targets and the position maps. -/
structure TaggedLayout where
  logicalVis : List TVisChar
  linkTargets : List (List Nat)
  m_logicalToVisualPos : List Int
  m_visualToLogicalPos : List Int
  deriving Repr

/-- What the tagless path of `Update` leaves behind: the characters `visual` given to
`__DrawCharacter`, in order, and the position maps. -/
structure TaglessLayout where
  visual : List Nat
  m_logicalToVisualPos : List Int
  m_visualToLogicalPos : List Int
  deriving Repr

/-- The tagged path of `Update` ("Case 2: Has tags") on the wide text `wText` (for a
chat message with tags, the message), up to the position maps. `baseRTL` and
`m_isCursor` are the values of the variables of that name; `getTextTag` and `hexToInt`
stand for `GetTextTag` and `htoi`. -/
def Update.tagged (getTextTag : TagReader) (hexToInt : List Nat → Nat)
    (wText : List Nat) (defaultColor : Nat) (baseRTL m_isCursor : Bool) : TaggedLayout :=
  let hasRTL := wText.any IsRTLCodepoint
  let p := Update.parse getTextTag hexToInt wText defaultColor
  let hasHyperlinks := decide (p.linkTargets.length ≠ 0)
  let logicalVis := Update.reorderSegments p.logicalVis hasRTL baseRTL m_isCursor hasHyperlinks
  let maps := Update.buildMaps wText.length logicalVis
  { logicalVis := logicalVis
    linkTargets := p.linkTargets
    m_logicalToVisualPos := maps.2
    m_visualToLogicalPos := maps.1 }

/-- The scan of the legacy tagless path of `Update` for an RTL character and for the
chat separator `" : "`: the variables `(hasRTL, isChatMessage)` after the loop that
starts at index `wTextLen - k`. -/
def Update.taglessScan (wText : List Nat) : Nat → Bool × Bool → Bool × Bool
  | 0, st => st
  | k + 1, st =>
    let i := wText.length - (k + 1)
    let hasRTL := if !st.1 && IsRTLCodepoint (wText.getD i 0) then true else st.1
    let isChatMessage :=
      if !st.2 && decide (i + 2 < wText.length) && decide (wText.getD i 0 = 32) &&
          decide (wText.getD (i + 1) 0 = 58) && decide (wText.getD (i + 2) 0 = 32) then true
      else st.2
    if hasRTL && isChatMessage then (hasRTL, isChatMessage)
    else Update.taglessScan wText k (hasRTL, isChatMessage)

/-- The tagless path of `Update` ("Case 1: No tags") on the wide text `wText`. `chat` is
`some (wName, wMsg)` when `SetChatValue` was used with a non-empty name and message,
the pair being their wide forms. Every character is drawn in the default color; the
maps are the identity maps the code builds first. An empty text does not reach this
case: `Update` returns before it through `ResetState`, which clears both maps and
draws nothing. -/
def Update.tagless (wText : List Nat) (baseRTL : Bool)
    (chat : Option (List Nat × List Nat)) : TaglessLayout :=
  if wText.length = 0 then
    { visual := [], m_logicalToVisualPos := [], m_visualToLogicalPos := [] }
  else
    let ident : List Int := (List.range (wText.length + 1)).map fun i => (i : Int)
    let visual : List Nat :=
      match chat with
      | some (wName, wMsg) => BuildVisualChatMessage wName wMsg baseRTL
      | none =>
        let f := Update.taglessScan wText wText.length (false, false)
        if f.1 || (baseRTL && f.2) then BuildVisualBidiText_Tagless wText baseRTL
        else wText
    { visual := visual
      m_logicalToVisualPos := ident
      m_visualToLogicalPos := ident }

/-- The enum `ETextDirection` of a text instance (`m_direction`). It is declared in
`GrpTextInstance.h`; `Update` names the values `RTL` and `LTR`, and `Auto` stands for
the remaining value. -/
inductive ETextDirection where
  | Auto
  | LTR
  | RTL
  deriving DecidableEq, Repr

/-- The loop of `Update` that detects the direction of the user-typed text (hyperlink
and color tags skipped), from the loop state `(i, hyperlinkStep)`: the value of
`userTextIsRTL` after the loop. The first argument bounds the number of iterations;
`wTextLen - i` is enough since every iteration advances `i`. -/
def Update.detectUserDir.loop (wText : List Nat) : Nat → Nat → Nat → Bool
  | 0, _, _ => false
  | fuel + 1, i, hyperlinkStep =>
    if i < wText.length then
      let body : Bool :=
        if hyperlinkStep = 0 then
          if IsRTLCodepoint (wText.getD i 0) then true
          else if IsStrongAlpha (wText.getD i 0) then false
          else Update.detectUserDir.loop wText fuel (i + 1) hyperlinkStep
        else Update.detectUserDir.loop wText fuel (i + 1) hyperlinkStep
      if i + 1 < wText.length ∧ wText.getD i 0 = 124 then
        if wText.getD (i + 1) 0 = 72 then
          Update.detectUserDir.loop wText fuel (i + 2) 1
        else if wText.getD (i + 1) 0 = 104 then
          Update.detectUserDir.loop wText fuel (i + 2)
            (if hyperlinkStep = 1 then 2 else if hyperlinkStep = 2 then 0 else hyperlinkStep)
        else if wText.getD (i + 1) 0 = 99 ∧ i + 10 ≤ wText.length then
          Update.detectUserDir.loop wText fuel (i + 10) hyperlinkStep
        else if wText.getD (i + 1) 0 = 114 then
          Update.detectUserDir.loop wText fuel (i + 2) hyperlinkStep
        else body
      else body
    else false

/-- The variable `userTextIsRTL` of `Update`. -/
def Update.detectUserDir (wText : List Nat) : Bool :=
  Update.detectUserDir.loop wText wText.length 0 0

/-- The variable `baseRTL` of `Update`: the requested direction, or for `Auto` the
direction of the user-typed text. -/
def Update.baseRTL (m_direction : ETextDirection) (wText : List Nat) : Bool :=
  if m_direction = .RTL then true
  else if m_direction = .LTR then false
  else Update.detectUserDir wText

/-- The variable `hasTags` of `Update`: the text holds the tag character `|`. -/
def Update.hasTags (wText : List Nat) : Bool := decide (124 ∈ wText)

/-! ## `extern/include/utf8.h`: validation and conversion -/

def MAX_TEXT_LENGTH : Nat := 65536
def MAX_CHAT_TEXT_LENGTH : Nat := 4096
def INT_MAX : Nat := 2147483647

/-- `IsValidUnicodeScalar(ch)`. -/
def IsValidUnicodeScalar (ch : Nat) : Bool :=
  if 0xD800 ≤ ch ∧ ch ≤ 0xDFFF then false
  else if (0xFDD0 ≤ ch ∧ ch ≤ 0xFDEF) ∨ (ch &&& 0xFFFE) = 0xFFFE then false
  else true

/-- `SanitizeWideString(ws)`: the new value of `ws`. The idiom
`ws.erase(std::remove_if(begin, end, pred), end)` keeps, in their order, the elements
for which `pred` is false; `pred` is `!IsValidUnicodeScalar(ch)`. -/
def SanitizeWideString (ws : List Nat) : List Nat :=
  ws.filter fun ch => !(!IsValidUnicodeScalar ch)

/-- The 64-bit value that `memcpy(&chunk, s, 8)` gives for 8 bytes (little-endian). -/
def Utf8Fast.chunk (bytes : List Nat) : Nat :=
  bytes.foldr (fun b acc => b + 256 * acc) 0

/-- `Utf8Fast::IsAsciiOnly(s, len)` on a list of bytes: the loop over the aligned
chunks of 8 bytes, then the loop over the remaining bytes. -/
def Utf8Fast.IsAsciiOnly (s : List Nat) : Bool :=
  let alignedLen := s.length - s.length % 8
  ((List.range (alignedLen / 8)).all fun c =>
      decide (Utf8Fast.chunk ((s.drop (8 * c)).take 8) &&& 0x8080808080808080 = 0)) &&
    ((s.drop alignedLen).all fun b => decide (b < 128))

/-- `Utf8Fast::AsciiToWide(s, len)`: every byte becomes the `wchar_t` of the same value. -/
def Utf8Fast.AsciiToWide (s : List Nat) : List Nat :=
  s.map fun b => b

/-- `Utf8ToWide(const std::string& s)`. The two calls of the Windows function
`MultiByteToWideChar` are the parameters: `mbLen s` is the return value of the call
without a buffer, `mbWrite s wlen` is the return value of the call with a buffer of
`wlen` units together with the content of that buffer. -/
def Utf8ToWide (mbLen : List Nat → Int) (mbWrite : List Nat → Nat → Int × List Nat)
    (s : List Nat) : List Nat :=
  if s.length = 0 then []
  else if s.length > MAX_TEXT_LENGTH ∨ s.length > INT_MAX then []
  else if Utf8Fast.IsAsciiOnly s then Utf8Fast.AsciiToWide s
  else
    let wlen := mbLen s
    if wlen ≤ 0 then []
    else
      let r := mbWrite s wlen.toNat
      if r.1 ≤ 0 ∨ r.1 ≠ wlen then [] else r.2

/-- The loop of `WideToUtf8` that sets `isAscii`, over the units left. -/
def WideToUtf8.isAscii : List Nat → Bool
  | [] => true
  | ch :: rest => if ch < 128 then WideToUtf8.isAscii rest else false

/-- `WideToUtf8(const std::wstring& ws)`. The two calls of the Windows function
`WideCharToMultiByte` are the parameters, as for `Utf8ToWide`. -/
def WideToUtf8 (wcLen : List Nat → Int) (wcWrite : List Nat → Nat → Int × List Nat)
    (ws : List Nat) : List Nat :=
  if ws.length = 0 then []
  else if ws.length > MAX_TEXT_LENGTH ∨ ws.length > INT_MAX then []
  else if WideToUtf8.isAscii ws then ws.map fun ch => ch
  else
    let len := wcLen ws
    if len ≤ 0 then []
    else
      let r := wcWrite ws len.toNat
      if r.1 ≤ 0 ∨ r.1 ≠ len then [] else r.2

/-! ## `src/EterLocale/Arabic.cpp`: the loop states of the forward pass -/

/-- The values of `(srcIndex, prevJoins)` at the head of the iterations of the forward
pass of `Arabic_MakeShape` (phase 2), from a loop state on. The control flow is that of
`Arabic_MakeShape.loop`; the writes to `dst` are left out. -/
def Arabic_MakeShape.states (src : List Nat) (tbl : List Nat) :
    Nat → Nat → Bool → List (Nat × Bool)
  | 0, _, _ => []
  | fuel + 1, srcIndex, prevJoins =>
    if srcIndex < src.length then
      let cur := src.getD srcIndex 0
      (srcIndex, prevJoins) ::
        (if Arabic_IsInComposing cur then
          Arabic_MakeShape.states src tbl fuel (srcIndex + 1) prevJoins
        else if Arabic_IsInMap cur then
          let nextIdx := tbl.getD srcIndex 0
          let next : Nat :=
            if nextIdx < src.length then
              (if Arabic_CanJoinLeft (src.getD nextIdx 0) then src.getD nextIdx 0 else 0)
            else 0
          if Arabic_IsComb1 cur && decide (nextIdx < src.length) &&
              Arabic_IsComb2 (src.getD nextIdx 0) then
            Arabic_MakeShape.states src tbl fuel (nextIdx + 1) false
          else
            Arabic_MakeShape.states src tbl fuel (srcIndex + 1)
              (Arabic_MakeShape.selectForm cur prevJoins next).2
        else Arabic_MakeShape.states src tbl fuel (srcIndex + 1) false)
    else []

/-! ## Predicates used by the statements below -/

/-- The relation between two adjacent runs: contiguous, and of different directions. -/
def RunLink (a b : TRunInfo) : Prop := b.start = a.end_ ∧ b.dir ≠ a.dir

/-- The invariant of the run-splitting loop before the iteration at index `i`. -/
def RunsInv (i : Nat) (st : RunState) : Prop :=
  (∀ r ∈ st.s_runs, r.start < r.end_) ∧
  List.Chain' RunLink st.s_runs ∧
  (∀ r, st.s_runs.head? = some r → r.start = 0) ∧
  (st.s_runs = [] → st.runStart = 0) ∧
  (∀ r, st.s_runs.getLast? = some r → r.end_ = st.runStart ∧ r.dir ≠ st.currentRunDir) ∧
  (st.runStart < i ∨ (i = 0 ∧ st.runStart = 0))

/-- The 12-character text `"Hello "` followed by U+0627 U+062E U+062A U+0628 U+0627 U+0631. -/
def helloArabic : List Nat :=
  [72, 101, 108, 108, 111, 32, 0x0627, 0x062E, 0x062A, 0x0628, 0x0627, 0x0631]

/-- The invariant of the tag-parsing loop: the visible characters collected so far carry
strictly increasing logical positions, all of them indexes of the text below `i`. -/
def ParseInv (wTextLen : Nat) (st : ParseState) : Prop :=
  List.Pairwise (fun a b : Int => a < b) (st.logicalVis.map (fun vc => vc.logicalPos)) ∧
  ∀ e ∈ st.logicalVis, 0 ≤ e.logicalPos ∧ e.logicalPos < (st.i : Int) ∧
    e.logicalPos < (wTextLen : Int)

/-- The first index at which `i` occurs in `l`, or `-1` when it does not occur. -/
def firstIdx (l : List Nat) (i : Nat) : Int :=
  if i ∈ l then (l.indexOf i : Int) else -1

/-- The value of `last` in the gap-filling loop before the iteration at index `k`, as a
function of the map `l0` the loop starts from: the entry of the greatest index below `k`
that is set (not negative), or `0`. -/
def lastSet (l0 : List Int) : Nat → Int
  | 0 => 0
  | k + 1 => if l0.getD k 0 < 0 then lastSet l0 k else l0.getD k 0

/-- The clamped logical positions of a visual stream, in visual order. -/
def clampedPositions (wTextLen : Nat) (logicalVis : List TVisChar) : List Nat :=
  logicalVis.map (fun vc => Update.clampPos wTextLen vc.logicalPos)

/-- The logical offset `j` has a direct visual occurrence: some entry of the visual
stream has `logicalPos = j`. -/
def HasVisual (logicalVis : List TVisChar) (j : Nat) : Prop :=
  ∃ v, v < logicalVis.length ∧ (logicalVis.getD v default).logicalPos = (j : Int)

/-- The map `m_logicalToVisualPos` after the mapping pass and the two end assignments,
before gap filling. -/
def Update.mapsBeforeFill (wTextLen : Nat) (logicalVis : List TVisChar) : List Int :=
  ((List.range logicalVis.length).foldl (Update.mapStep wTextLen logicalVis)
    (List.replicate (logicalVis.length + 1) (wTextLen : Int),
      List.replicate (wTextLen + 1) (-1))).2.set wTextLen (logicalVis.length : Int)

/-- The statement of gap filling at the logical offset `i`, for a visual stream
`logicalVis`, a map `l2v` and a text of length `wTextLen`: an offset with a direct visual
occurrence maps to the smallest visual index that shows it; the end offset maps to the
length of the stream; any other offset takes the value of the greatest offset below
that has an occurrence, or `0`; and the entry lies in `[0, visualLen]`. -/
def GapFilledAt (logicalVis : List TVisChar) (l2v : List Int) (wTextLen i : Nat) : Prop :=
  (HasVisual logicalVis i →
    ∃ v, v < logicalVis.length ∧ l2v.getD i 0 = (v : Int) ∧
      (logicalVis.getD v default).logicalPos = (i : Int) ∧
      ∀ u, u < v → (logicalVis.getD u default).logicalPos ≠ (i : Int)) ∧
  (i = wTextLen → l2v.getD i 0 = (logicalVis.length : Int)) ∧
  (¬ HasVisual logicalVis i → i < wTextLen →
    (∃ j, j < i ∧ HasVisual logicalVis j ∧ (∀ k, j < k → k < i → ¬ HasVisual logicalVis k) ∧
      l2v.getD i 0 = l2v.getD j 0) ∨
    ((∀ j, j < i → ¬ HasVisual logicalVis j) ∧ l2v.getD i 0 = 0)) ∧
  (0 ≤ l2v.getD i 0 ∧ l2v.getD i 0 ≤ (logicalVis.length : Int))

/-- The tagged text U+05D0, space, `|Hx|h[`, U+05D0, U+05D1, `]|h`: a Hebrew letter and
a space followed by a hyperlink whose visible text is a bracketed Hebrew word. -/
def linkText : List Nat :=
  [0x05D0, 32, 124, 72, 120, 124, 104, 91, 0x05D0, 0x05D1, 93, 124, 104]

/-- The test of phase 1 of `Arabic_MakeShape` for "a non-composing Arabic letter". -/
def Arabic_MakeShape.isLetter (ch : Nat) : Bool :=
  Arabic_IsInMap ch && !Arabic_IsInComposing ch

/-- The index `j` is the first index of `src` at or after `a` that holds a non-composing
Arabic letter, or `srcLen` when there is none. -/
def FirstLetterFrom (src : List Nat) (a j : Nat) : Prop :=
  a ≤ j ∧ j ≤ src.length ∧
  (∀ m, a ≤ m → m < j → Arabic_MakeShape.isLetter (src.getD m 0) = false) ∧
  (j < src.length → Arabic_MakeShape.isLetter (src.getD j 0) = true)

/-- The tag-bearing text U+05D0, U+05D1, `|r`: two Hebrew letters and a restore tag. -/
def hebrewText : List Nat := [0x05D0, 0x05D1, 124, 114]

/-- The segment that the two Hebrew letters of `hebrewText` form: the first in the color
`1`, the second in the color `2`, no link, logical positions `0` and `1`. -/
def hebrewSegment : List TVisChar :=
  [{ ch := 0x05D0, color := 1, linkIndex := -1, logicalPos := 0 },
   { ch := 0x05D1, color := 2, linkIndex := -1, logicalPos := 1 }]

/-- The tagged text `|cFF0000FFRed|r normal`. -/
def redText : List Nat :=
  [124, 99, 70, 70, 48, 48, 48, 48, 70, 70, 82, 101, 100, 124, 114,
   32, 110, 111, 114, 109, 97, 108]

/-- The visible text `Buy [Sword+9]`. -/
def buySword : List Nat := [66, 117, 121, 32, 91, 83, 119, 111, 114, 100, 43, 57, 93]

/-- The stream of a hyperlink segment with the characters `buf`: one color, the link `0`,
logical positions counted from `0`. -/
def linkSegment (buf : List Nat) : List TVisChar :=
  (List.range buf.length).map fun i =>
    { ch := buf.getD i 0, color := 7, linkIndex := 0, logicalPos := (i : Int) }

/-- The visible text `[`, U+062F U+0631 U+0639 (an Arabic word), `+9`, `]`. -/
def arabicItem : List Nat := [91, 0x062F, 0x0631, 0x0639, 43, 57, 93]

/-- The tagged text `a|Hxyz`: a character, a hyperlink-start tag and three characters
of metadata, with no hyperlink-end tag. -/
def openLinkText : List Nat := [97, 124, 72, 120, 121, 122]

/-- The state of the tag-parsing loop on `openLinkText` after the hyperlink-start tag. -/
def openLinkState : ParseState :=
  { i := 3, tagLen := 2, curColor := 5, hyperlinkStep := 1, hyperlinkTarget := [],
    activeLinkIndex := -1, linkTargets := [],
    logicalVis := [{ ch := 97, color := 5, linkIndex := -1, logicalPos := 0 }] }

/-- A code unit that `SanitizeWideString` is said to remove: a surrogate, a code in
U+FDD0..U+FDEF, U+FFFE or U+FFFF. -/
def IsInvalidScalar (ch : Nat) : Prop :=
  (0xD800 ≤ ch ∧ ch ≤ 0xDFFF) ∨ (0xFDD0 ≤ ch ∧ ch ≤ 0xFDEF) ∨ ch = 0xFFFE ∨ ch = 0xFFFF

instance (ch : Nat) : Decidable (IsInvalidScalar ch) := by
  unfold IsInvalidScalar; infer_instance

/-- The direction `d` is the direction of the first index after `i` that
`GetCharDirSmart` classifies LTR or RTL, or the base direction when there is none. -/
def IsNextStrongAfter (s : List Nat) (base : EBidiDir) (i : Nat) (d : EBidiDir) : Prop :=
  (∃ j, i < j ∧ j < s.length ∧
      (∀ m, i < m → m < j → GetCharDirSmart s m = ECharDir.Neutral) ∧
      ((GetCharDirSmart s j = ECharDir.LTR ∧ d = EBidiDir.LTR) ∨
        (GetCharDirSmart s j = ECharDir.RTL ∧ d = EBidiDir.RTL))) ∨
  ((∀ m, i < m → m < s.length → GetCharDirSmart s m = ECharDir.Neutral) ∧ d = base)

/-- A character to which the `%` rule attaches a percent sign: a digit, `%`, `-` or `+`. -/
def IsPercentAnchor (ch : Nat) : Bool :=
  IsDigit ch || decide (ch = 37) || decide (ch = 45) || decide (ch = 43)

/-- The presentation form that `Arabic_MakeShape` writes for a letter `c` without an
Initial and without a Medial form: the Final form when the previous letter joins to it
and the table has one, else the Isolated form, else the code itself. -/
def finalOrIsolated (c : Nat) (prevJoins : Bool) : Nat :=
  if prevJoins = true ∧ Arabic_GetMap c .FINAL ≠ 0 then Arabic_GetMap c .FINAL
  else if Arabic_GetMap c .ISOLATED ≠ 0 then Arabic_GetMap c .ISOLATED
  else c

/-- Every index of the run `r` that `GetCharDirSmart` classifies LTR lies in an LTR run. -/
def LtrRun (s : List Nat) (r : TRunInfo) : Prop :=
  ∀ j, r.start ≤ j → j < r.end_ → GetCharDirSmart s j = ECharDir.LTR → r.dir = EBidiDir.LTR

/-- The invariant of the run-splitting loop before the iteration at index `k`, for the
indexes classified LTR: the closed runs and the open run that hold one are LTR runs. -/
def LtrInv (s : List Nat) (k : Nat) (st : RunState) : Prop :=
  (∀ r ∈ st.s_runs, LtrRun s r) ∧
  ∀ j, st.runStart ≤ j → j < k → GetCharDirSmart s j = ECharDir.LTR →
    st.currentRunDir = EBidiDir.LTR

/-! # Theorems -/

/-! ## The run partition (C1) and the mixed text scenario (C2) -/

theorem runsInv_push (i : Nat) (st : RunState) (d : EBidiDir) (ls : EBidiDir)
    (h : RunsInv i st) (hd : d ≠ st.currentRunDir) :
    RunsInv (i + 1)
      { lastStrong := ls, currentRunDir := d, runStart := i,
        s_runs := if i > st.runStart then
            st.s_runs ++ [{ start := st.runStart, end_ := i, dir := st.currentRunDir }]
          else st.s_runs } := by
  obtain ⟨h1, h2, h3, h4, h5, h6⟩ := h
  by_cases hi : i > st.runStart
  · simp only [hi, if_true]
    refine ⟨?_, ?_, ?_, ?_, ?_, ?_⟩
    · intro r hr
      rcases List.mem_append.1 hr with hr | hr
      · exact h1 r hr
      · simp at hr; subst hr; exact hi
    · rw [List.chain'_append]
      refine ⟨h2, List.chain'_singleton _, ?_⟩
      intro x hx y hy
      simp at hy
      subst hy
      have := h5 x (by simpa using hx)
      exact ⟨this.1.symm, fun e => this.2 e.symm⟩
    · intro r hr
      cases hl : st.s_runs with
      | nil =>
        simp [hl] at hr
        subst hr
        exact h4 hl
      | cons a l =>
        simp [hl] at hr
        subst hr
        exact h3 a (by simp [hl])
    · intro hnil
      simp at hnil
    · intro r hr
      simp at hr
      subst hr
      exact ⟨rfl, fun e => hd e.symm⟩
    · exact Or.inl (Nat.lt_succ_self i)
  · simp only [hi, if_false]
    have hi0 : i = 0 ∧ st.runStart = 0 := by
      rcases h6 with h6 | h6
      · exact absurd h6 hi
      · exact h6
    have hnil : st.s_runs = [] := by
      cases hl : st.s_runs with
      | nil => rfl
      | cons a l =>
        exfalso
        have hne : st.s_runs ≠ [] := by simp [hl]
        have hlast := h5 (st.s_runs.getLast hne) (List.getLast?_eq_getLast _ hne)
        have hmem := h1 _ (List.getLast_mem hne)
        omega
    refine ⟨h1, h2, h3, fun _ => hi0.1, ?_, Or.inl (Nat.lt_succ_self i)⟩
    intro r hr
    simp [hnil] at hr

theorem runsInv_step (s : List Nat) (base : EBidiDir) (c : TStrongDirCache) (i : Nat)
    (st : RunState) (h : RunsInv i st) :
    RunsInv (i + 1) (BuildVisualBidiText_Tagless.step s base c st i) := by
  unfold BuildVisualBidiText_Tagless.step
  simp only
  split
  · exact runsInv_push i st _ _ h (by assumption)
  · obtain ⟨h1, h2, h3, h4, h5, h6⟩ := h
    refine ⟨h1, h2, h3, h4, h5, ?_⟩
    rcases h6 with h6 | h6
    · exact Or.inl (Nat.lt_succ_of_lt h6)
    · exact Or.inl (by simp [h6.2])

theorem runsInv_foldl (s : List Nat) (base : EBidiDir) (c : TStrongDirCache) (st0 : RunState)
    (h0 : RunsInv 0 st0) (n : Nat) :
    RunsInv n ((List.range n).foldl (BuildVisualBidiText_Tagless.step s base c) st0) := by
  induction n with
  | zero => simpa using h0
  | succ n ih =>
    rw [List.range_succ, List.foldl_append]
    exact runsInv_step s base c n _ ih

/-- The run list of a non-empty text is a partition of `[0, n)` into runs of alternating
directions. -/
theorem runs_partition_aux (s : List Nat) (forceRTL : Bool) (hs : s ≠ []) :
    (∃ r, (BuildVisualBidiText_Tagless.runs s forceRTL).head? = some r ∧ r.start = 0) ∧
    (∀ r ∈ BuildVisualBidiText_Tagless.runs s forceRTL, r.start < r.end_) ∧
    List.Chain' (fun a b : TRunInfo => b.start = a.end_ ∧ b.dir ≠ a.dir)
      (BuildVisualBidiText_Tagless.runs s forceRTL) ∧
    (∃ r, (BuildVisualBidiText_Tagless.runs s forceRTL).getLast? = some r ∧
      r.end_ = s.length) := by
  have hn : 0 < s.length := List.length_pos.2 hs
  unfold BuildVisualBidiText_Tagless.runs
  simp only
  generalize hbase : (if forceRTL = true then EBidiDir.RTL else DetectBaseDir_FirstStrong s) = base
  have hinv := runsInv_foldl s base (TStrongDirCache.mk' s base)
    { lastStrong := base, currentRunDir := base, runStart := 0, s_runs := [] }
    (by
      refine ⟨?_, ?_, ?_, ?_, ?_, ?_⟩ <;> simp) s.length
  generalize (List.range s.length).foldl _ _ = st at hinv ⊢
  obtain ⟨h1, h2, h3, h4, h5, h6⟩ := hinv
  have hlt : st.runStart < s.length := by
    rcases h6 with h6 | h6
    · exact h6
    · omega
  simp only [gt_iff_lt, hlt, if_true]
  refine ⟨?_, ?_, ?_, ?_⟩
  · cases hl : st.s_runs with
    | nil => exact ⟨{ start := st.runStart, end_ := s.length, dir := st.currentRunDir }, by simp, h4 hl⟩
    | cons a l => exact ⟨a, by simp, h3 a (by simp [hl])⟩
  · intro r hr
    rcases List.mem_append.1 hr with hr | hr
    · exact h1 r hr
    · simp at hr; subst hr; exact hlt
  · rw [List.chain'_append]
    refine ⟨h2, List.chain'_singleton _, ?_⟩
    intro x hx y hy
    simp at hy
    subst hy
    have := h5 x (by simpa using hx)
    exact ⟨this.1.symm, fun e => this.2 e.symm⟩
  · exact ⟨{ start := st.runStart, end_ := s.length, dir := st.currentRunDir }, by simp, rfl⟩


/-- C1: the run list that `BuildVisualBidiText_Tagless` builds for a non-empty text is a
partition of `[0, n)`: the first run starts at `0`, no run is empty, every run starts
where the run before it ends and has the other direction, and the last run ends at `n`. -/
theorem C1_runs_partition (s : List Nat) (forceRTL : Bool) (hs : s ≠ []) :
    (∃ r, (BuildVisualBidiText_Tagless.runs s forceRTL).head? = some r ∧ r.start = 0) ∧
    (∀ r ∈ BuildVisualBidiText_Tagless.runs s forceRTL, r.start < r.end_) ∧
    List.Chain' (fun a b : TRunInfo => b.start = a.end_ ∧ b.dir ≠ a.dir)
      (BuildVisualBidiText_Tagless.runs s forceRTL) ∧
    (∃ r, (BuildVisualBidiText_Tagless.runs s forceRTL).getLast? = some r ∧
      r.end_ = s.length) :=
  runs_partition_aux s forceRTL hs

/-- The partition property of C1 at the text `"Hello "` followed by an Arabic word, which
is not empty. -/
theorem C1_runs_partition_witness :
    helloArabic ≠ [] ∧
    ((∃ r, (BuildVisualBidiText_Tagless.runs helloArabic false).head? = some r ∧ r.start = 0) ∧
    (∀ r ∈ BuildVisualBidiText_Tagless.runs helloArabic false, r.start < r.end_) ∧
    List.Chain' (fun a b : TRunInfo => b.start = a.end_ ∧ b.dir ≠ a.dir)
      (BuildVisualBidiText_Tagless.runs helloArabic false) ∧
    (∃ r, (BuildVisualBidiText_Tagless.runs helloArabic false).getLast? = some r ∧
      r.end_ = helloArabic.length)) :=
  ⟨by decide, C1_runs_partition helloArabic false (by decide)⟩

/-- C2: for `"Hello "` followed by the Arabic word, with `forceRTL = false`, the base
direction is LTR and the visual text is `"Hello "` unchanged followed by the word shaped
and character-reversed, U+FEAD U+FE8E U+FE92 U+FE98 U+FEA7 U+FE8D. -/
theorem C2_hello_arabic :
    DetectBaseDir_FirstStrong helloArabic = EBidiDir.LTR ∧
    BuildVisualBidiText_Tagless helloArabic false =
      [72, 101, 108, 108, 111, 32, 0xFEAD, 0xFE8E, 0xFE92, 0xFE98, 0xFEA7, 0xFE8D] := by
  decide

/-! ## The visual text is never longer than the logical text -/

theorem loop_length_le (src : List Nat) (dstLen : Nat) (tbl : List Nat) :
    ∀ (fuel srcIndex : Nat) (prevJoins : Bool) (dstIndex : Nat),
      (Arabic_MakeShape.loop src dstLen tbl fuel srcIndex prevJoins dstIndex).length ≤ fuel := by
  intro fuel
  induction fuel with
  | zero => intro i pj d; simp [Arabic_MakeShape.loop]
  | succ fuel ih =>
    intro i pj d
    unfold Arabic_MakeShape.loop
    simp only
    split_ifs <;>
      first
        | exact Nat.zero_le _
        | exact Nat.succ_le_succ (ih _ _ _)
        | exact Nat.le_succ_of_le (ih _ _ _)

theorem Arabic_MakeShape_length_le (src : List Nat) (dstLen : Nat) :
    (Arabic_MakeShape src dstLen).length ≤ src.length := by
  unfold Arabic_MakeShape
  split_ifs
  · simp
  · exact loop_length_le _ _ _ _ _ _ _

theorem shapeRun_length_le (s : List Nat) (a b : Nat) :
    (BuildVisualBidiText_Tagless.shapeRun s a b).length ≤ b - a := by
  unfold BuildVisualBidiText_Tagless.shapeRun
  simp only
  have htake : ((s.drop a).take (b - a)).length ≤ b - a := by
    simp [List.length_take]
  split_ifs
  · simp
  · exact htake
  · exact htake
  · exact le_trans (Arabic_MakeShape_length_le _ _) htake

theorem emitRun_length_le (s : List Nat) (r : TRunInfo) :
    (BuildVisualBidiText_Tagless.emitRun s r).length ≤ r.end_ - r.start := by
  unfold BuildVisualBidiText_Tagless.emitRun
  split_ifs
  · rw [List.length_reverse]; exact shapeRun_length_le _ _ _
  · simp [List.length_take]

theorem chain_span_sum : ∀ (runs : List TRunInfo) (a b : Nat),
    List.Chain' (fun x y : TRunInfo => y.start = x.end_ ∧ y.dir ≠ x.dir) runs →
    (∀ r ∈ runs, r.start < r.end_) →
    (∀ r, runs.head? = some r → r.start = a) →
    (∀ r, runs.getLast? = some r → r.end_ = b) →
    runs ≠ [] →
    (runs.map (fun r => r.end_ - r.start)).sum = b - a ∧ a < b := by
  intro runs
  induction runs with
  | nil => intro a b _ _ _ _ h; exact absurd rfl h
  | cons r rest ih =>
    intro a b hc hpos hhead hlast _
    have hra : r.start = a := hhead r rfl
    have hr : r.start < r.end_ := hpos r (List.mem_cons_self _ _)
    cases rest with
    | nil =>
      have hrb : r.end_ = b := hlast r rfl
      simp
      omega
    | cons r2 rest2 =>
      have hc2 := List.chain'_cons.1 hc
      have := ih r.end_ b hc2.2 (fun x hx => hpos x (List.mem_cons_of_mem _ hx))
        (fun x hx => by simp at hx; subst hx; exact hc2.1.1)
        (fun x hx => hlast x (by simpa [List.getLast?_cons_cons] using hx))
        (by simp)
      simp only [List.map_cons, List.sum_cons] at this ⊢
      omega

theorem map_length_sum_le {α : Type} (f : α → List Nat) (g : α → Nat)
    (h : ∀ x, (f x).length ≤ g x) :
    ∀ l : List α, ((l.map f).flatten).length ≤ (l.map g).sum := by
  intro l
  induction l with
  | nil => simp
  | cons x l ih =>
    simp only [List.map_cons, List.flatten_cons, List.length_append, List.sum_cons]
    have := h x
    omega


theorem BuildVisualBidiText_Tagless_length_le (s : List Nat) (forceRTL : Bool) :
    (BuildVisualBidiText_Tagless s forceRTL).length ≤ s.length := by
  unfold BuildVisualBidiText_Tagless
  by_cases h0 : s.length = 0
  · simp [h0]
  · have hs : s ≠ [] := fun e => h0 (by simp [e])
    obtain ⟨⟨r0, hr0, hr0s⟩, hpos, hchain, ⟨rl, hrl, hrle⟩⟩ := runs_partition_aux s forceRTL hs
    have hne : BuildVisualBidiText_Tagless.runs s forceRTL ≠ [] := by
      intro e; rw [e] at hr0; simp at hr0
    have hsum := (chain_span_sum _ 0 s.length hchain hpos
      (fun r hr => by rw [hr0] at hr; cases hr; exact hr0s)
      (fun r hr => by rw [hrl] at hr; cases hr; exact hrle) hne).1
    have hA : ((BuildVisualBidiText_Tagless.runs s forceRTL).map
        (BuildVisualBidiText_Tagless.emitRun s)).flatten.length ≤ s.length := by
      calc _ ≤ ((BuildVisualBidiText_Tagless.runs s forceRTL).map
              (fun r => r.end_ - r.start)).sum :=
            map_length_sum_le _ _ (emitRun_length_le s) _
        _ = s.length := by rw [hsum]; rfl
    have hB : ((BuildVisualBidiText_Tagless.runs s forceRTL).reverse.map
        (BuildVisualBidiText_Tagless.emitRun s)).flatten.length ≤ s.length := by
      calc _ ≤ ((BuildVisualBidiText_Tagless.runs s forceRTL).reverse.map
              (fun r => r.end_ - r.start)).sum :=
            map_length_sum_le _ _ (emitRun_length_le s) _
        _ = s.length := by rw [List.map_reverse, List.sum_reverse, hsum]; rfl
    simp only [h0, if_false]
    split_ifs <;> assumption

/-- Each index found by the bracket search is `-1` or an index of the text. -/
theorem findBrackets_lt (buf : List Nat) :
    (ReorderTaggedWithBidi.findBrackets buf).1 < (buf.length : Int) ∧
    (ReorderTaggedWithBidi.findBrackets buf).2 < (buf.length : Int) := by
  unfold ReorderTaggedWithBidi.findBrackets
  have key : ∀ n : Nat,
      ((List.range n).foldl
        (fun (st : Int × Int) (i : Nat) =>
          ((if buf.getD i 0 = 91 ∧ st.1 < 0 then (i : Int) else st.1),
           (if buf.getD i 0 = 93 ∧ st.2 < 0 then (i : Int) else st.2)))
        (-1, -1)).1 < (n : Int) ∧
      ((List.range n).foldl
        (fun (st : Int × Int) (i : Nat) =>
          ((if buf.getD i 0 = 91 ∧ st.1 < 0 then (i : Int) else st.1),
           (if buf.getD i 0 = 93 ∧ st.2 < 0 then (i : Int) else st.2)))
        (-1, -1)).2 < (n : Int) := by
    intro n
    induction n with
    | zero => simp
    | succ n ih =>
      rw [List.range_succ, List.foldl_append]
      simp only [List.foldl_cons, List.foldl_nil]
      obtain ⟨h1, h2⟩ := ih
      constructor
      · split_ifs <;> push_cast <;> omega
      · split_ifs <;> push_cast <;> omega
  exact key buf.length

theorem visual_length_le (buf : List Nat) (forceRTL isHyperlink : Bool) :
    (ReorderTaggedWithBidi.visual buf forceRTL isHyperlink).length ≤ buf.length := by
  unfold ReorderTaggedWithBidi.visual
  simp only
  obtain ⟨h1, h2⟩ := findBrackets_lt buf
  split_ifs with h
  · obtain ⟨_, _, ho, hc⟩ := h
    have hcv := BuildVisualBidiText_Tagless_length_le
      ((buf.take (ReorderTaggedWithBidi.findBrackets buf).2.toNat).drop
        ((ReorderTaggedWithBidi.findBrackets buf).1.toNat + 1)) false
    simp only [List.length_append, List.length_take, List.length_drop, List.length_cons,
      List.length_nil] at hcv ⊢
    omega
  · exact BuildVisualBidiText_Tagless_length_le _ _

/-- When the visual text is not longer than the segment, the write-back pairs entry `i`
of the segment with character `i` of the visual text. -/
theorem writeBack_eq_zipWith (vis : List TVisChar) (visual : List Nat)
    (h : visual.length ≤ vis.length) :
    ReorderTaggedWithBidi.writeBack vis visual =
      List.zipWith (fun vc c => { vc with ch := c }) vis visual := by
  unfold ReorderTaggedWithBidi.writeBack
  apply List.ext_getElem
  · split_ifs <;> simp <;> omega
  · intro i h1 h2
    have hi2 : i < visual.length := by
      simp at h2; omega
    have hi1 : i < vis.length := by omega
    split_ifs <;>
      simp [List.getD_eq_getElem?_getD, List.getElem?_eq_getElem hi1,
        List.getElem?_eq_getElem hi2, hi1]

theorem writeBack_logicalPos (vis : List TVisChar) (visual : List Nat)
    (h : visual.length ≤ vis.length) :
    (ReorderTaggedWithBidi.writeBack vis visual).map (fun vc => vc.logicalPos) =
      (vis.map (fun vc => vc.logicalPos)).take visual.length := by
  rw [writeBack_eq_zipWith vis visual h]
  apply List.ext_getElem
  · simp; omega
  · intro i h1 h2
    simp

theorem Reorder_keeps_leading_positions (vis : List TVisChar) (forceRTL isHyperlink : Bool) :
    (ReorderTaggedWithBidi vis forceRTL isHyperlink).map (fun vc => vc.logicalPos) <+:
      vis.map (fun vc => vc.logicalPos) := by
  unfold ReorderTaggedWithBidi
  split_ifs
  · exact List.prefix_refl _
  · rw [writeBack_logicalPos]
    · exact List.take_prefix _ _
    · have := visual_length_le (vis.map (fun vc => vc.ch)) forceRTL isHyperlink
      simpa using this


/-! ## The tag-parsing loop -/

theorem parseStep_logicalVis (g : TagReader) (hx : List Nat → Nat) (wText : List Nat)
    (dc : Nat) (st : ParseState) :
    (Update.parseStep g hx wText dc st).logicalVis = st.logicalVis ∨
    ∃ e : TVisChar, e.logicalPos = (st.i : Int) ∧
      (Update.parseStep g hx wText dc st).logicalVis = st.logicalVis ++ [e] := by
  unfold Update.parseStep
  simp only
  by_cases h1 : (g (List.drop st.i wText) st.tagLen).ret = TextTag.TEXT_TAG_PLAIN
  · rw [if_pos h1]
    by_cases h2 : st.hyperlinkStep = 1
    · rw [if_pos h2]
      exact Or.inl rfl
    · rw [if_neg h2]
      exact Or.inr ⟨_, rfl, rfl⟩
  · rw [if_neg h1]
    left
    show (Update.applyTag hx dc _ st).logicalVis = st.logicalVis
    unfold Update.applyTag
    split <;> (try split_ifs) <;> rfl

theorem parseStep_i (g : TagReader) (hx : List Nat → Nat) (wText : List Nat)
    (dc : Nat) (st : ParseState) :
    st.i < (Update.parseStep g hx wText dc st).i := by
  unfold Update.parseStep
  simp only
  by_cases h1 : (g (List.drop st.i wText) st.tagLen).ret = TextTag.TEXT_TAG_PLAIN
  · simp only [h1, if_true]
    by_cases h2 : st.hyperlinkStep = 1
    · simp only [h2, if_true]
      exact Nat.lt_succ_self _
    · simp only [h2, if_false]
      exact Nat.lt_succ_self _
  · simp only [h1, if_false]
    have : 1 ≤ (if (g (List.drop st.i wText) st.tagLen).tagLen ≤ 0 then (1 : Int)
        else (g (List.drop st.i wText) st.tagLen).tagLen).toNat := by
      split_ifs <;> omega
    omega

theorem parseStep_inv (g : TagReader) (hx : List Nat → Nat) (wText : List Nat) (dc : Nat)
    (st : ParseState) (hi : st.i < wText.length) (h : ParseInv wText.length st) :
    ParseInv wText.length (Update.parseStep g hx wText dc st) ∧
    st.i < (Update.parseStep g hx wText dc st).i := by
  obtain ⟨hp, hb⟩ := h
  have hlt := parseStep_i g hx wText dc st
  refine ⟨?_, hlt⟩
  rcases parseStep_logicalVis g hx wText dc st with hv | ⟨e, he, hv⟩
  · refine ⟨by rw [hv]; exact hp, ?_⟩
    intro x hxm
    rw [hv] at hxm
    have := hb x hxm
    omega
  · refine ⟨?_, ?_⟩
    · rw [hv]
      simp only [List.map_append, List.map_cons, List.map_nil]
      rw [List.pairwise_append]
      refine ⟨hp, List.pairwise_singleton _ _, ?_⟩
      intro a ha b hb'
      simp at hb'
      subst hb'
      obtain ⟨x, hxm, rfl⟩ := List.mem_map.1 ha
      rw [he]
      exact (hb x hxm).2.1
    · intro x hxm
      rw [hv] at hxm
      rcases List.mem_append.1 hxm with hxm | hxm
      · have := hb x hxm
        omega
      · simp at hxm
        subst hxm
        omega

theorem parseLoop_inv (g : TagReader) (hx : List Nat → Nat) (wText : List Nat) (dc : Nat) :
    ∀ (fuel : Nat) (st : ParseState), ParseInv wText.length st →
      wText.length ≤ st.i + fuel →
      ParseInv wText.length (Update.parseLoop g hx wText dc fuel st) ∧
      wText.length ≤ (Update.parseLoop g hx wText dc fuel st).i := by
  intro fuel
  induction fuel with
  | zero =>
    intro st h hf
    simp only [Update.parseLoop]
    exact ⟨h, by omega⟩
  | succ fuel ih =>
    intro st h hf
    unfold Update.parseLoop
    split_ifs with hi
    · have := parseStep_inv g hx wText dc st hi h
      exact ih _ this.1 (by omega)
    · exact ⟨h, by omega⟩

/-- The tag-parsing loop of `Update` runs to the end of the text (its bound on the number
of iterations is not reached before `i >= wTextLen`), and the visible characters it
collects carry strictly increasing logical positions inside the text. -/
theorem parse_inv (g : TagReader) (hx : List Nat → Nat) (wText : List Nat) (dc : Nat) :
    ParseInv wText.length (Update.parse g hx wText dc) ∧
    wText.length ≤ (Update.parse g hx wText dc).i := by
  unfold Update.parse
  apply parseLoop_inv
  · refine ⟨?_, ?_⟩ <;> simp
  · simp


/-! ## The segment stage -/

theorem take_append_drop_take {α : Type} (l : List α) (a i : Nat) (h : a ≤ i) :
    l.take a ++ (l.take i).drop a = l.take i := by
  have : l.take a = (l.take i).take a := by
    rw [List.take_take, Nat.min_eq_left h]
  rw [this, List.take_append_drop]

/-- The segments pushed by the first `n` iterations of the segment-splitting loop are
the stream up to `segStart`, cut into pieces. -/
theorem splitSegments_take (lv : List TVisChar) (st0 : SegState)
    (h0 : st0.segments.flatten = lv.take st0.segStart) (hs0 : st0.segStart = 0) :
    ∀ n : Nat,
      ((List.range' 1 n).foldl (Update.splitStep lv) st0).segments.flatten =
        lv.take ((List.range' 1 n).foldl (Update.splitStep lv) st0).segStart ∧
      ((List.range' 1 n).foldl (Update.splitStep lv) st0).segStart ≤ n := by
  intro n
  induction n with
  | zero => simp [h0, hs0]
  | succ n ih =>
    rw [List.range'_1_concat, List.foldl_append]
    simp only [List.foldl_cons, List.foldl_nil]
    generalize (List.range' 1 n).foldl (Update.splitStep lv) st0 = st at ih ⊢
    obtain ⟨ih1, ih2⟩ := ih
    unfold Update.splitStep
    simp only
    split_ifs
    all_goals try dsimp only
    all_goals first
      | exact ⟨ih1, by omega⟩
      | (refine ⟨?_, by omega⟩
         rw [List.flatten_append, ih1]
         simp only [List.flatten_cons, List.flatten_nil, List.append_nil]
         exact take_append_drop_take lv _ _ (by omega))

theorem flatten_sublist_of_forall₂ {α : Type} {L1 L2 : List (List α)}
    (h : List.Forall₂ (fun a b => List.Sublist a b) L1 L2) :
    List.Sublist L1.flatten L2.flatten := by
  induction h with
  | nil => simp
  | cons hab _ ih =>
    simp only [List.flatten_cons]
    exact List.Sublist.append hab ih

theorem processSegments_rel (segments : List (List TVisChar)) (isHyperlink : List Bool)
    (baseRTL m_isCursor : Bool) :
    List.Forall₂
      (fun o seg : List TVisChar =>
        List.Sublist (o.map (fun vc => vc.logicalPos)) (seg.map (fun vc => vc.logicalPos)))
      (Update.processSegments segments isHyperlink baseRTL m_isCursor) segments := by
  rw [List.forall₂_iff_get]
  unfold Update.processSegments
  refine ⟨by simp, ?_⟩
  intro i h1 h2
  simp only [List.get_eq_getElem, List.getElem_map, List.getElem_range]
  have hg : segments.getD i [] = segments[i] := by
    simp [List.getD_eq_getElem?_getD, List.getElem?_eq_getElem h2]
  rw [hg]
  split_ifs
  · exact List.Sublist.refl _
  · exact (Reorder_keeps_leading_positions _ _ _).sublist

/-- The logical positions of the stream after the segment stage of `Update`: they are
among those of the stream before it, and stay pairwise different. -/
theorem reorderSegments_logicalPos (lv : List TVisChar) (hasRTL baseRTL m_isCursor
    hasHyperlinks : Bool)
    (hnd : (lv.map (fun vc => vc.logicalPos)).Nodup) :
    ((Update.reorderSegments lv hasRTL baseRTL m_isCursor hasHyperlinks).map
      (fun vc => vc.logicalPos)).Nodup ∧
    ∀ x ∈ (Update.reorderSegments lv hasRTL baseRTL m_isCursor hasHyperlinks).map
      (fun vc => vc.logicalPos), x ∈ lv.map (fun vc => vc.logicalPos) := by
  unfold Update.reorderSegments
  simp only
  have hsplit := splitSegments_take lv
    { segStart := 0
      currentLinkIdx := if lv.length = 0 then -1 else (lv.getD 0 default).linkIndex
      segments := []
      isHyperlink := [] } (by simp) rfl lv.length
  have hrel := processSegments_rel (Update.splitSegments lv).segments
    (Update.splitSegments lv).isHyperlink baseRTL m_isCursor
  have hsub1 : List.Sublist
      ((Update.processSegments (Update.splitSegments lv).segments
        (Update.splitSegments lv).isHyperlink baseRTL m_isCursor).flatten.map
          (fun vc => vc.logicalPos))
      (lv.map (fun vc => vc.logicalPos)) := by
    have h1 : List.Forall₂ (fun a b : List Int => List.Sublist a b)
        ((Update.processSegments (Update.splitSegments lv).segments
          (Update.splitSegments lv).isHyperlink baseRTL m_isCursor).map
            (List.map (fun vc => vc.logicalPos)))
        ((Update.splitSegments lv).segments.map (List.map (fun vc => vc.logicalPos))) := by
      rw [List.forall₂_map_left_iff, List.forall₂_map_right_iff]
      exact hrel
    have h2 := flatten_sublist_of_forall₂ h1
    rw [← List.map_flatten, ← List.map_flatten] at h2
    refine h2.trans ?_
    have : (Update.splitSegments lv).segments.flatten =
        lv.take (Update.splitSegments lv).segStart := hsplit.1
    rw [this]
    exact (List.take_sublist _ _).map _
  split_ifs
  · have hperm : List.Perm
        ((Update.processSegments (Update.splitSegments lv).segments
          (Update.splitSegments lv).isHyperlink baseRTL m_isCursor).reverse.flatten.map
            (fun vc => vc.logicalPos))
        ((Update.processSegments (Update.splitSegments lv).segments
          (Update.splitSegments lv).isHyperlink baseRTL m_isCursor).flatten.map
            (fun vc => vc.logicalPos)) :=
      ((List.reverse_perm _).flatten).map _
    refine ⟨hperm.nodup_iff.2 (hnd.sublist hsub1), ?_⟩
    intro x hx
    exact hsub1.subset (hperm.subset hx)
  · exact ⟨hnd.sublist hsub1, fun x hx => hsub1.subset hx⟩
  · exact ⟨hnd, fun x hx => hx⟩


/-! ## The position maps -/

theorem getD_set_int (l : List Int) (i j : Nat) (a : Int) :
    (l.set i a).getD j 0 = if i = j ∧ i < l.length then a else l.getD j 0 := by
  simp only [List.getD_eq_getElem?_getD, List.getElem?_set]
  by_cases h : i = j
  · subst h
    by_cases h2 : i < l.length
    · simp [h2]
    · simp [h2, List.getElem?_eq_none (Nat.le_of_not_lt h2)]
  · simp [h]

theorem firstIdx_append_singleton (l : List Nat) (a i : Nat) :
    firstIdx (l ++ [a]) i =
      if i ∈ l then firstIdx l i else if i = a then (l.length : Int) else -1 := by
  unfold firstIdx
  by_cases h : i ∈ l
  · simp [h, List.indexOf_append_of_mem h]
  · by_cases h2 : i = a
    · subst h2
      simp [h, List.indexOf_append_of_not_mem h]
    · simp [h, h2]

theorem firstIdx_neg_iff (l : List Nat) (i : Nat) : firstIdx l i < 0 ↔ i ∉ l := by
  unfold firstIdx
  by_cases h : i ∈ l
  · simp [h]
  · simp [h]

theorem clampPos_le (W : Nat) (lp : Int) : Update.clampPos W lp ≤ W := by
  unfold Update.clampPos
  split_ifs <;> omega

theorem clampPos_of_range (W : Nat) (lp : Int) (h0 : 0 ≤ lp) (h1 : lp < (W : Int)) :
    (Update.clampPos W lp : Int) = lp ∧ Update.clampPos W lp < W := by
  unfold Update.clampPos
  split_ifs <;> omega

/-- The state of the mapping pass after `v` iterations. -/
theorem mapPass_spec (W : Nat) (vis : List TVisChar) :
    ∀ v : Nat, v ≤ vis.length →
      let st := (List.range v).foldl (Update.mapStep W vis)
        (List.replicate (vis.length + 1) (W : Int), List.replicate (W + 1) (-1))
      st.1.length = vis.length + 1 ∧ st.2.length = W + 1 ∧
      (∀ j, j ≤ vis.length → st.1.getD j 0 =
        if j < v then ((clampedPositions W vis).getD j 0 : Int) else (W : Int)) ∧
      (∀ i, i ≤ W → st.2.getD i 0 = firstIdx ((clampedPositions W vis).take v) i) := by
  intro v
  induction v with
  | zero =>
    intro _
    refine ⟨by simp, by simp, ?_, ?_⟩
    · intro j hj
      have : j < vis.length + 1 := by omega
      simp [List.getD_eq_getElem?_getD, List.getElem?_replicate, this]
    · intro i hi
      have : i < W + 1 := by omega
      simp [firstIdx, List.getD_eq_getElem?_getD, List.getElem?_replicate, this]
  | succ v ih =>
    intro hv
    have hv' : v < vis.length := hv
    obtain ⟨h1, h2, h3, h4⟩ := ih (Nat.le_of_lt hv')
    rw [List.range_succ, List.foldl_append]
    simp only [List.foldl_cons, List.foldl_nil]
    generalize (List.range v).foldl (Update.mapStep W vis)
      (List.replicate (vis.length + 1) (W : Int), List.replicate (W + 1) (-1)) = st at h1 h2 h3 h4 ⊢
    have hlp : Update.clampPos W (vis.getD v default).logicalPos =
        (clampedPositions W vis).getD v 0 := by
      unfold clampedPositions
      simp [List.getD_eq_getElem?_getD, List.getElem?_eq_getElem hv']
    have hlen : (clampedPositions W vis).length = vis.length := by
      simp [clampedPositions]
    have htake : (clampedPositions W vis).take (v + 1) =
        (clampedPositions W vis).take v ++ [(clampedPositions W vis).getD v 0] := by
      rw [List.take_succ]
      simp [List.getD_eq_getElem?_getD, List.getElem?_eq_getElem (hlen ▸ hv')]
    have hle := clampPos_le W (vis.getD v default).logicalPos
    unfold Update.mapStep
    simp only
    rw [hlp] at hle ⊢
    obtain ⟨lp, hlpdef⟩ : ∃ lp, lp = (clampedPositions W vis).getD v 0 := ⟨_, rfl⟩
    rw [← hlpdef] at hle htake ⊢
    refine ⟨by simp [h1], ?_, ?_, ?_⟩
    · split_ifs <;> simp [h2]
    · intro j hj
      rw [getD_set_int, h3 j hj]
      by_cases hjv : j = v
      · subst hjv
        have hc : j = j ∧ j < st.1.length := ⟨rfl, by omega⟩
        rw [if_pos hc, if_pos (Nat.lt_succ_self j), hlpdef]
      · have : ¬ (v = j ∧ v < st.1.length) := fun h => hjv h.1.symm
        rw [if_neg this]
        by_cases hlt : j < v
        · simp [hlt, Nat.lt_succ_of_lt hlt]
        · have : ¬ j < v + 1 := by omega
          simp [hlt, this]
    · intro i hi
      rw [htake, firstIdx_append_singleton]
      have hcond := h4 lp hle
      have hlenv : ((clampedPositions W vis).take v).length = v := by
        simp [List.length_take, hlen]; omega
      by_cases hmem : i ∈ (clampedPositions W vis).take v
      · rw [if_pos hmem, ← h4 i hi]
        split_ifs with hc
        · rw [getD_set_int]
          have hne : lp ≠ i := by
            intro e
            subst e
            rw [hcond, firstIdx_neg_iff] at hc
            exact hc hmem
          simp [hne]
        · rfl
      · rw [if_neg hmem]
        by_cases hil : i = lp
        · subst hil
          have hc : st.2.getD i 0 < 0 := by
            rw [hcond, firstIdx_neg_iff]; exact hmem
          rw [if_pos hc, getD_set_int]
          simp [h2, hlenv]
          omega
        · rw [if_neg hil]
          have hfi : firstIdx ((clampedPositions W vis).take v) i = -1 := by
            simp [firstIdx, hmem]
          split_ifs with hc
          · rw [getD_set_int]
            have : ¬ (lp = i ∧ lp < st.2.length) := fun h => hil h.1.symm
            rw [if_neg this, h4 i hi, hfi]
          · rw [h4 i hi, hfi]

/-- The state of the gap-filling loop after `n` iterations, from the map `l0`. -/
theorem fillPass_spec (l0 : List Int) :
    ∀ n : Nat,
      let st := (List.range n).foldl Update.fillStep ((0 : Int), l0)
      st.2.length = l0.length ∧ st.1 = lastSet l0 n ∧
      (∀ i, st.2.getD i 0 =
        if i < n ∧ i < l0.length ∧ l0.getD i 0 < 0 then lastSet l0 i else l0.getD i 0) := by
  intro n
  induction n with
  | zero => simp [lastSet]
  | succ n ih =>
    obtain ⟨h1, h2, h3⟩ := ih
    rw [List.range_succ, List.foldl_append]
    simp only [List.foldl_cons, List.foldl_nil]
    generalize (List.range n).foldl Update.fillStep ((0 : Int), l0) = st at h1 h2 h3 ⊢
    have hn : st.2.getD n 0 = l0.getD n 0 := by
      rw [h3 n]; simp
    unfold Update.fillStep
    rw [hn]
    by_cases hneg : l0.getD n 0 < 0
    · rw [if_pos hneg]
      have hls : lastSet l0 (n + 1) = lastSet l0 n := by
        rw [lastSet, if_pos hneg]
      refine ⟨by simp [h1], by rw [hls]; exact h2, ?_⟩
      intro i
      show (st.2.set n st.1).getD i 0 = _
      rw [getD_set_int, h3 i, h2, h1]
      by_cases hin : n = i
      · subst hin
        by_cases hl : n < l0.length
        · rw [if_pos ⟨rfl, hl⟩, if_pos ⟨Nat.lt_succ_self n, hl, hneg⟩]
        · exfalso
          have : l0.getD n 0 = 0 := by
            simp [List.getD_eq_getElem?_getD, List.getElem?_eq_none (Nat.le_of_not_lt hl)]
          omega
      · have h5 : ¬ (n = i ∧ n < l0.length) := fun h => hin h.1
        rw [if_neg h5]
        by_cases hlt : i < n
        · have : i < n + 1 := Nat.lt_succ_of_lt hlt
          simp only [hlt, this, true_and]
        · have : ¬ i < n + 1 := by omega
          simp only [hlt, this, false_and, if_false]
    · rw [if_neg hneg]
      have hls : lastSet l0 (n + 1) = l0.getD n 0 := by
        rw [lastSet, if_neg hneg]
      refine ⟨h1, by rw [hls], ?_⟩
      intro i
      show st.2.getD i 0 = _
      rw [h3 i]
      by_cases hin : n = i
      · subst hin
        have h6 : ¬ (n < n ∧ n < l0.length ∧ l0.getD n 0 < 0) := fun h => Nat.lt_irrefl _ h.1
        have h7 : ¬ (n < n + 1 ∧ n < l0.length ∧ l0.getD n 0 < 0) := fun h => hneg h.2.2
        rw [if_neg h6, if_neg h7]
      · by_cases hlt : i < n
        · have : i < n + 1 := Nat.lt_succ_of_lt hlt
          simp only [hlt, this, true_and]
        · have : ¬ i < n + 1 := by omega
          simp only [hlt, this, false_and, if_false]


theorem mapsBeforeFill_spec (W : Nat) (vis : List TVisChar) :
    (Update.mapsBeforeFill W vis).length = W + 1 ∧
    ∀ i, i ≤ W → (Update.mapsBeforeFill W vis).getD i 0 =
      if i = W then (vis.length : Int) else firstIdx (clampedPositions W vis) i := by
  obtain ⟨h1, h2, h3, h4⟩ := mapPass_spec W vis vis.length (Nat.le_refl _)
  unfold Update.mapsBeforeFill
  refine ⟨by simp [h2], ?_⟩
  intro i hi
  rw [getD_set_int, h2]
  have hlen : (clampedPositions W vis).length = vis.length := by simp [clampedPositions]
  by_cases hiw : i = W
  · subst hiw
    rw [if_pos ⟨rfl, Nat.lt_succ_self _⟩, if_pos rfl]
  · have : ¬ (W = i ∧ W < W + 1) := fun h => hiw h.1.symm
    rw [if_neg this, if_neg hiw, h4 i hi, ← hlen, List.take_length]

/-- The two maps that `Update.buildMaps` returns, entry by entry. -/
theorem buildMaps_spec (W : Nat) (vis : List TVisChar) :
    (∀ v, v ≤ vis.length → (Update.buildMaps W vis).1.getD v 0 =
      if v < vis.length then ((clampedPositions W vis).getD v 0 : Int) else (W : Int)) ∧
    (∀ i, i ≤ W → (Update.buildMaps W vis).2.getD i 0 =
      if (Update.mapsBeforeFill W vis).getD i 0 < 0 then lastSet (Update.mapsBeforeFill W vis) i
      else (Update.mapsBeforeFill W vis).getD i 0) := by
  obtain ⟨h1, h2, h3, h4⟩ := mapPass_spec W vis vis.length (Nat.le_refl _)
  constructor
  · intro v hv
    show (List.set _ vis.length (W : Int)).getD v 0 = _
    rw [getD_set_int, h1, h3 v hv]
    by_cases hvn : v = vis.length
    · subst hvn
      rw [if_pos ⟨rfl, Nat.lt_succ_self _⟩, if_neg (Nat.lt_irrefl _)]
    · have : ¬ (vis.length = v ∧ vis.length < vis.length + 1) := fun h => hvn h.1.symm
      rw [if_neg this]
  · intro i hi
    obtain ⟨f1, f2, f3⟩ := fillPass_spec (Update.mapsBeforeFill W vis) (W + 1)
    show ((List.range (W + 1)).foldl Update.fillStep
      ((0 : Int), Update.mapsBeforeFill W vis)).2.getD i 0 = _
    rw [f3 i, (mapsBeforeFill_spec W vis).1]
    have hi' : i < W + 1 := Nat.lt_succ_of_le hi
    by_cases hneg : (Update.mapsBeforeFill W vis).getD i 0 < 0
    · rw [if_pos ⟨hi', hi', hneg⟩, if_pos hneg]
    · have : ¬ (i < W + 1 ∧ i < W + 1 ∧ (Update.mapsBeforeFill W vis).getD i 0 < 0) :=
        fun h => hneg h.2.2
      rw [if_neg this, if_neg hneg]

/-- The value `last` of the gap-filling loop is the entry of the nearest set index below,
or `0` when no index below is set. -/
theorem lastSet_cases (l0 : List Int) : ∀ k : Nat,
    (∃ j, j < k ∧ 0 ≤ l0.getD j 0 ∧ (∀ m, j < m → m < k → l0.getD m 0 < 0) ∧
      lastSet l0 k = l0.getD j 0) ∨
    ((∀ j, j < k → l0.getD j 0 < 0) ∧ lastSet l0 k = 0) := by
  intro k
  induction k with
  | zero => exact Or.inr ⟨fun j hj => absurd hj (Nat.not_lt_zero j), rfl⟩
  | succ k ih =>
    by_cases hneg : l0.getD k 0 < 0
    · have hls : lastSet l0 (k + 1) = lastSet l0 k := by rw [lastSet, if_pos hneg]
      rcases ih with ⟨j, hj, hj0, hm, hl⟩ | ⟨hall, hl⟩
      · refine Or.inl ⟨j, Nat.lt_succ_of_lt hj, hj0, ?_, by rw [hls, hl]⟩
        intro m hm1 hm2
        by_cases hmk : m = k
        · subst hmk; exact hneg
        · exact hm m hm1 (by omega)
      · refine Or.inr ⟨?_, by rw [hls, hl]⟩
        intro j hj
        by_cases hjk : j = k
        · subst hjk; exact hneg
        · exact hall j (by omega)
    · have hls : lastSet l0 (k + 1) = l0.getD k 0 := by rw [lastSet, if_neg hneg]
      refine Or.inl ⟨k, Nat.lt_succ_self k, by omega, ?_, hls⟩
      intro m hm1 hm2
      omega

/-- The final visual stream of the tagged path carries pairwise different logical
positions, each an index of the tag-bearing text. -/
theorem tagged_positions (g : TagReader) (hx : List Nat → Nat) (wText : List Nat)
    (dc : Nat) (baseRTL m_isCursor : Bool) :
    ((Update.tagged g hx wText dc baseRTL m_isCursor).logicalVis.map
      (fun vc => vc.logicalPos)).Nodup ∧
    ∀ e ∈ (Update.tagged g hx wText dc baseRTL m_isCursor).logicalVis,
      0 ≤ e.logicalPos ∧ e.logicalPos < (wText.length : Int) := by
  obtain ⟨⟨hp, hb⟩, _⟩ := parse_inv g hx wText dc
  have hnd : ((Update.parse g hx wText dc).logicalVis.map (fun vc => vc.logicalPos)).Nodup :=
    hp.imp (fun h => ne_of_lt h)
  have := reorderSegments_logicalPos (Update.parse g hx wText dc).logicalVis
    (wText.any IsRTLCodepoint) baseRTL m_isCursor
    (decide ((Update.parse g hx wText dc).linkTargets.length ≠ 0)) hnd
  refine ⟨this.1, ?_⟩
  intro e he
  have hmem := this.2 e.logicalPos (List.mem_map.2 ⟨e, he, rfl⟩)
  obtain ⟨e', he', heq⟩ := List.mem_map.1 hmem
  have := hb e' he'
  rw [← heq]
  exact ⟨this.1, this.2.2⟩

/-- For a stream whose logical positions are indexes of the text, the clamp changes
nothing. -/
theorem clampedPositions_getD (W : Nat) (vis : List TVisChar)
    (hr : ∀ e ∈ vis, 0 ≤ e.logicalPos ∧ e.logicalPos < (W : Int)) (v : Nat)
    (hv : v < vis.length) :
    ((clampedPositions W vis).getD v 0 : Int) = (vis.getD v default).logicalPos ∧
    (clampedPositions W vis).getD v 0 < W := by
  have hg : vis.getD v default = vis[v] := by
    simp [List.getD_eq_getElem?_getD, List.getElem?_eq_getElem hv]
  have hc : (clampedPositions W vis).getD v 0 = Update.clampPos W vis[v].logicalPos := by
    simp [clampedPositions, List.getD_eq_getElem?_getD, List.getElem?_eq_getElem hv]
  have hm := hr vis[v] (List.getElem_mem _)
  rw [hg, hc]
  exact clampPos_of_range W _ hm.1 hm.2

theorem mem_clampedPositions_iff (W : Nat) (vis : List TVisChar)
    (hr : ∀ e ∈ vis, 0 ≤ e.logicalPos ∧ e.logicalPos < (W : Int)) (j : Nat) :
    j ∈ clampedPositions W vis ↔ HasVisual vis j := by
  constructor
  · intro h
    obtain ⟨v, hv, hve⟩ := List.getElem_of_mem h
    have hlen : (clampedPositions W vis).length = vis.length := by simp [clampedPositions]
    have hv' : v < vis.length := hlen ▸ hv
    refine ⟨v, hv', ?_⟩
    have := (clampedPositions_getD W vis hr v hv').1
    rw [← this]
    have hg : (clampedPositions W vis).getD v 0 = (clampedPositions W vis)[v] := by
      simp [List.getD_eq_getElem?_getD, List.getElem?_eq_getElem hv]
    rw [hg, hve]
  · rintro ⟨v, hv, hve⟩
    have hlen : (clampedPositions W vis).length = vis.length := by simp [clampedPositions]
    have := (clampedPositions_getD W vis hr v hv).1
    rw [hve] at this
    have hj : (clampedPositions W vis).getD v 0 = j := by exact_mod_cast this
    have hv2 : v < (clampedPositions W vis).length := hlen ▸ hv
    have hg : (clampedPositions W vis).getD v 0 = (clampedPositions W vis)[v] := by
      simp [List.getD_eq_getElem?_getD, List.getElem?_eq_getElem hv2]
    rw [← hj, hg]
    exact List.getElem_mem _


/-! ## The round trip (C3), the sentinel ends (C4) and gap filling (C5) -/

theorem clampedPositions_nodup (W : Nat) (vis : List TVisChar)
    (hr : ∀ e ∈ vis, 0 ≤ e.logicalPos ∧ e.logicalPos < (W : Int))
    (hnd : (vis.map (fun vc => vc.logicalPos)).Nodup) :
    (clampedPositions W vis).Nodup := by
  have hmap : (clampedPositions W vis).map (fun n : Nat => (n : Int)) =
      vis.map (fun vc => vc.logicalPos) := by
    unfold clampedPositions
    rw [List.map_map]
    apply List.map_congr_left
    intro e he
    have := hr e he
    exact (clampPos_of_range W _ this.1 this.2).1
  rw [← hmap] at hnd
  exact hnd.of_map _

/-- The round trip through the two maps of a visual stream with pairwise different
logical positions inside the text. -/
theorem buildMaps_round_trip (W : Nat) (vis : List TVisChar)
    (hr : ∀ e ∈ vis, 0 ≤ e.logicalPos ∧ e.logicalPos < (W : Int))
    (hnd : (vis.map (fun vc => vc.logicalPos)).Nodup) (v : Nat) (hv : v ≤ vis.length) :
    (Update.buildMaps W vis).2.getD ((Update.buildMaps W vis).1.getD v 0).toNat 0 = (v : Int) := by
  obtain ⟨hm1, hm2⟩ := buildMaps_spec W vis
  obtain ⟨hl0, hb⟩ := mapsBeforeFill_spec W vis
  have hlen : (clampedPositions W vis).length = vis.length := by simp [clampedPositions]
  rw [hm1 v hv]
  by_cases hvn : v < vis.length
  · rw [if_pos hvn]
    obtain ⟨hc1, hc2⟩ := clampedPositions_getD W vis hr v hvn
    rw [Int.toNat_ofNat]
    have hv2 : v < (clampedPositions W vis).length := hlen ▸ hvn
    have hg : (clampedPositions W vis).getD v 0 = (clampedPositions W vis)[v] := by
      simp [List.getD_eq_getElem?_getD, List.getElem?_eq_getElem hv2]
    have hval : (Update.mapsBeforeFill W vis).getD ((clampedPositions W vis).getD v 0) 0 =
        (v : Int) := by
      rw [hb _ (Nat.le_of_lt hc2), if_neg (Nat.ne_of_lt hc2), hg]
      unfold firstIdx
      rw [if_pos (List.getElem_mem _),
        List.indexOf_getElem (clampedPositions_nodup W vis hr hnd) v hv2]
    rw [hm2 _ (Nat.le_of_lt hc2), hval]
    have : ¬ ((v : Int) < 0) := by omega
    rw [if_neg this]
  · have hve : v = vis.length := by omega
    rw [if_neg hvn, Int.toNat_ofNat, hm2 W (Nat.le_refl _), hb W (Nat.le_refl _), if_pos rfl]
    have : ¬ ((vis.length : Int) < 0) := by omega
    rw [if_neg this, hve]

/-- C3: for the position maps built by the tagged path of `Update`, and every visual
index `v` with `0 <= v <= visualLen`, `logicalToVisual[visualToLogical[v]] = v`; so the
character found through the round trip is the character at `v`. -/
theorem C3_round_trip (g : TagReader) (hx : List Nat → Nat) (wText : List Nat) (dc : Nat)
    (baseRTL m_isCursor : Bool) (v : Nat)
    (hv : v ≤ (Update.tagged g hx wText dc baseRTL m_isCursor).logicalVis.length) :
    (Update.tagged g hx wText dc baseRTL m_isCursor).m_logicalToVisualPos.getD
      ((Update.tagged g hx wText dc baseRTL m_isCursor).m_visualToLogicalPos.getD v 0).toNat 0
      = (v : Int) ∧
    (Update.tagged g hx wText dc baseRTL m_isCursor).logicalVis.getD
      ((Update.tagged g hx wText dc baseRTL m_isCursor).m_logicalToVisualPos.getD
        ((Update.tagged g hx wText dc baseRTL m_isCursor).m_visualToLogicalPos.getD v 0).toNat
        0).toNat default =
      (Update.tagged g hx wText dc baseRTL m_isCursor).logicalVis.getD v default := by
  obtain ⟨hnd, hr⟩ := tagged_positions g hx wText dc baseRTL m_isCursor
  have key := buildMaps_round_trip wText.length
    (Update.tagged g hx wText dc baseRTL m_isCursor).logicalVis hr hnd v hv
  have key' : (Update.tagged g hx wText dc baseRTL m_isCursor).m_logicalToVisualPos.getD
      ((Update.tagged g hx wText dc baseRTL m_isCursor).m_visualToLogicalPos.getD v 0).toNat 0
      = (v : Int) := key
  refine ⟨key', ?_⟩
  rw [key', Int.toNat_ofNat]


theorem indexOf_first (l : List Nat) (i : Nat) (h : i ∈ l) :
    l.getD (l.indexOf i) 0 = i ∧ ∀ v, v < l.indexOf i → l.getD v 0 ≠ i := by
  induction l with
  | nil => simp at h
  | cons a l ih =>
    by_cases hai : a = i
    · subst hai
      simp
    · have hmem : i ∈ l := by
        rcases List.mem_cons.1 h with h | h
        · exact absurd h.symm hai
        · exact h
      obtain ⟨ih1, ih2⟩ := ih hmem
      rw [List.indexOf_cons_ne _ hai]
      refine ⟨by simpa using ih1, ?_⟩
      intro v hv
      cases v with
      | zero => simpa using hai
      | succ v =>
        have := ih2 v (by omega)
        simpa using this

/-- The map `m_logicalToVisualPos` that `Update.buildMaps` returns for a visual stream
whose logical positions are indexes of the text: the first occurrence, the end value,
or the value carried forward from the nearest offset below that has an occurrence. -/
theorem buildMaps_fill (W : Nat) (vis : List TVisChar)
    (hr : ∀ e ∈ vis, 0 ≤ e.logicalPos ∧ e.logicalPos < (W : Int)) (i : Nat) (hi : i ≤ W) :
    GapFilledAt vis (Update.buildMaps W vis).2 W i := by
  unfold GapFilledAt
  obtain ⟨_, hm2⟩ := buildMaps_spec W vis
  obtain ⟨hl0, hb⟩ := mapsBeforeFill_spec W vis
  have hlen : (clampedPositions W vis).length = vis.length := by simp [clampedPositions]
  -- the entries of the map before gap filling, below `W`
  have hlow : ∀ j, j < W → (HasVisual vis j →
        (Update.mapsBeforeFill W vis).getD j 0 = ((clampedPositions W vis).indexOf j : Int)) ∧
      (¬ HasVisual vis j → (Update.mapsBeforeFill W vis).getD j 0 = -1) := by
    intro j hj
    rw [hb j (Nat.le_of_lt hj), if_neg (Nat.ne_of_lt hj)]
    unfold firstIdx
    constructor
    · intro h
      rw [if_pos ((mem_clampedPositions_iff W vis hr j).2 h)]
    · intro h
      rw [if_neg (fun hm => h ((mem_clampedPositions_iff W vis hr j).1 hm))]
  have hnoW : ¬ HasVisual vis W := by
    rintro ⟨v, hv, hve⟩
    have hg : vis.getD v default = vis[v] := by
      simp [List.getD_eq_getElem?_getD, List.getElem?_eq_getElem hv]
    have := hr vis[v] (List.getElem_mem _)
    rw [hg] at hve
    omega
  have hset : ∀ j, j < W → (0 ≤ (Update.mapsBeforeFill W vis).getD j 0 ↔ HasVisual vis j) := by
    intro j hj
    by_cases h : HasVisual vis j
    · rw [(hlow j hj).1 h]
      exact ⟨fun _ => h, fun _ => by omega⟩
    · rw [(hlow j hj).2 h]
      exact ⟨fun h' => by omega, fun h' => absurd h' h⟩
  have hidx : ∀ j, HasVisual vis j → (clampedPositions W vis).indexOf j < vis.length := by
    intro j h
    rw [← hlen]
    exact List.indexOf_lt_length.2 ((mem_clampedPositions_iff W vis hr j).2 h)
  -- a set entry is kept by the gap filling
  have hkeep : ∀ j, j ≤ W → 0 ≤ (Update.mapsBeforeFill W vis).getD j 0 →
      (Update.buildMaps W vis).2.getD j 0 = (Update.mapsBeforeFill W vis).getD j 0 := by
    intro j hj h0
    rw [hm2 j hj, if_neg (by omega)]
  have hocc : HasVisual vis i →
      ∃ v, v < vis.length ∧ (Update.buildMaps W vis).2.getD i 0 = (v : Int) ∧
        (vis.getD v default).logicalPos = (i : Int) ∧
        ∀ u, u < v → (vis.getD u default).logicalPos ≠ (i : Int) := by
    intro h
    have hiW : i < W := by
      rcases Nat.lt_or_ge i W with h' | h'
      · exact h'
      · exact absurd ((by omega : i = W) ▸ h) hnoW
    have hmem := (mem_clampedPositions_iff W vis hr i).2 h
    obtain ⟨hf1, hf2⟩ := indexOf_first _ i hmem
    have hv := hidx i h
    refine ⟨_, hv, ?_, ?_, ?_⟩
    · rw [hkeep i hi ((hset i hiW).2 h), (hlow i hiW).1 h]
    · rw [← (clampedPositions_getD W vis hr _ hv).1, hf1]
    · intro u hu hue
      have hu' : u < vis.length := by omega
      have := (clampedPositions_getD W vis hr u hu').1
      rw [hue] at this
      exact hf2 u hu (by exact_mod_cast this)
  have hend : i = W → (Update.buildMaps W vis).2.getD i 0 = (vis.length : Int) := by
    intro h
    have : (Update.mapsBeforeFill W vis).getD W 0 = (vis.length : Int) := by
      rw [hb W (Nat.le_refl _), if_pos rfl]
    rw [h, hkeep W (Nat.le_refl _) (by omega), this]
  have hbound0 : ∀ j, j ≤ W → 0 ≤ (Update.mapsBeforeFill W vis).getD j 0 →
      (Update.mapsBeforeFill W vis).getD j 0 ≤ (vis.length : Int) := by
    intro j hj h0
    rcases Nat.lt_or_ge j W with h' | h'
    · have hv := (hset j h').1 h0
      rw [(hlow j h').1 hv]
      have := hidx j hv
      omega
    · have : j = W := by omega
      rw [this, hb W (Nat.le_refl _), if_pos rfl]
  refine ⟨hocc, hend, ?_, ?_⟩
  · intro hno hiW
    have hneg : (Update.mapsBeforeFill W vis).getD i 0 < 0 := by
      rw [(hlow i hiW).2 hno]; omega
    have hval : (Update.buildMaps W vis).2.getD i 0 = lastSet (Update.mapsBeforeFill W vis) i := by
      rw [hm2 i hi, if_pos hneg]
    rcases lastSet_cases (Update.mapsBeforeFill W vis) i with ⟨j, hj, hj0, hm, hl⟩ | ⟨hall, hl⟩
    · left
      refine ⟨j, hj, (hset j (by omega)).1 hj0, ?_, ?_⟩
      · intro k hk1 hk2 hk
        have := hm k hk1 hk2
        have := (hset k (by omega)).2 hk
        omega
      · rw [hval, hl, hkeep j (by omega) hj0]
    · right
      refine ⟨?_, by rw [hval, hl]⟩
      intro j hj hjv
      have := hall j hj
      have := (hset j (by omega)).2 hjv
      omega
  · rw [hm2 i hi]
    by_cases hneg : (Update.mapsBeforeFill W vis).getD i 0 < 0
    · rw [if_pos hneg]
      rcases lastSet_cases (Update.mapsBeforeFill W vis) i with ⟨j, hj, hj0, hm, hl⟩ | ⟨hall, hl⟩
      · rw [hl]
        exact ⟨hj0, hbound0 j (by omega) hj0⟩
      · rw [hl]
        exact ⟨le_refl _, by omega⟩
    · rw [if_neg hneg]
      exact ⟨by omega, hbound0 i hi (by omega)⟩


/-- The round trip of C3 at the text `linkText`, laid out for an RTL display, and the
visual index `4`. -/
theorem C3_round_trip_witness :
    4 ≤ (Update.tagged GetTextTag htoi linkText 7 true false).logicalVis.length ∧
    ((Update.tagged GetTextTag htoi linkText 7 true false).m_logicalToVisualPos.getD
      ((Update.tagged GetTextTag htoi linkText 7 true false).m_visualToLogicalPos.getD 4 0).toNat 0
      = ((4 : Nat) : Int) ∧
    (Update.tagged GetTextTag htoi linkText 7 true false).logicalVis.getD
      ((Update.tagged GetTextTag htoi linkText 7 true false).m_logicalToVisualPos.getD
        ((Update.tagged GetTextTag htoi linkText 7 true false).m_visualToLogicalPos.getD 4 0).toNat
        0).toNat default =
      (Update.tagged GetTextTag htoi linkText 7 true false).logicalVis.getD 4 default) :=
  ⟨by decide, C3_round_trip GetTextTag htoi linkText 7 true false 4 (by decide)⟩

/-- The sentinel ends of the maps of the tagged path:
`logicalToVisual[logicalLen] = visualLen` and `visualToLogical[visualLen] = logicalLen`. -/
theorem tagged_sentinels (g : TagReader) (hx : List Nat → Nat) (wText : List Nat) (dc : Nat)
    (baseRTL m_isCursor : Bool) :
    (Update.tagged g hx wText dc baseRTL m_isCursor).m_logicalToVisualPos.getD wText.length 0 =
      ((Update.tagged g hx wText dc baseRTL m_isCursor).logicalVis.length : Int) ∧
    (Update.tagged g hx wText dc baseRTL m_isCursor).m_visualToLogicalPos.getD
      (Update.tagged g hx wText dc baseRTL m_isCursor).logicalVis.length 0 =
      (wText.length : Int) := by
  constructor
  · exact (buildMaps_fill wText.length _
      (tagged_positions g hx wText dc baseRTL m_isCursor).2 wText.length (Nat.le_refl _)).2.1 rfl
  · have := (buildMaps_spec wText.length
      (Update.tagged g hx wText dc baseRTL m_isCursor).logicalVis).1
      (Update.tagged g hx wText dc baseRTL m_isCursor).logicalVis.length (Nat.le_refl _)
    rw [if_neg (Nat.lt_irrefl _)] at this
    exact this

/-- C4 (the code at the failing input): in the tagged path the sentinel ends of the maps
are `visualLen` and `logicalLen`, but in the tagless path, for the text Lam, Alef and
either base direction, the visual stream is the single ligature U+FEFB while the maps
are the identity maps of size 3: `logicalToVisual[2] = 2`, not `visualLen = 1`, and
`visualToLogical[1] = 1`, not `logicalLen = 2`. -/
theorem C4_tagless_sentinel :
    (∀ (g : TagReader) (hx : List Nat → Nat) (wText : List Nat) (dc : Nat)
        (baseRTL m_isCursor : Bool),
      (Update.tagged g hx wText dc baseRTL m_isCursor).m_logicalToVisualPos.getD wText.length 0 =
        ((Update.tagged g hx wText dc baseRTL m_isCursor).logicalVis.length : Int) ∧
      (Update.tagged g hx wText dc baseRTL m_isCursor).m_visualToLogicalPos.getD
        (Update.tagged g hx wText dc baseRTL m_isCursor).logicalVis.length 0 =
        (wText.length : Int)) ∧
    (∀ baseRTL : Bool,
      (Update.tagless [0x0644, 0x0627] baseRTL none).visual = [0xFEFB] ∧
      (Update.tagless [0x0644, 0x0627] baseRTL none).m_logicalToVisualPos = [0, 1, 2] ∧
      (Update.tagless [0x0644, 0x0627] baseRTL none).m_visualToLogicalPos = [0, 1, 2] ∧
      (Update.tagless [0x0644, 0x0627] baseRTL none).m_logicalToVisualPos.getD 2 0 ≠
        (((Update.tagless [0x0644, 0x0627] baseRTL none).visual.length : Nat) : Int) ∧
      (Update.tagless [0x0644, 0x0627] baseRTL none).m_visualToLogicalPos.getD
        (Update.tagless [0x0644, 0x0627] baseRTL none).visual.length 0 ≠ 2) :=
  ⟨tagged_sentinels, by decide⟩

/-- C5: in the tagged path of `Update`, after the mapping pass and gap filling, for every
logical offset `i` with `0 <= i <= logicalLen`: if some visual entry has `logicalPos = i`
then `logicalToVisual[i]` is the smallest such visual index; if `i = logicalLen` it is
`visualLen`; otherwise it equals `logicalToVisual[j]` for the greatest `j < i` that has a
direct visual occurrence, or `0` when there is none. So no entry is left unset and every
entry lies in `[0, visualLen]`. -/
theorem C5_logicalToVisual_filled (g : TagReader) (hx : List Nat → Nat) (wText : List Nat)
    (dc : Nat) (baseRTL m_isCursor : Bool) (i : Nat) (hi : i ≤ wText.length) :
    GapFilledAt (Update.tagged g hx wText dc baseRTL m_isCursor).logicalVis
      (Update.tagged g hx wText dc baseRTL m_isCursor).m_logicalToVisualPos wText.length i :=
  buildMaps_fill wText.length (Update.tagged g hx wText dc baseRTL m_isCursor).logicalVis
    (tagged_positions g hx wText dc baseRTL m_isCursor).2 i hi

/-- The statement of C5 at the text `linkText`, laid out for an RTL display, and the
logical offset `3`, which lies inside the hyperlink tag. -/
theorem C5_logicalToVisual_filled_witness :
    3 ≤ linkText.length ∧
    GapFilledAt (Update.tagged GetTextTag htoi linkText 7 true false).logicalVis
      (Update.tagged GetTextTag htoi linkText 7 true false).m_logicalToVisualPos
      linkText.length 3 :=
  ⟨by decide, C5_logicalToVisual_filled GetTextTag htoi linkText 7 true false 3 (by decide)⟩

/-! ## Arabic shaping: the lookup table and the forward pass -/

theorem firstLetterFrom_unique (src : List Nat) (a j1 j2 : Nat)
    (h1 : FirstLetterFrom src a j1) (h2 : FirstLetterFrom src a j2) : j1 = j2 := by
  obtain ⟨a1, b1, c1, d1⟩ := h1
  obtain ⟨a2, b2, c2, d2⟩ := h2
  rcases Nat.lt_trichotomy j1 j2 with h | h | h
  · have := c2 j1 a1 h
    rw [d1 (by omega)] at this
    exact absurd this (by decide)
  · exact h
  · have := c1 j2 a2 h
    rw [d2 (by omega)] at this
    exact absurd this (by decide)

/-- Phase 1 of `Arabic_MakeShape` after `k` iterations: the variable `nextArabicIdx` is
the first letter index from `srcLen - k` on, and the entry written for the index
`srcLen - k + t` is the first letter index after it. -/
theorem scan_spec (src : List Nat) : ∀ k : Nat, k ≤ src.length →
    (Arabic_MakeShape.scan src k).2.length = k ∧
    FirstLetterFrom src (src.length - k) (Arabic_MakeShape.scan src k).1 ∧
    ∀ t, t < k →
      FirstLetterFrom src (src.length - k + t + 1) ((Arabic_MakeShape.scan src k).2.getD t 0) := by
  intro k
  induction k with
  | zero =>
    intro _
    refine ⟨rfl, ⟨by simp [Arabic_MakeShape.scan], by simp [Arabic_MakeShape.scan], ?_, ?_⟩, ?_⟩
    · intro m hm1 hm2
      simp [Arabic_MakeShape.scan] at hm1 hm2
      omega
    · intro h
      simp [Arabic_MakeShape.scan] at h
    · intro t ht
      omega
  | succ k ih =>
    intro hk
    obtain ⟨h1, h2, h3⟩ := ih (Nat.le_of_succ_le hk)
    have hidx : src.length - (k + 1) + 1 = src.length - k := by omega
    unfold Arabic_MakeShape.scan
    simp only
    refine ⟨by simp [h1], ?_, ?_⟩
    · obtain ⟨a1, b1, c1, d1⟩ := h2
      by_cases hP : (Arabic_IsInMap (src.getD (src.length - (k + 1)) 0) &&
          !Arabic_IsInComposing (src.getD (src.length - (k + 1)) 0)) = true
      · rw [if_pos hP]
        refine ⟨le_refl _, by omega, ?_, fun _ => hP⟩
        intro m hm1 hm2
        omega
      · rw [if_neg hP]
        refine ⟨by omega, b1, ?_, d1⟩
        intro m hm1 hm2
        by_cases hm : m = src.length - (k + 1)
        · rw [hm]
          simpa [Arabic_MakeShape.isLetter] using hP
        · exact c1 m (by omega) hm2
    · intro t ht
      cases t with
      | zero =>
        simp only [List.getD_cons_zero, Nat.add_zero]
        rw [hidx]
        exact h2
      | succ t =>
        simp only [List.getD_cons_succ]
        have := h3 t (by omega)
        have he : src.length - (k + 1) + (t + 1) + 1 = src.length - k + t + 1 := by omega
        rw [he]
        exact this

/-- The lookup table of `Arabic_MakeShape`: `s_nextArabic[i]` is the index of the first
non-composing Arabic letter after `i`, or `srcLen`. -/
theorem s_nextArabic_spec (src : List Nat) (i : Nat) (hi : i < src.length) :
    FirstLetterFrom src (i + 1) ((Arabic_MakeShape.s_nextArabic src).getD i 0) := by
  obtain ⟨h1, _, h3⟩ := scan_spec src src.length (Nat.le_refl _)
  unfold Arabic_MakeShape.s_nextArabic
  have hg : ((Arabic_MakeShape.scan src src.length).2 ++ [src.length]).getD i 0 =
      (Arabic_MakeShape.scan src src.length).2.getD i 0 := by
    simp only [List.getD_eq_getElem?_getD]
    rw [List.getElem?_append_left (by omega)]
  rw [hg]
  have := h3 i hi
  simpa using this

theorem isLetter_eq_isInMap (c : Nat) : Arabic_MakeShape.isLetter c = Arabic_IsInMap c := by
  unfold Arabic_MakeShape.isLetter
  by_cases h : Arabic_IsInMap c = true
  · have hc : Arabic_IsInComposing c = false := by
      unfold Arabic_IsInMap ARABIC_CODE_BASE ARABIC_CODE_LAST at h
      unfold Arabic_IsInComposing
      simp only [Bool.and_eq_true, decide_eq_true_eq] at h
      rw [decide_eq_false_iff_not]
      intro hmem
      simp only [List.mem_cons, List.mem_singleton, List.not_mem_nil, or_false] at hmem
      omega
    simp [h, hc]
  · simp [h]

/-- When `j` is the next index after `i` that holds a letter of the joining block, the
lookup `s_nextArabic[i]` gives `j`. -/
theorem s_nextArabic_eq (src : List Nat) (i j : Nat) (hij : i < j) (hj : j < src.length)
    (hbetween : ∀ m, i < m → m < j → Arabic_IsInMap (src.getD m 0) = false)
    (hat : Arabic_IsInMap (src.getD j 0) = true) :
    (Arabic_MakeShape.s_nextArabic src).getD i 0 = j := by
  apply firstLetterFrom_unique src (i + 1) _ _ (s_nextArabic_spec src i (by omega))
  refine ⟨hij, Nat.le_of_lt hj, ?_, ?_⟩
  · intro m hm1 hm2
    rw [isLetter_eq_isInMap]
    exact hbetween m hm1 hm2
  · intro _
    rw [isLetter_eq_isInMap]
    exact hat


/-- The forward pass of `Arabic_MakeShape` does not depend on the bound on its number of
iterations once the bound is at least `srcLen - srcIndex`: the bound is never what ends
the loop. -/
theorem loop_fuel (src : List Nat) (dstLen : Nat) :
    ∀ (fuel1 fuel2 i : Nat) (pj : Bool) (d : Nat),
      src.length - i ≤ fuel1 → src.length - i ≤ fuel2 →
      Arabic_MakeShape.loop src dstLen (Arabic_MakeShape.s_nextArabic src) fuel1 i pj d =
        Arabic_MakeShape.loop src dstLen (Arabic_MakeShape.s_nextArabic src) fuel2 i pj d := by
  intro fuel1
  induction fuel1 with
  | zero =>
    intro fuel2 i pj d h1 _
    have hi : ¬ i < src.length := by omega
    cases fuel2 with
    | zero => rfl
    | succ f2 =>
      rw [Arabic_MakeShape.loop, Arabic_MakeShape.loop, if_neg hi]
  | succ f1 ih =>
    intro fuel2 i pj d h1 h2
    by_cases hi : i < src.length
    · cases fuel2 with
      | zero => omega
      | succ f2 =>
        have hnext := s_nextArabic_spec src i hi
        have hge : i + 1 ≤ (Arabic_MakeShape.s_nextArabic src).getD i 0 := hnext.1
        rw [Arabic_MakeShape.loop, Arabic_MakeShape.loop]
        simp only [hi, if_true]
        have e1 : ∀ pj d, Arabic_MakeShape.loop src dstLen (Arabic_MakeShape.s_nextArabic src)
            f1 (i + 1) pj d =
            Arabic_MakeShape.loop src dstLen (Arabic_MakeShape.s_nextArabic src)
            f2 (i + 1) pj d := fun pj d => ih f2 (i + 1) pj d (by omega) (by omega)
        have e2 : ∀ pj d, Arabic_MakeShape.loop src dstLen (Arabic_MakeShape.s_nextArabic src)
            f1 ((Arabic_MakeShape.s_nextArabic src).getD i 0 + 1) pj d =
            Arabic_MakeShape.loop src dstLen (Arabic_MakeShape.s_nextArabic src)
            f2 ((Arabic_MakeShape.s_nextArabic src).getD i 0 + 1) pj d :=
          fun pj d => ih f2 _ pj d (by omega) (by omega)
        simp only [e1, e2]
    · cases fuel2 with
      | zero => rw [Arabic_MakeShape.loop, Arabic_MakeShape.loop, if_neg hi]
      | succ f2 => rw [Arabic_MakeShape.loop, Arabic_MakeShape.loop, if_neg hi, if_neg hi]

theorem getD_drop_nat (src : List Nat) (k i : Nat) :
    (src.drop k).getD i 0 = src.getD (k + i) 0 := by
  simp [List.getD_eq_getElem?_getD, List.getElem?_drop]

theorem firstLetterFrom_drop (src : List Nat) (k a j : Nat) (hk : k ≤ src.length)
    (h : FirstLetterFrom (src.drop k) a j) : FirstLetterFrom src (k + a) (k + j) := by
  obtain ⟨h1, h2, h3, h4⟩ := h
  rw [List.length_drop] at h2 h4
  refine ⟨by omega, by omega, ?_, ?_⟩
  · intro m hm1 hm2
    have := h3 (m - k) (by omega) (by omega)
    rw [getD_drop_nat] at this
    have e : k + (m - k) = m := by omega
    rw [e] at this
    exact this
  · intro hj
    have := h4 (by omega)
    rw [getD_drop_nat] at this
    exact this

theorem s_nextArabic_drop (src : List Nat) (k i : Nat) (hi : i < (src.drop k).length) :
    (Arabic_MakeShape.s_nextArabic src).getD (k + i) 0 =
      k + (Arabic_MakeShape.s_nextArabic (src.drop k)).getD i 0 := by
  have h1 := s_nextArabic_spec (src.drop k) i hi
  rw [List.length_drop] at hi
  have h2 := firstLetterFrom_drop src k _ _ (by omega) h1
  have h3 := s_nextArabic_spec src (k + i) (by omega)
  exact firstLetterFrom_unique src _ _ _ h3 h2

/-- The forward pass on `src` from index `k + i` writes what the forward pass on the text
`src.drop k` writes from index `i`. -/
theorem loop_shift (src : List Nat) (k dstLen d0 : Nat) :
    ∀ (fuel i : Nat) (pj : Bool) (d : Nat),
      Arabic_MakeShape.loop src dstLen (Arabic_MakeShape.s_nextArabic src) fuel (k + i) pj
          (d0 + d) =
        Arabic_MakeShape.loop (src.drop k) (dstLen - d0)
          (Arabic_MakeShape.s_nextArabic (src.drop k)) fuel i pj d := by
  intro fuel
  induction fuel with
  | zero => intro i pj d; rfl
  | succ f ih =>
    intro i pj d
    rw [Arabic_MakeShape.loop, Arabic_MakeShape.loop]
    by_cases hi : i < (src.drop k).length
    · have hi' : k + i < src.length := by
        rw [List.length_drop] at hi; omega
      have hc : src.getD (k + i) 0 = (src.drop k).getD i 0 := (getD_drop_nat src k i).symm
      have ht := s_nextArabic_drop src k i hi
      have hlt : ∀ x, (k + x < src.length) ↔ (x < (src.drop k).length) := by
        intro x; rw [List.length_drop]; omega
      have hd : (d0 + d < dstLen) ↔ (d < dstLen - d0) := by omega
      have hg : ∀ x, src.getD (k + x) 0 = (src.drop k).getD x 0 :=
        fun x => (getD_drop_nat src k x).symm
      simp only [hi, hi', if_true, hc, ht, hlt, hd, hg, Nat.add_assoc, ih]
    · have hi' : ¬ k + i < src.length := by
        rw [List.length_drop] at hi; omega
      rw [if_neg hi, if_neg hi']


theorem isComb2_isInMap (a : Nat) (h : Arabic_IsComb2 a = true) : Arabic_IsInMap a = true := by
  unfold Arabic_IsComb2 at h
  unfold Arabic_IsInMap ARABIC_CODE_BASE ARABIC_CODE_LAST
  simp only [Bool.or_eq_true, decide_eq_true_eq] at h
  simp only [Bool.and_eq_true, decide_eq_true_eq]
  omega

theorem getD_append_length (l r : List Nat) (x : Nat) :
    (l ++ x :: r).getD l.length 0 = x := by
  simp only [List.getD_eq_getElem?_getD]
  rw [List.getElem?_append_right (Nat.le_refl _)]
  simp

theorem selectForm_not_joined (c : Nat) (next : Nat) :
    (Arabic_MakeShape.selectForm c false next).1 = Arabic_GetMap c .INITIAL ∨
    (Arabic_MakeShape.selectForm c false next).1 = Arabic_GetMap c .ISOLATED ∨
    ((Arabic_MakeShape.selectForm c false next).1 = c ∧ Arabic_GetMap c .ISOLATED = 0) := by
  unfold Arabic_MakeShape.selectForm
  simp only [Bool.false_and, Bool.and_false, if_false, Bool.false_eq_true, decide_True,
    Bool.true_and]
  split_ifs <;> simp_all

/-- The forward pass of `Arabic_MakeShape` at a Lam whose next joining-block letter is an
Alef variant `a`: one ligature is written for the pair, the loop goes on after the Alef
with `prevJoins = false`, and what it writes from there is the shaping of the rest of
the text taken on its own. -/
theorem loop_lam_alef (pre mid rest : List Nat) (a : Nat) (prevJoins : Bool)
    (dstIndex dstLen fuel : Nat)
    (ha : Arabic_IsComb2 a = true)
    (hmid : ∀ c ∈ mid, Arabic_IsInMap c = false)
    (hdst : dstIndex + 1 + rest.length ≤ dstLen)
    (hfuel : rest.length ≤ fuel) :
    Arabic_MakeShape.loop (pre ++ 0x0644 :: (mid ++ a :: rest)) dstLen
        (Arabic_MakeShape.s_nextArabic (pre ++ 0x0644 :: (mid ++ a :: rest)))
        (fuel + 1) pre.length prevJoins dstIndex
      = Arabic_GetComposition 0x0644 a (if prevJoins then .FINAL else .ISOLATED)
          :: Arabic_MakeShape rest (dstLen - (dstIndex + 1)) := by
  obtain ⟨src, hsrc⟩ : ∃ src, src = pre ++ 0x0644 :: (mid ++ a :: rest) := ⟨_, rfl⟩
  rw [← hsrc]
  have hlen : src.length = pre.length + 1 + mid.length + 1 + rest.length := by
    rw [hsrc]; simp; omega
  have hi : pre.length < src.length := by omega
  have hcur : src.getD pre.length 0 = 0x0644 := by
    rw [hsrc]
    exact getD_append_length pre _ _
  have hget : ∀ m, src.getD (pre.length + 1 + m) 0 = (mid ++ a :: rest).getD m 0 := by
    intro m
    rw [hsrc]
    simp only [List.getD_eq_getElem?_getD]
    rw [List.getElem?_append_right (by omega)]
    have : pre.length + 1 + m - pre.length = m + 1 := by omega
    rw [this]
    simp
  have hj : src.getD (pre.length + 1 + mid.length) 0 = a := by
    rw [hget]
    exact getD_append_length mid _ _
  have hbetween : ∀ m, pre.length < m → m < pre.length + 1 + mid.length →
      Arabic_IsInMap (src.getD m 0) = false := by
    intro m h1 h2
    have e : m = pre.length + 1 + (m - pre.length - 1) := by omega
    rw [e, hget]
    have hm : m - pre.length - 1 < mid.length := by omega
    have : (mid ++ a :: rest).getD (m - pre.length - 1) 0 = mid[m - pre.length - 1] := by
      simp only [List.getD_eq_getElem?_getD]
      rw [List.getElem?_append_left hm, List.getElem?_eq_getElem hm]
      rfl
    rw [this]
    exact hmid _ (List.getElem_mem _)
  have htbl : (Arabic_MakeShape.s_nextArabic src).getD pre.length 0 =
      pre.length + 1 + mid.length :=
    s_nextArabic_eq src _ _ (by omega) (by omega) hbetween (by rw [hj]; exact isComb2_isInMap a ha)
  have hdrop : src.drop (pre.length + 1 + mid.length + 1) = rest := by
    rw [hsrc]
    have e1 : pre.length + 1 + mid.length + 1 = pre.length + (1 + (mid.length + 1)) := by omega
    rw [e1, List.drop_append]
    have e2 : 1 + (mid.length + 1) = (mid.length + 1) + 1 := by omega
    rw [e2, List.drop_succ_cons]
    rw [List.drop_append]
    simp
  rw [Arabic_MakeShape.loop]
  have hjlt : pre.length + 1 + mid.length < src.length := by omega
  have hd : dstIndex < dstLen := by omega
  have hcomp : Arabic_IsInComposing 0x0644 = false := by decide
  have hmap : Arabic_IsInMap 0x0644 = true := by decide
  have hc1 : Arabic_IsComb1 0x0644 = true := by decide
  simp only [hi, if_true, hcur, hcomp, hmap, hc1, htbl, hjlt, hj, ha, hd, decide_True,
    Bool.and_self, Bool.false_eq_true, if_false]
  have hcont : Arabic_MakeShape.loop src dstLen (Arabic_MakeShape.s_nextArabic src) fuel
      (pre.length + 1 + mid.length + 1) false (dstIndex + 1) =
      Arabic_MakeShape rest (dstLen - (dstIndex + 1)) := by
    have := loop_shift src (pre.length + 1 + mid.length + 1) dstLen (dstIndex + 1) fuel 0 false 0
    rw [Nat.add_zero, Nat.add_zero, hdrop] at this
    rw [this]
    unfold Arabic_MakeShape
    by_cases hr : rest.length = 0
    · have : rest = [] := List.length_eq_zero.1 hr
      subst this
      cases fuel with
      | zero => simp [Arabic_MakeShape.loop]
      | succ f => simp [Arabic_MakeShape.loop]
    · have hnot : ¬ (rest.length = 0 ∨ dstLen - (dstIndex + 1) < rest.length) := by omega
      rw [if_neg hnot]
      exact loop_fuel rest _ fuel rest.length 0 false 0 (by omega) (by omega)
  rw [hcont]
  cases prevJoins <;> simp


/-! ## The Lam-Alef ligature (C9) -/

theorem isInMap_not_composing (c : Nat) (h : Arabic_IsInMap c = true) :
    Arabic_IsInComposing c = false := by
  have := isLetter_eq_isInMap c
  unfold Arabic_MakeShape.isLetter at this
  rw [h] at this
  simpa using this

theorem composition_isolated (a : Nat) (ha : Arabic_IsComb2 a = true) :
    Arabic_GetComposition 0x0644 a .ISOLATED ∈ [0xFEF5, 0xFEF7, 0xFEF9, 0xFEFB] := by
  unfold Arabic_IsComb2 at ha
  simp only [Bool.or_eq_true, decide_eq_true_eq] at ha
  rcases ha with ((ha | ha) | ha) | ha <;> subst ha <;> decide

/-- The first character written for a text that starts with a letter `c` of the joining
block: `c` is not joined from its right side, so it comes out in its Initial or its
Isolated form (unchanged when the table has no form for it), or, for a Lam that starts
a Lam-Alef pair, as the Isolated ligature. -/
theorem Arabic_MakeShape_head (c : Nat) (rest : List Nat) (dstLen : Nat)
    (hc : Arabic_IsInMap c = true) (hlen : (c :: rest).length ≤ dstLen) :
    ∃ e tail, Arabic_MakeShape (c :: rest) dstLen = e :: tail ∧
      (e = Arabic_GetMap c .INITIAL ∨ e = Arabic_GetMap c .ISOLATED ∨
        (e = c ∧ Arabic_GetMap c .ISOLATED = 0) ∨
        (c = 0x0644 ∧ e ∈ [0xFEF5, 0xFEF7, 0xFEF9, 0xFEFB])) := by
  have hnot : ¬ ((c :: rest).length = 0 ∨ dstLen < (c :: rest).length) := by
    simp only [List.length_cons] at hlen ⊢
    omega
  have hd : 0 < dstLen := by
    simp only [List.length_cons] at hlen
    omega
  unfold Arabic_MakeShape
  rw [if_neg hnot]
  simp only [List.length_cons]
  rw [Arabic_MakeShape.loop]
  have h0 : 0 < rest.length + 1 := Nat.succ_pos _
  have hcur : (c :: rest).getD 0 0 = c := rfl
  simp only [List.length_cons, h0, if_true, hcur, isInMap_not_composing c hc, hc, hd,
    Bool.false_eq_true, if_false]
  obtain ⟨nxt, hnxt⟩ : ∃ nxt, nxt =
      (c :: rest).getD ((Arabic_MakeShape.s_nextArabic (c :: rest)).getD 0 0) 0 := ⟨_, rfl⟩
  rw [← hnxt]
  by_cases hcomb : (Arabic_IsComb1 c &&
      decide ((Arabic_MakeShape.s_nextArabic (c :: rest)).getD 0 0 < rest.length + 1) &&
      Arabic_IsComb2 nxt) = true
  · rw [if_pos hcomb]
    simp only [Bool.and_eq_true, decide_eq_true_eq] at hcomb
    obtain ⟨⟨h1, _⟩, h3⟩ := hcomb
    have hc644 : c = 0x0644 := by
      unfold Arabic_IsComb1 at h1
      simpa using h1
    refine ⟨_, _, rfl, Or.inr (Or.inr (Or.inr ⟨hc644, ?_⟩))⟩
    have := composition_isolated nxt h3
    rw [← hc644] at this
    exact this
  · rw [if_neg hcomb]
    refine ⟨_, _, rfl, ?_⟩
    rcases selectForm_not_joined c
      (if (Arabic_MakeShape.s_nextArabic (c :: rest)).getD 0 0 < rest.length + 1 then
        if Arabic_CanJoinLeft nxt = true then nxt else 0 else 0) with h | h | h
    · exact Or.inl h
    · exact Or.inr (Or.inl h)
    · exact Or.inr (Or.inr (Or.inl h))

theorem selectForm_initial (p : Nat) (hmap : Arabic_IsInMap p = true)
    (hp : Arabic_CanJoinRight p = true) :
    Arabic_MakeShape.selectForm p false 0x0644 = (Arabic_GetMap p .INITIAL, true) := by
  unfold Arabic_IsInMap ARABIC_CODE_BASE ARABIC_CODE_LAST at hmap
  simp only [Bool.and_eq_true, decide_eq_true_eq] at hmap
  obtain ⟨h1, h2⟩ := hmap
  interval_cases p <;> first | rfl | exact absurd hp (by decide)

/-- At the start of a text, a Lam followed by an Alef variant `a` is written as the
Isolated ligature, and the text after the pair is shaped on its own. -/
theorem lam_alef_at_start (a : Nat) (rest : List Nat) (dstLen : Nat)
    (ha : Arabic_IsComb2 a = true) (hdst : 2 + rest.length ≤ dstLen) :
    Arabic_MakeShape (0x0644 :: a :: rest) dstLen =
      Arabic_GetComposition 0x0644 a .ISOLATED :: Arabic_MakeShape rest (dstLen - 1) := by
  have h := loop_lam_alef [] [] rest a false 0 dstLen (rest.length + 1) ha
    (fun c hc => by simp at hc) (by omega) (by omega)
  have hnot : ¬ ((0x0644 :: a :: rest).length = 0 ∨ dstLen < (0x0644 :: a :: rest).length) := by
    simp only [List.length_cons]; omega
  conv_lhs => unfold Arabic_MakeShape
  rw [if_neg hnot]
  simpa using h

/-- After a letter `p` that joins to its right, at the start of a text, a Lam followed by
an Alef variant `a` is written as the Final ligature: `p` comes out in its Initial form,
and the text after the pair is shaped on its own. -/
theorem lam_alef_after_joining (p a : Nat) (rest : List Nat) (dstLen : Nat)
    (hp : Arabic_CanJoinRight p = true)
    (ha : Arabic_IsComb2 a = true) (hdst : 3 + rest.length ≤ dstLen) :
    Arabic_MakeShape (p :: 0x0644 :: a :: rest) dstLen =
      Arabic_GetMap p .INITIAL :: Arabic_GetComposition 0x0644 a .FINAL ::
        Arabic_MakeShape rest (dstLen - 2) := by
  have hpmap : Arabic_IsInMap p = true := by
    unfold Arabic_CanJoinRight at hp
    by_cases h : Arabic_IsInMap p = true
    · exact h
    · simp [h] at hp
  have h := loop_lam_alef [p] [] rest a true 1 dstLen (rest.length + 1) ha
    (fun c hc => by simp at hc) (by omega) (by omega)
  simp only [List.nil_append, List.singleton_append, List.length_singleton, if_true] at h
  have hnx : (p :: 0x0644 :: a :: rest).getD 1 0 = 0x0644 := rfl
  have htbl : (Arabic_MakeShape.s_nextArabic (p :: 0x0644 :: a :: rest)).getD 0 0 = 1 :=
    s_nextArabic_eq _ 0 1 (by omega) (by simp) (fun m h1 h2 => by omega)
      (by rw [hnx]; decide)
  conv_lhs => unfold Arabic_MakeShape
  have hnot : ¬ ((p :: 0x0644 :: a :: rest).length = 0 ∨
      dstLen < (p :: 0x0644 :: a :: rest).length) := by
    simp only [List.length_cons]; omega
  rw [if_neg hnot]
  have hlen : (p :: 0x0644 :: a :: rest).length = (rest.length + 1 + 1) + 1 := by simp
  rw [hlen, Arabic_MakeShape.loop]
  have h0 : 0 < (p :: 0x0644 :: a :: rest).length := by simp
  have hcur : (p :: 0x0644 :: a :: rest).getD 0 0 = p := rfl
  have h1lt : 1 < (p :: 0x0644 :: a :: rest).length := by simp
  have hd : 0 < dstLen := by omega
  have hcl : Arabic_CanJoinLeft 0x0644 = true := by decide
  have hc2 : Arabic_IsComb2 0x0644 = false := by decide
  simp only [h0, if_true, hcur, isInMap_not_composing p hpmap, hpmap, htbl, h1lt, hnx, hcl,
    hc2, Bool.and_false, Bool.false_eq_true, if_false, hd, selectForm_initial p hpmap hp]
  rw [h]


/-- C9: in `Arabic_MakeShape`, when the current letter is Lam and the next letter of the
joining block is Alef-Madda, Alef-Hamza-Above, Alef-Hamza-Below or Alef, exactly one
character is written for the pair, the Final ligature when `prevJoins` holds and the
Isolated ligature otherwise; both source characters are consumed, and the text after
the Alef is shaped as on its own, so the letter after the ligature is not joined from
its right side (Initial or Isolated form). The last two parts give the two cases on
whole texts: the pair at the start of a text (Isolated ligature), and the pair after a
letter that joins to its right (Final ligature). -/
theorem C9_lam_alef_ligature (pre mid rest : List Nat) (a : Nat) (prevJoins : Bool)
    (dstIndex dstLen fuel : Nat)
    (ha : Arabic_IsComb2 a = true)
    (hmid : ∀ c ∈ mid, Arabic_IsInMap c = false)
    (hdst : dstIndex + 1 + rest.length ≤ dstLen)
    (hfuel : rest.length ≤ fuel) :
    Arabic_MakeShape.loop (pre ++ 0x0644 :: (mid ++ a :: rest)) dstLen
        (Arabic_MakeShape.s_nextArabic (pre ++ 0x0644 :: (mid ++ a :: rest)))
        (fuel + 1) pre.length prevJoins dstIndex
      = Arabic_GetComposition 0x0644 a (if prevJoins then .FINAL else .ISOLATED)
          :: Arabic_MakeShape rest (dstLen - (dstIndex + 1)) ∧
    (a = 0x0622 ∨ a = 0x0623 ∨ a = 0x0625 ∨ a = 0x0627) ∧
    (Arabic_GetComposition 0x0644 0x0622 .FINAL = 0xFEF6 ∧
      Arabic_GetComposition 0x0644 0x0623 .FINAL = 0xFEF8 ∧
      Arabic_GetComposition 0x0644 0x0625 .FINAL = 0xFEFA ∧
      Arabic_GetComposition 0x0644 0x0627 .FINAL = 0xFEFC ∧
      Arabic_GetComposition 0x0644 0x0622 .ISOLATED = 0xFEF5 ∧
      Arabic_GetComposition 0x0644 0x0623 .ISOLATED = 0xFEF7 ∧
      Arabic_GetComposition 0x0644 0x0625 .ISOLATED = 0xFEF9 ∧
      Arabic_GetComposition 0x0644 0x0627 .ISOLATED = 0xFEFB) ∧
    (∀ c rest', rest = c :: rest' → Arabic_IsInMap c = true →
      ∃ e tail, Arabic_MakeShape rest (dstLen - (dstIndex + 1)) = e :: tail ∧
        (e = Arabic_GetMap c .INITIAL ∨ e = Arabic_GetMap c .ISOLATED ∨
          (e = c ∧ Arabic_GetMap c .ISOLATED = 0) ∨
          (c = 0x0644 ∧ e ∈ [0xFEF5, 0xFEF7, 0xFEF9, 0xFEFB]))) ∧
    (∀ dl, 2 + rest.length ≤ dl →
      Arabic_MakeShape (0x0644 :: a :: rest) dl =
        Arabic_GetComposition 0x0644 a .ISOLATED :: Arabic_MakeShape rest (dl - 1)) ∧
    (∀ p dl, Arabic_CanJoinRight p = true → 3 + rest.length ≤ dl →
      Arabic_MakeShape (p :: 0x0644 :: a :: rest) dl =
        Arabic_GetMap p .INITIAL :: Arabic_GetComposition 0x0644 a .FINAL ::
          Arabic_MakeShape rest (dl - 2)) := by
  refine ⟨loop_lam_alef pre mid rest a prevJoins dstIndex dstLen fuel ha hmid hdst hfuel,
    ?_, by decide, ?_, ?_, ?_⟩
  · unfold Arabic_IsComb2 at ha
    simp only [Bool.or_eq_true, decide_eq_true_eq] at ha
    omega
  · intro c rest' hr hc
    subst hr
    exact Arabic_MakeShape_head c rest' _ hc (by omega)
  · intro dl hdl
    exact lam_alef_at_start a rest dl ha hdl
  · intro p dl hp hdl
    exact lam_alef_after_joining p a rest dl hp ha hdl

/-- The statement of C9 at the text Beh, Lam, Alef, Beh, in the loop state reached at the
Lam (`srcIndex = 1`, `prevJoins = true`, `dstIndex = 1`): the Final ligature U+FEFC is
written, then the Beh after it in its Isolated form. -/
theorem C9_lam_alef_ligature_witness :
    Arabic_IsComb2 0x0627 = true ∧
    (∀ c ∈ ([] : List Nat), Arabic_IsInMap c = false) ∧
    1 + 1 + [0x0628].length ≤ 4 ∧
    [0x0628].length ≤ 2 ∧
    Arabic_MakeShape.loop ([0x0628] ++ 0x0644 :: ([] ++ 0x0627 :: [0x0628])) 4
        (Arabic_MakeShape.s_nextArabic ([0x0628] ++ 0x0644 :: ([] ++ 0x0627 :: [0x0628])))
        (2 + 1) [0x0628].length true 1
      = Arabic_GetComposition 0x0644 0x0627 (if true then .FINAL else .ISOLATED)
          :: Arabic_MakeShape [0x0628] (4 - (1 + 1)) ∧
    Arabic_MakeShape [0x0628, 0x0644, 0x0627, 0x0628] 4 = [0xFE91, 0xFEFC, 0xFE8F] :=
  ⟨by decide, by decide, by decide, by decide,
    (C9_lam_alef_ligature [0x0628] [] [0x0628] 0x0627 true 1 4 2 (by decide) (by decide)
      (by decide) (by decide)).1,
    by decide⟩


/-! ## Texts without a letter of the joining block are only reordered -/

/-- On a text without a letter of the joining block, the forward pass of
`Arabic_MakeShape` copies the text from `srcIndex` on. -/
theorem loop_no_letters (src : List Nat) (dstLen : Nat) (tbl : List Nat)
    (hsrc : ∀ c ∈ src, Arabic_IsInMap c = false) :
    ∀ (fuel i : Nat) (pj : Bool) (d : Nat),
      src.length - i ≤ fuel → d + (src.length - i) ≤ dstLen →
      Arabic_MakeShape.loop src dstLen tbl fuel i pj d = src.drop i := by
  intro fuel
  induction fuel with
  | zero =>
    intro i pj d h1 _
    rw [Arabic_MakeShape.loop, List.drop_eq_nil_of_le (by omega)]
  | succ f ih =>
    intro i pj d h1 h2
    rw [Arabic_MakeShape.loop]
    by_cases hi : i < src.length
    · have hg : src.getD i 0 = src[i] := by
        simp [List.getD_eq_getElem?_getD, List.getElem?_eq_getElem hi]
      have hm : Arabic_IsInMap src[i] = false := hsrc _ (List.getElem_mem _)
      have hd : d < dstLen := by omega
      rw [if_pos hi]
      simp only [hg, hm, hd, if_true, Bool.false_eq_true, if_false]
      rw [List.drop_eq_getElem_cons hi]
      split_ifs <;> rw [ih (i + 1) _ (d + 1) (by omega) (by omega)]
    · rw [if_neg hi, List.drop_eq_nil_of_le (by omega)]

theorem Arabic_MakeShape_no_letters (src : List Nat) (dstLen : Nat)
    (hsrc : ∀ c ∈ src, Arabic_IsInMap c = false) (hlen : src.length ≤ dstLen) :
    Arabic_MakeShape src dstLen = src := by
  unfold Arabic_MakeShape
  by_cases h0 : src.length = 0
  · rw [if_pos (Or.inl h0)]
    exact (List.length_eq_zero.1 h0).symm
  · have : ¬ (src.length = 0 ∨ dstLen < src.length) := by omega
    rw [if_neg this]
    have := loop_no_letters src dstLen (Arabic_MakeShape.s_nextArabic src) hsrc src.length 0
      false 0 (by omega) (by omega)
    simpa using this

theorem shapeRun_no_letters (s : List Nat) (a b : Nat)
    (hs : ∀ c ∈ s, Arabic_IsInMap c = false) :
    BuildVisualBidiText_Tagless.shapeRun s a b = (s.drop a).take (b - a) := by
  unfold BuildVisualBidiText_Tagless.shapeRun
  simp only
  have hslice : ∀ c ∈ (s.drop a).take (b - a), Arabic_IsInMap c = false :=
    fun c hc => hs c (List.mem_of_mem_drop (List.mem_of_mem_take hc))
  split_ifs with h1 h2 h3
  · rw [h1]; simp
  · rfl
  · rfl
  · by_cases hle : ((s.drop a).take (b - a)).length ≤
        toSizeT (toInt32 ((b - a) * ARABIC_SHAPING_EXPANSION_FACTOR + ARABIC_SHAPING_SAFETY_MARGIN))
    · exact Arabic_MakeShape_no_letters _ _ hslice hle
    · exfalso
      apply h3
      unfold Arabic_MakeShape
      rw [if_pos (Or.inr (by omega))]
      rfl

theorem emitRun_perm_no_letters (s : List Nat) (r : TRunInfo)
    (hs : ∀ c ∈ s, Arabic_IsInMap c = false) :
    List.Perm (BuildVisualBidiText_Tagless.emitRun s r)
      ((s.drop r.start).take (r.end_ - r.start)) := by
  unfold BuildVisualBidiText_Tagless.emitRun
  split_ifs
  · rw [shapeRun_no_letters s _ _ hs]
    exact List.reverse_perm _
  · exact List.Perm.refl _

theorem slice_append (s : List Nat) (a m b : Nat) (h1 : a ≤ m) (h2 : m ≤ b) :
    (s.drop a).take (m - a) ++ (s.drop m).take (b - m) = (s.drop a).take (b - a) := by
  have e1 : b - a = (m - a) + (b - m) := by omega
  have e2 : s.drop m = (s.drop a).drop (m - a) := by
    rw [List.drop_drop]
    congr 1
    omega
  rw [e1, e2, List.take_add]

/-- The slices of the text cut by a chain of runs from `a` to `b`, put together in
order, are the slice of the text from `a` to `b`. -/
theorem chain_slices (s : List Nat) : ∀ (runs : List TRunInfo) (a b : Nat),
    List.Chain' (fun x y : TRunInfo => y.start = x.end_ ∧ y.dir ≠ x.dir) runs →
    (∀ r ∈ runs, r.start < r.end_) →
    (∀ r, runs.head? = some r → r.start = a) →
    (∀ r, runs.getLast? = some r → r.end_ = b) →
    runs ≠ [] →
    (runs.map (fun r => (s.drop r.start).take (r.end_ - r.start))).flatten =
      (s.drop a).take (b - a) ∧ a < b := by
  intro runs
  induction runs with
  | nil => intro a b _ _ _ _ h; exact absurd rfl h
  | cons r rest ih =>
    intro a b hc hpos hhead hlast _
    have hra : r.start = a := hhead r rfl
    have hr : r.start < r.end_ := hpos r (List.mem_cons_self _ _)
    cases rest with
    | nil =>
      have hrb : r.end_ = b := hlast r rfl
      simp only [List.map_cons, List.map_nil, List.flatten_cons, List.flatten_nil,
        List.append_nil]
      rw [hra, hrb]
      exact ⟨rfl, by omega⟩
    | cons r2 rest2 =>
      have hc2 := List.chain'_cons.1 hc
      have := ih r.end_ b hc2.2 (fun x hx => hpos x (List.mem_cons_of_mem _ hx))
        (fun x hx => by simp at hx; subst hx; exact hc2.1.1)
        (fun x hx => hlast x (by simpa [List.getLast?_cons_cons] using hx))
        (by simp)
      rw [List.map_cons, List.flatten_cons, this.1, hra]
      refine ⟨?_, by omega⟩
      rw [← hra]
      exact slice_append s r.start r.end_ b (by omega) (by omega)

theorem flatten_perm_of_map {α : Type} (f g : α → List Nat)
    (h : ∀ x, List.Perm (f x) (g x)) :
    ∀ l : List α, List.Perm (l.map f).flatten (l.map g).flatten := by
  intro l
  induction l with
  | nil => simp
  | cons x l ih =>
    simp only [List.map_cons, List.flatten_cons]
    exact List.Perm.append (h x) ih

/-- On a text without a letter of the joining block, `BuildVisualBidiText_Tagless` only
reorders: the visual text is a permutation of the text. -/
theorem BuildVisualBidiText_Tagless_perm (s : List Nat) (forceRTL : Bool)
    (hs : ∀ c ∈ s, Arabic_IsInMap c = false) :
    List.Perm (BuildVisualBidiText_Tagless s forceRTL) s := by
  unfold BuildVisualBidiText_Tagless
  by_cases h0 : s.length = 0
  · rw [if_pos h0, List.length_eq_zero.1 h0]
  · have hne : s ≠ [] := fun e => h0 (by simp [e])
    obtain ⟨⟨r0, hr0, hr0s⟩, hpos, hchain, ⟨rl, hrl, hrle⟩⟩ := runs_partition_aux s forceRTL hne
    have hrne : BuildVisualBidiText_Tagless.runs s forceRTL ≠ [] := by
      intro e; rw [e] at hr0; simp at hr0
    have hsl := (chain_slices s _ 0 s.length hchain hpos
      (fun r hr => by rw [hr0] at hr; cases hr; exact hr0s)
      (fun r hr => by rw [hrl] at hr; cases hr; exact hrle) hrne).1
    simp only [List.drop_zero, Nat.sub_zero, List.take_length] at hsl
    have hA : List.Perm ((BuildVisualBidiText_Tagless.runs s forceRTL).map
        (BuildVisualBidiText_Tagless.emitRun s)).flatten s := by
      have := flatten_perm_of_map (BuildVisualBidiText_Tagless.emitRun s) _
        (fun r => emitRun_perm_no_letters s r hs) (BuildVisualBidiText_Tagless.runs s forceRTL)
      rw [hsl] at this
      exact this
    have hB : List.Perm ((BuildVisualBidiText_Tagless.runs s forceRTL).reverse.map
        (BuildVisualBidiText_Tagless.emitRun s)).flatten s := by
      rw [List.map_reverse]
      exact ((List.reverse_perm _).flatten).trans hA
    rw [if_neg h0]
    simp only
    split_ifs <;> assumption


/-! ## Annotations through `ReorderTaggedWithBidi` (C7) -/

/-- An index found by the bracket search holds the bracket searched for. -/
theorem findBrackets_spec (buf : List Nat) :
    (0 ≤ (ReorderTaggedWithBidi.findBrackets buf).1 →
      buf.getD (ReorderTaggedWithBidi.findBrackets buf).1.toNat 0 = 91) ∧
    (0 ≤ (ReorderTaggedWithBidi.findBrackets buf).2 →
      buf.getD (ReorderTaggedWithBidi.findBrackets buf).2.toNat 0 = 93) := by
  unfold ReorderTaggedWithBidi.findBrackets
  have key : ∀ n : Nat,
      (0 ≤ ((List.range n).foldl
        (fun (st : Int × Int) (i : Nat) =>
          ((if buf.getD i 0 = 91 ∧ st.1 < 0 then (i : Int) else st.1),
           (if buf.getD i 0 = 93 ∧ st.2 < 0 then (i : Int) else st.2)))
        (-1, -1)).1 →
        buf.getD ((List.range n).foldl
        (fun (st : Int × Int) (i : Nat) =>
          ((if buf.getD i 0 = 91 ∧ st.1 < 0 then (i : Int) else st.1),
           (if buf.getD i 0 = 93 ∧ st.2 < 0 then (i : Int) else st.2)))
        (-1, -1)).1.toNat 0 = 91) ∧
      (0 ≤ ((List.range n).foldl
        (fun (st : Int × Int) (i : Nat) =>
          ((if buf.getD i 0 = 91 ∧ st.1 < 0 then (i : Int) else st.1),
           (if buf.getD i 0 = 93 ∧ st.2 < 0 then (i : Int) else st.2)))
        (-1, -1)).2 →
        buf.getD ((List.range n).foldl
        (fun (st : Int × Int) (i : Nat) =>
          ((if buf.getD i 0 = 91 ∧ st.1 < 0 then (i : Int) else st.1),
           (if buf.getD i 0 = 93 ∧ st.2 < 0 then (i : Int) else st.2)))
        (-1, -1)).2.toNat 0 = 93) := by
    intro n
    induction n with
    | zero => simp
    | succ n ih =>
      rw [List.range_succ, List.foldl_append]
      simp only [List.foldl_cons, List.foldl_nil]
      generalize (List.range n).foldl
        (fun (st : Int × Int) (i : Nat) =>
          ((if buf.getD i 0 = 91 ∧ st.1 < 0 then (i : Int) else st.1),
           (if buf.getD i 0 = 93 ∧ st.2 < 0 then (i : Int) else st.2)))
        (-1, -1) = st at ih ⊢
      obtain ⟨h1, h2⟩ := ih
      constructor
      · split_ifs with h
        · intro _
          rw [Int.toNat_ofNat]
          exact h.1
        · exact h1
      · split_ifs with h
        · intro _
          rw [Int.toNat_ofNat]
          exact h.1
        · exact h2
  exact key buf.length

theorem bracket_split (buf : List Nat) (o c : Nat) (hoc : o < c) (hc : c < buf.length)
    (ho91 : buf.getD o 0 = 91) (hc93 : buf.getD c 0 = 93) :
    buf = buf.take o ++ [91] ++ (buf.take c).drop (o + 1) ++ [93] ++ buf.drop (c + 1) := by
  have ho : o < buf.length := by omega
  have h1 : buf.drop c = 93 :: buf.drop (c + 1) := by
    rw [List.drop_eq_getElem_cons hc]
    congr 1
    rw [← hc93]
    simp [List.getD_eq_getElem?_getD, List.getElem?_eq_getElem hc]
  have hotc : o < (buf.take c).length := by
    rw [List.length_take]; omega
  have h2 : (buf.take c).drop o = 91 :: (buf.take c).drop (o + 1) := by
    rw [List.drop_eq_getElem_cons hotc]
    congr 1
    rw [List.getElem_take, ← ho91]
    simp [List.getD_eq_getElem?_getD, List.getElem?_eq_getElem ho]
  have h3 : (buf.take c).take o = buf.take o := by
    rw [List.take_take, Nat.min_eq_left (Nat.le_of_lt hoc)]
  calc buf = buf.take c ++ buf.drop c := (List.take_append_drop c buf).symm
    _ = ((buf.take c).take o ++ (buf.take c).drop o) ++ buf.drop c := by
        congr 1
        exact (List.take_append_drop o _).symm
    _ = _ := by
        rw [h1, h2, h3]
        simp

/-- For the characters of a segment without a letter of the joining block, the text that
`ReorderTaggedWithBidi` computes is a permutation of those characters. -/
theorem visual_perm (buf : List Nat) (forceRTL isHyperlink : Bool)
    (hbuf : ∀ x ∈ buf, Arabic_IsInMap x = false) :
    List.Perm (ReorderTaggedWithBidi.visual buf forceRTL isHyperlink) buf := by
  unfold ReorderTaggedWithBidi.visual
  simp only
  obtain ⟨b1, b2⟩ := findBrackets_lt buf
  obtain ⟨s1, s2⟩ := findBrackets_spec buf
  split_ifs with h
  · obtain ⟨_, _, ho, hc⟩ := h
    have hsplit := bracket_split buf (ReorderTaggedWithBidi.findBrackets buf).1.toNat
      (ReorderTaggedWithBidi.findBrackets buf).2.toNat (by omega) (by omega) (s1 ho)
      (s2 (by omega))
    have hcontent : ∀ x ∈ (buf.take (ReorderTaggedWithBidi.findBrackets buf).2.toNat).drop
        ((ReorderTaggedWithBidi.findBrackets buf).1.toNat + 1), Arabic_IsInMap x = false :=
      fun x hx => hbuf x (List.mem_of_mem_take (List.mem_of_mem_drop hx))
    have hp := BuildVisualBidiText_Tagless_perm _ false hcontent
    have hcongr : List.Perm
        (buf.take (ReorderTaggedWithBidi.findBrackets buf).1.toNat ++ [91] ++
          BuildVisualBidiText_Tagless
            ((buf.take (ReorderTaggedWithBidi.findBrackets buf).2.toNat).drop
              ((ReorderTaggedWithBidi.findBrackets buf).1.toNat + 1)) false ++ [93] ++
          buf.drop ((ReorderTaggedWithBidi.findBrackets buf).2.toNat + 1))
        (buf.take (ReorderTaggedWithBidi.findBrackets buf).1.toNat ++ [91] ++
          (buf.take (ReorderTaggedWithBidi.findBrackets buf).2.toNat).drop
              ((ReorderTaggedWithBidi.findBrackets buf).1.toNat + 1) ++ [93] ++
          buf.drop ((ReorderTaggedWithBidi.findBrackets buf).2.toNat + 1)) :=
      List.Perm.append_right _ (List.Perm.append_right _ (List.Perm.append_left _ hp))
    rw [← hsplit] at hcongr
    exact hcongr
  · exact BuildVisualBidiText_Tagless_perm buf forceRTL hbuf

/-- C7 (as amended): when `ReorderTaggedWithBidi` reorders a segment without a letter of
the joining block, the output has the length of the segment; the entry at index `i`
keeps the color, the link id and the logical position of the segment entry at index
`i`, and its scalar is character `i` of the reordered text; the scalars of the output
are a permutation of those of the segment. -/
theorem C7_annotations_stay_in_place (vis : List TVisChar) (forceRTL isHyperlink : Bool)
    (hvis : ∀ e ∈ vis, Arabic_IsInMap e.ch = false) :
    (ReorderTaggedWithBidi vis forceRTL isHyperlink).length = vis.length ∧
    (∀ i, i < vis.length →
      ((ReorderTaggedWithBidi vis forceRTL isHyperlink).getD i default).color =
        (vis.getD i default).color ∧
      ((ReorderTaggedWithBidi vis forceRTL isHyperlink).getD i default).linkIndex =
        (vis.getD i default).linkIndex ∧
      ((ReorderTaggedWithBidi vis forceRTL isHyperlink).getD i default).logicalPos =
        (vis.getD i default).logicalPos ∧
      ((ReorderTaggedWithBidi vis forceRTL isHyperlink).getD i default).ch =
        (ReorderTaggedWithBidi.visual (vis.map (fun vc => vc.ch)) forceRTL isHyperlink).getD i 0) ∧
    List.Perm ((ReorderTaggedWithBidi vis forceRTL isHyperlink).map (fun vc => vc.ch))
      (vis.map (fun vc => vc.ch)) := by
  have hbuf : ∀ x ∈ vis.map (fun vc => vc.ch), Arabic_IsInMap x = false := by
    intro x hx
    obtain ⟨e, he, rfl⟩ := List.mem_map.1 hx
    exact hvis e he
  have hperm := visual_perm (vis.map (fun vc => vc.ch)) forceRTL isHyperlink hbuf
  have hlen : (ReorderTaggedWithBidi.visual (vis.map (fun vc => vc.ch)) forceRTL
      isHyperlink).length = vis.length := by
    rw [hperm.length_eq, List.length_map]
  unfold ReorderTaggedWithBidi
  by_cases h0 : vis.length = 0
  · have hnil : vis = [] := List.length_eq_zero.1 h0
    subst hnil
    simp
  · rw [if_neg h0, writeBack_eq_zipWith _ _ (Nat.le_of_eq hlen)]
    obtain ⟨vt, hvt⟩ : ∃ vt, vt = ReorderTaggedWithBidi.visual (vis.map (fun vc => vc.ch))
      forceRTL isHyperlink := ⟨_, rfl⟩
    rw [← hvt] at hlen hperm ⊢
    refine ⟨by simp [hlen], ?_, ?_⟩
    · intro i hi
      have hi2 : i < vt.length := by omega
      have hz : (List.zipWith (fun (vc : TVisChar) (c : Nat) => { vc with ch := c }) vis vt).getD
          i default = { vis[i] with ch := vt[i] } := by
        simp [List.getD_eq_getElem?_getD, List.getElem?_eq_getElem, hi, hi2]
      have hv : vis.getD i default = vis[i] := by
        simp [List.getD_eq_getElem?_getD, List.getElem?_eq_getElem hi]
      have hg : vt.getD i 0 = vt[i] := by
        simp [List.getD_eq_getElem?_getD, List.getElem?_eq_getElem hi2]
      rw [hz, hv, hg]
      exact ⟨rfl, rfl, rfl, rfl⟩
    · have hmap : (List.zipWith (fun (vc : TVisChar) (c : Nat) => { vc with ch := c }) vis
          vt).map (fun vc => vc.ch) = vt := by
        apply List.ext_getElem
        · simp [hlen]
        · intro i h1 h2
          simp
      rw [hmap]
      exact hperm

/-- A Hebrew segment of two letters, reordered: the statement of C7 at `hebrewSegment`,
which has no letter of the joining block. -/
theorem C7_annotations_stay_in_place_witness :
    (∀ e ∈ hebrewSegment, Arabic_IsInMap e.ch = false) ∧
    (ReorderTaggedWithBidi hebrewSegment false false).length = hebrewSegment.length ∧
    List.Perm ((ReorderTaggedWithBidi hebrewSegment false false).map (fun vc => vc.ch))
      (hebrewSegment.map (fun vc => vc.ch)) :=
  ⟨by decide,
    (C7_annotations_stay_in_place hebrewSegment false false (by decide)).1,
    (C7_annotations_stay_in_place hebrewSegment false false (by decide)).2.2⟩

/-- C7 (counterexample): the entries of `hebrewSegment` carry the characters of
`hebrewText` at their logical positions and none is a letter of the joining block, yet
after `ReorderTaggedWithBidi` the first entry shows U+05D1 while its logical position
is `0`, where the text has U+05D0; its color is the one of the character at position `0`,
not the one of the character it shows. -/
theorem C7_counterexample :
    (∀ e ∈ hebrewSegment, e.ch = hebrewText.getD e.logicalPos.toNat 0 ∧
      Arabic_IsInMap e.ch = false) ∧
    ReorderTaggedWithBidi hebrewSegment false false =
      [{ ch := 0x05D1, color := 1, linkIndex := -1, logicalPos := 0 },
       { ch := 0x05D0, color := 2, linkIndex := -1, logicalPos := 1 }] ∧
    ¬ (∀ e ∈ ReorderTaggedWithBidi hebrewSegment false false,
        e.ch = hebrewText.getD e.logicalPos.toNat 0) := by
  decide


/-! ## The code at the failing inputs of C6, C8 and C10 -/

/-- C6 (the code at the failing input): the segment-splitting loop pushes a segment only
when the link id changes, and reads the link id past the end of the stream as `-1`, the
id of "no link"; so a trailing run of characters with no link is never pushed. A stream
of one character with no link gives no segment; a linked pair followed by two
characters with no link gives the linked segment only; and the tagged text
`|cFF0000FFRed|r normal`, whose 10 visible characters have no link, is laid out for an
RTL display as the empty stream. -/
theorem C6_trailing_segment_dropped :
    (Update.splitSegments [{ ch := 97, color := 7, linkIndex := -1, logicalPos := 0 }]).segments
      = [] ∧
    (Update.splitSegments
      [{ ch := 91, color := 7, linkIndex := 0, logicalPos := 5 },
       { ch := 93, color := 7, linkIndex := 0, logicalPos := 6 },
       { ch := 32, color := 7, linkIndex := -1, logicalPos := 9 },
       { ch := 97, color := 7, linkIndex := -1, logicalPos := 10 }]).segments
      = [[{ ch := 91, color := 7, linkIndex := 0, logicalPos := 5 },
          { ch := 93, color := 7, linkIndex := 0, logicalPos := 6 }]] ∧
    (Update.parse GetTextTag htoi redText 0xFFFFFFFF).logicalVis.length = 10 ∧
    (Update.splitSegments (Update.parse GetTextTag htoi redText 0xFFFFFFFF).logicalVis).segments
      = [] ∧
    (Update.tagged GetTextTag htoi redText 0xFFFFFFFF true false).logicalVis = [] := by
  decide

/-- C8 (the code at the failing input): for Beh, space, Beh the first Beh, which stands
between the start of the text and a space, is written in its Initial form U+FE91, not in
its Isolated form U+FE8F: the lookup of the next letter skips the space. -/
theorem C8_letter_before_space :
    Arabic_MakeShape [0x0628, 0x20, 0x0628] 3 = [0xFE91, 0x20, 0xFE8F] ∧
    Arabic_IsInMap 0x20 = false ∧
    (Arabic_MakeShape.s_nextArabic [0x0628, 0x20, 0x0628]).getD 0 0 = 2 ∧
    Arabic_GetMap 0x0628 .INITIAL = 0xFE91 ∧
    Arabic_GetMap 0x0628 .ISOLATED = 0xFE8F := by
  decide

/-- C10 (the code at the failing input): for Beh, Tatweel, Beh the first Beh is written in
its Initial form and the Tatweel unchanged, but the second Beh is written in its
Isolated form U+FE8F, not in its Final form U+FE90: the Tatweel has neither an Initial
nor a Medial form in the table, so `Arabic_CanJoinRight` is false for it and
`prevJoins` is false after it. -/
theorem C10_tatweel_breaks_chain :
    Arabic_MakeShape [0x0628, 0x0640, 0x0628] 3 = [0xFE91, 0x0640, 0xFE8F] ∧
    Arabic_CanJoinRight 0x0628 = true ∧
    Arabic_GetMap 0x0628 .FINAL = 0xFE90 ∧
    Arabic_GetMap 0x0628 .ISOLATED = 0xFE8F ∧
    Arabic_CanJoinLeft 0x0640 = true ∧
    Arabic_CanJoinRight 0x0640 = false ∧
    (Arabic_MakeShape.selectForm 0x0640 true 0x0628).2 = false := by
  decide

/-! ## Characters between a Lam and its Alef (C11) -/

/-- C11 (the code at the failing input): for Lam, space, Alef and for Lam, Fatha, Alef
the output is the single ligature U+FEFB: the space (a non-Arabic character) and the
Fatha (a composing mark) that stand between the Lam and the Alef are dropped, since the
loop jumps to the index of the Alef. -/
theorem C11_dropped_between_lam_alef :
    Arabic_MakeShape [0x0644, 0x20, 0x0627] 3 = [0xFEFB] ∧
    Arabic_IsInMap 0x20 = false ∧
    ¬ List.Sublist [0x20] (Arabic_MakeShape [0x0644, 0x20, 0x0627] 3) ∧
    Arabic_MakeShape [0x0644, 0x064E, 0x0627] 3 = [0xFEFB] ∧
    Arabic_IsInComposing 0x064E = true ∧
    ¬ List.Sublist [0x064E] (Arabic_MakeShape [0x0644, 0x064E, 0x0627] 3) := by
  refine ⟨by decide, by decide, ?_, by decide, by decide, ?_⟩
  · have h : Arabic_MakeShape [0x0644, 0x20, 0x0627] 3 = [0xFEFB] := by decide
    rw [h]
    simp
  · have h : Arabic_MakeShape [0x0644, 0x064E, 0x0627] 3 = [0xFEFB] := by decide
    rw [h]
    simp


/-! ## Chat messages (C12, C13, C14) -/

/-- The scan of `BuildVisualChatMessage` sets `msgHasTags` exactly when the message holds
the tag character `|` (the early exit is taken only once `msgHasTags` is set). -/
theorem chat_scan_hasTags : ∀ (msg : List Nat) (st : Bool × Bool),
    (BuildVisualChatMessage.scan msg st).2 = (st.2 || decide (124 ∈ msg)) := by
  intro msg
  induction msg with
  | nil => intro st; simp [BuildVisualChatMessage.scan]
  | cons ch rest ih =>
    intro st
    unfold BuildVisualChatMessage.scan
    simp only
    generalize (if IsRTLCodepoint ch = true then true else st.1) = r
    by_cases hc : ch = 124
    · have hmem : (124 ∈ ch :: rest) := by rw [hc]; exact List.mem_cons_self _ _
      rw [if_pos hc]
      by_cases h : (r && true) = true
      · rw [if_pos h]
        simp [hmem]
      · rw [if_neg h, ih]
        simp [hmem]
    · have hmem : (124 ∈ ch :: rest) ↔ (124 ∈ rest) := by
        simp only [List.mem_cons]
        constructor
        · rintro (h | h)
          · exact absurd h.symm hc
          · exact h
        · exact fun h => Or.inr h
      rw [if_neg hc]
      by_cases h : (r && st.2) = true
      · rw [if_pos h]
        simp only [Bool.and_eq_true] at h
        simp [h.2]
      · rw [if_neg h, ih]
        simp only [hmem]

/-- What `BuildVisualChatMessage` returns for a non-empty name and message. -/
theorem BuildVisualChatMessage_eq (name msg : List Nat) (forceRTL : Bool)
    (hn : name ≠ []) (hm : msg ≠ []) :
    BuildVisualChatMessage name msg forceRTL =
      if forceRTL then
        (if 124 ∈ msg then msg else BuildVisualBidiText_Tagless msg forceRTL) ++ [32, 58, 32] ++ name
      else
        name ++ [32, 58, 32] ++
          (if 124 ∈ msg then msg else BuildVisualBidiText_Tagless msg forceRTL) := by
  have h1 : ¬ (name.length = 0 ∨ msg.length = 0) := by
    intro h
    rcases h with h | h
    · exact hn (List.length_eq_zero.1 h)
    · exact hm (List.length_eq_zero.1 h)
  unfold BuildVisualChatMessage
  rw [if_neg h1]
  simp only [chat_scan_hasTags, Bool.false_or, decide_eq_true_eq]

/-- C12: for a non-empty name and message, `BuildVisualChatMessage` returns the name, then
`" : "`, then the laid-out message when the flag is LTR, and the laid-out message, then
`" : "`, then the name when it is RTL, whatever the message is; `"Bob"` and `"hello"`
give `"Bob : hello"` and `"hello : Bob"`. -/
theorem C12_chat_order (name msg : List Nat) (hn : name ≠ []) (hm : msg ≠ []) :
    BuildVisualChatMessage name msg false =
      name ++ [32, 58, 32] ++
        (if 124 ∈ msg then msg else BuildVisualBidiText_Tagless msg false) ∧
    BuildVisualChatMessage name msg true =
      (if 124 ∈ msg then msg else BuildVisualBidiText_Tagless msg true) ++ [32, 58, 32] ++ name ∧
    BuildVisualChatMessage [66, 111, 98] [104, 101, 108, 108, 111] false =
      [66, 111, 98, 32, 58, 32, 104, 101, 108, 108, 111] ∧
    BuildVisualChatMessage [66, 111, 98] [104, 101, 108, 108, 111] true =
      [104, 101, 108, 108, 111, 32, 58, 32, 66, 111, 98] := by
  refine ⟨?_, ?_, by decide, by decide⟩
  · rw [BuildVisualChatMessage_eq name msg false hn hm]
    simp
  · rw [BuildVisualChatMessage_eq name msg true hn hm]
    simp

/-- The two orders of C12 at the name `"Bob"` and the message `"hello"`. -/
theorem C12_chat_order_witness :
    [66, 111, 98] ≠ ([] : List Nat) ∧ [104, 101, 108, 108, 111] ≠ ([] : List Nat) ∧
    BuildVisualChatMessage [66, 111, 98] [104, 101, 108, 108, 111] false =
      [66, 111, 98] ++ [32, 58, 32] ++
        (if 124 ∈ [104, 101, 108, 108, 111] then [104, 101, 108, 108, 111]
          else BuildVisualBidiText_Tagless [104, 101, 108, 108, 111] false) :=
  ⟨by decide, by decide,
    (C12_chat_order [66, 111, 98] [104, 101, 108, 108, 111] (by decide) (by decide)).1⟩

/-- C13 (the code at the failing input): the message part is the message verbatim when it
holds `|`, and otherwise `BuildVisualBidiText_Tagless` of the message with the flag
`forceRTL` passed on. For the RTL flag and the message `"a "` followed by U+05D0, whose
first strong character is LTR, the message part is laid out with the forced RTL base
(U+05D0, `a`, space), not with the detected LTR base (`a`, space, U+05D0). -/
theorem C13_message_forced_direction :
    (∀ (name msg : List Nat) (forceRTL : Bool), name ≠ [] → msg ≠ [] →
      BuildVisualChatMessage name msg forceRTL =
        if forceRTL then
          (if 124 ∈ msg then msg else BuildVisualBidiText_Tagless msg forceRTL) ++
            [32, 58, 32] ++ name
        else
          name ++ [32, 58, 32] ++
            (if 124 ∈ msg then msg else BuildVisualBidiText_Tagless msg forceRTL)) ∧
    DetectBaseDir_FirstStrong [97, 32, 0x05D0] = EBidiDir.LTR ∧
    BuildVisualBidiText_Tagless [97, 32, 0x05D0] false = [97, 32, 0x05D0] ∧
    BuildVisualBidiText_Tagless [97, 32, 0x05D0] true = [0x05D0, 97, 32] ∧
    BuildVisualChatMessage [66, 111, 98] [97, 32, 0x05D0] true =
      [0x05D0, 97, 32] ++ [32, 58, 32] ++ [66, 111, 98] :=
  ⟨BuildVisualChatMessage_eq, by decide, by decide, by decide, by decide⟩

/-- The name part of the output of `BuildVisualChatMessage`, for a non-empty name and
message, is the name as given: the first characters of the output for the LTR flag,
the last ones for the RTL flag, whatever the message is. -/
theorem chat_name_verbatim (name msg : List Nat) (hn : name ≠ []) (hm : msg ≠ []) :
    (BuildVisualChatMessage name msg false).take name.length = name ∧
    (BuildVisualChatMessage name msg true).drop
      ((BuildVisualChatMessage name msg true).length - name.length) = name := by
  constructor
  · rw [BuildVisualChatMessage_eq name msg false hn hm]
    simp
  · rw [BuildVisualChatMessage_eq name msg true hn hm]
    simp only [if_true, List.length_append]
    rw [Nat.add_sub_cancel, List.drop_left']
    simp

/-- C14 (the code at the failing input): for the Hebrew name U+05D0 U+05D1 and the
message `hi`, the name part of the output of `BuildVisualChatMessage` is the name in
logical order for both flags, while the BiDi visual form of the name alone is the
reversed U+05D1 U+05D0, which is also how the legacy path of `Update` draws the name
of the same chat line; for the Arabic name Beh Beh the name part is unshaped and in
logical order, while the visual form is the shaped and reversed U+FE90 U+FE91. The
name part is the name as given for every non-empty name and message. -/
theorem C14_name_not_resolved :
    BuildVisualChatMessage [0x05D0, 0x05D1] [104, 105] false =
      [0x05D0, 0x05D1, 32, 58, 32, 104, 105] ∧
    BuildVisualChatMessage [0x05D0, 0x05D1] [104, 105] true =
      [104, 105, 32, 58, 32, 0x05D0, 0x05D1] ∧
    BuildVisualBidiText_Tagless [0x05D0, 0x05D1] false = [0x05D1, 0x05D0] ∧
    BuildVisualBidiText_Tagless [0x05D0, 0x05D1] true = [0x05D1, 0x05D0] ∧
    (BuildVisualChatMessage [0x05D0, 0x05D1] [104, 105] false).take 2 ≠
      BuildVisualBidiText_Tagless [0x05D0, 0x05D1] false ∧
    (BuildVisualChatMessage [0x05D0, 0x05D1] [104, 105] true).drop 5 ≠
      BuildVisualBidiText_Tagless [0x05D0, 0x05D1] true ∧
    (Update.tagless ([0x05D0, 0x05D1] ++ [32, 58, 32] ++ [104, 105]) false none).visual =
      [32, 104, 105, 58, 32, 0x05D1, 0x05D0] ∧
    BuildVisualChatMessage [0x0628, 0x0628] [104, 105] false =
      [0x0628, 0x0628, 32, 58, 32, 104, 105] ∧
    BuildVisualBidiText_Tagless [0x0628, 0x0628] false = [0xFE90, 0xFE91] ∧
    (Update.tagless ([0x0628, 0x0628] ++ [32, 58, 32] ++ [104, 105]) false none).visual =
      [32, 104, 105, 58, 32, 0xFE90, 0xFE91] ∧
    (∀ (name msg : List Nat), name ≠ [] → msg ≠ [] →
      (BuildVisualChatMessage name msg false).take name.length = name ∧
      (BuildVisualChatMessage name msg true).drop
        ((BuildVisualChatMessage name msg true).length - name.length) = name) :=
  ⟨by decide, by decide, by decide, by decide, by decide, by decide, by decide, by decide,
    by decide, by decide, chat_name_verbatim⟩

/-! ## Bracketed hyperlink text (C15, C16) -/

/-- The bracket search of `ReorderTaggedWithBidi` finds the first `[` and the first `]`. -/
theorem findBrackets_eq (buf : List Nat) :
    ReorderTaggedWithBidi.findBrackets buf = (firstIdx buf 91, firstIdx buf 93) := by
  unfold ReorderTaggedWithBidi.findBrackets
  have key : ∀ n : Nat, n ≤ buf.length →
      (List.range n).foldl
        (fun (st : Int × Int) (i : Nat) =>
          ((if buf.getD i 0 = 91 ∧ st.1 < 0 then (i : Int) else st.1),
           (if buf.getD i 0 = 93 ∧ st.2 < 0 then (i : Int) else st.2)))
        (-1, -1) = (firstIdx (buf.take n) 91, firstIdx (buf.take n) 93) := by
    intro n
    induction n with
    | zero => intro _; simp [firstIdx]
    | succ n ih =>
      intro hn
      have hn' : n < buf.length := hn
      rw [List.range_succ, List.foldl_append, ih (Nat.le_of_lt hn')]
      simp only [List.foldl_cons, List.foldl_nil]
      have htake : buf.take (n + 1) = buf.take n ++ [buf.getD n 0] := by
        rw [List.take_succ]
        simp [List.getD_eq_getElem?_getD, List.getElem?_eq_getElem hn']
      have hlen : (buf.take n).length = n := by
        rw [List.length_take]; omega
      rw [htake, firstIdx_append_singleton, firstIdx_append_singleton, hlen]
      have h91 := firstIdx_neg_iff (buf.take n) 91
      have h93 := firstIdx_neg_iff (buf.take n) 93
      congr 1
      · by_cases hm : 91 ∈ buf.take n
        · have : ¬ firstIdx (buf.take n) 91 < 0 := fun h => (h91.1 h) hm
          rw [if_pos hm, if_neg (fun h => this h.2)]
        · have hneg : firstIdx (buf.take n) 91 < 0 := h91.2 hm
          rw [if_neg hm]
          by_cases hb : buf.getD n 0 = 91
          · rw [if_pos ⟨hb, hneg⟩, if_pos hb.symm]
          · rw [if_neg (fun h => hb h.1), if_neg (fun h => hb h.symm)]
            simp [firstIdx, hm]
      · by_cases hm : 93 ∈ buf.take n
        · have : ¬ firstIdx (buf.take n) 93 < 0 := fun h => (h93.1 h) hm
          rw [if_pos hm, if_neg (fun h => this h.2)]
        · have hneg : firstIdx (buf.take n) 93 < 0 := h93.2 hm
          rw [if_neg hm]
          by_cases hb : buf.getD n 0 = 93
          · rw [if_pos ⟨hb, hneg⟩, if_pos hb.symm]
          · rw [if_neg (fun h => hb h.1), if_neg (fun h => hb h.symm)]
            simp [firstIdx, hm]
  rw [key buf.length (Nat.le_refl _), List.take_length]

/-- The characters that the write-back of `ReorderTaggedWithBidi` leaves in the segment
are those of the visual text, whether the sizes agree or not. -/
theorem writeBack_ch (vis : List TVisChar) (visual : List Nat) :
    (ReorderTaggedWithBidi.writeBack vis visual).map (fun vc => vc.ch) = visual := by
  unfold ReorderTaggedWithBidi.writeBack
  apply List.ext_getElem
  · split_ifs with h
    · simp
    · simp
      exact (not_not.1 h).symm
  · intro i h1 h2
    split_ifs with h <;>
      simp [List.getD_eq_getElem?_getD, List.getElem?_eq_getElem h2]

/-- C16: for a hyperlink segment of more than 2 characters whose first `[` is at index
`o` and whose first `]` is at index `c > o`, `ReorderTaggedWithBidi` yields the
characters before `o` unchanged, then `[`, then the visual form of the characters
strictly between `o` and `c`, then `]`, then the characters after `c` unchanged, for
either paragraph direction; `Buy [Sword+9]` comes out unchanged under both. -/
theorem C16_bracket_frame (vis : List TVisChar) (forceRTL : Bool) (o c : Nat)
    (hlen : 2 < vis.length)
    (ho : (vis.map (fun vc => vc.ch)).indexOf 91 = o)
    (hc : (vis.map (fun vc => vc.ch)).indexOf 93 = c)
    (hoc : o < c) (hcl : c < vis.length) :
    (ReorderTaggedWithBidi vis forceRTL true).map (fun vc => vc.ch) =
      (vis.map (fun vc => vc.ch)).take o ++ [91] ++
        BuildVisualBidiText_Tagless
          (((vis.map (fun vc => vc.ch)).take c).drop (o + 1)) false ++ [93] ++
        (vis.map (fun vc => vc.ch)).drop (c + 1) ∧
    (ReorderTaggedWithBidi (linkSegment buySword) false true).map (fun vc => vc.ch) = buySword ∧
    (ReorderTaggedWithBidi (linkSegment buySword) true true).map (fun vc => vc.ch) = buySword := by
  refine ⟨?_, by decide, by decide⟩
  obtain ⟨buf, hbuf⟩ : ∃ buf, buf = vis.map (fun vc => vc.ch) := ⟨_, rfl⟩
  rw [← hbuf] at ho hc ⊢
  have hbl : buf.length = vis.length := by rw [hbuf, List.length_map]
  have hmo : 91 ∈ buf := List.indexOf_lt_length.1 (by omega)
  have hmc : 93 ∈ buf := List.indexOf_lt_length.1 (by omega)
  have h0 : ¬ vis.length = 0 := by omega
  unfold ReorderTaggedWithBidi
  rw [if_neg h0, writeBack_ch, ← hbuf]
  unfold ReorderTaggedWithBidi.visual
  simp only
  rw [findBrackets_eq]
  simp only [firstIdx, hmo, hmc, if_true, ho, hc]
  have hcond : (True ∧ buf.length > 2 ∧ ((o : Nat) : Int) ≥ 0 ∧ ((c : Nat) : Int) > (o : Int)) := by
    refine ⟨trivial, by omega, by omega, by omega⟩
  rw [if_pos hcond]
  simp only [Int.toNat_ofNat]

/-- The statement of C16 at the hyperlink segment `Buy [Sword+9]`, whose first `[` is at
index 4 and whose first `]` is at index 12. -/
theorem C16_bracket_frame_witness :
    2 < (linkSegment buySword).length ∧
    ((linkSegment buySword).map (fun vc => vc.ch)).indexOf 91 = 4 ∧
    ((linkSegment buySword).map (fun vc => vc.ch)).indexOf 93 = 12 ∧
    (ReorderTaggedWithBidi (linkSegment buySword) true true).map (fun vc => vc.ch) =
      ((linkSegment buySword).map (fun vc => vc.ch)).take 4 ++ [91] ++
        BuildVisualBidiText_Tagless
          ((((linkSegment buySword).map (fun vc => vc.ch)).take 12).drop (4 + 1)) false ++
        [93] ++ ((linkSegment buySword).map (fun vc => vc.ch)).drop (12 + 1) :=
  ⟨by decide, by decide, by decide,
    (C16_bracket_frame (linkSegment buySword) true 4 12 (by decide) (by decide) (by decide)
      (by decide) (by decide)).1⟩

/-- C15 (the code at the failing input): for the hyperlink segment `[`, U+062F U+0631
U+0639, `+9`, `]` the bracket content is laid out by `BuildVisualBidiText_Tagless` with
`forceRTL = false`, which detects the base direction from the first strong character:
here RTL. So under both paragraph directions the `+9` comes out at the left end of the
bracket content, before the reversed Arabic word, not at its right end. -/
theorem C15_bracket_content_auto_direction :
    DetectBaseDir_FirstStrong [0x062F, 0x0631, 0x0639, 43, 57] = EBidiDir.RTL ∧
    BuildVisualBidiText_Tagless [0x062F, 0x0631, 0x0639, 43, 57] false =
      [43, 57, 0xFEC9, 0xFEAD, 0xFEA9] ∧
    (ReorderTaggedWithBidi (linkSegment arabicItem) false true).map (fun vc => vc.ch) =
      [91, 43, 57, 0xFEC9, 0xFEAD, 0xFEA9, 93] ∧
    (ReorderTaggedWithBidi (linkSegment arabicItem) true true).map (fun vc => vc.ch) =
      [91, 43, 57, 0xFEC9, 0xFEAD, 0xFEA9, 93] := by
  decide


/-! ## Hyperlink metadata is not visible (C17) -/

/-- The effect of a tag on the parse state: the visible stream never changes; unless the
tag is a hyperlink end the link targets and the metadata state are kept; a hyperlink
start enters the metadata state. -/
theorem applyTag_fields (hx : List Nat → Nat) (dc : Nat) (r : TagResult) (st : ParseState) :
    (Update.applyTag hx dc r st).logicalVis = st.logicalVis ∧
    (r.ret ≠ TextTag.TEXT_TAG_HYPERLINK_END →
      (Update.applyTag hx dc r st).linkTargets = st.linkTargets ∧
      (st.hyperlinkStep = 1 → (Update.applyTag hx dc r st).hyperlinkStep = 1)) ∧
    (r.ret = TextTag.TEXT_TAG_HYPERLINK_START →
      (Update.applyTag hx dc r st).hyperlinkStep = 1 ∧
      (Update.applyTag hx dc r st).hyperlinkTarget = [] ∧
      (Update.applyTag hx dc r st).activeLinkIndex = -1) := by
  unfold Update.applyTag
  cases hr : r.ret <;> simp
  split_ifs <;> rfl

/-- One iteration of the tag-parsing loop in the hyperlink-metadata state, at a position
where the tag reader does not return a hyperlink-end tag: the state stays the metadata
state, and neither the visible stream nor the list of link targets changes. -/
theorem parseStep_metadata (g : TagReader) (hx : List Nat → Nat) (wText : List Nat)
    (dc : Nat) (st : ParseState) (h1 : st.hyperlinkStep = 1)
    (hne : (g (wText.drop st.i) st.tagLen).ret ≠ TextTag.TEXT_TAG_HYPERLINK_END) :
    (Update.parseStep g hx wText dc st).hyperlinkStep = 1 ∧
    (Update.parseStep g hx wText dc st).logicalVis = st.logicalVis ∧
    (Update.parseStep g hx wText dc st).linkTargets = st.linkTargets := by
  unfold Update.parseStep
  simp only
  by_cases hp : (g (List.drop st.i wText) st.tagLen).ret = TextTag.TEXT_TAG_PLAIN
  · rw [if_pos hp, if_pos h1]
    exact ⟨h1, rfl, rfl⟩
  · rw [if_neg hp]
    obtain ⟨a, b, _⟩ := applyTag_fields hx dc (g (List.drop st.i wText) st.tagLen) st
    exact ⟨(b hne).2 h1, a, (b hne).1⟩

/-- A visible character collected by the tag-parsing loop from a state on carries a
logical position at or after the index of that state. -/
theorem parseLoop_later (g : TagReader) (hx : List Nat → Nat) (wText : List Nat) (dc : Nat) :
    ∀ (fuel : Nat) (st : ParseState),
      ∀ e ∈ (Update.parseLoop g hx wText dc fuel st).logicalVis,
        e ∈ st.logicalVis ∨ (st.i : Int) ≤ e.logicalPos := by
  intro fuel
  induction fuel with
  | zero => intro st e he; exact Or.inl he
  | succ f ih =>
    intro st e he
    unfold Update.parseLoop at he
    split_ifs at he with hi
    · have hlt := parseStep_i g hx wText dc st
      rcases ih _ e he with h | h
      · rcases parseStep_logicalVis g hx wText dc st with hv | ⟨x, hx1, hv⟩
        · rw [hv] at h; exact Or.inl h
        · rw [hv] at h
          rcases List.mem_append.1 h with h | h
          · exact Or.inl h
          · simp at h
            subst h
            exact Or.inr (by omega)
      · exact Or.inr (by omega)
    · exact Or.inl he

/-- Between a state in the hyperlink-metadata state and the next position `p` at which
the tag reader can return a hyperlink-end tag, the loop collects no visible character. -/
theorem parseLoop_metadata_window (g : TagReader) (hx : List Nat → Nat) (wText : List Nat)
    (dc : Nat) (p : Nat) :
    ∀ (fuel : Nat) (st : ParseState), st.hyperlinkStep = 1 →
      (∀ j tl, st.i ≤ j → j < p →
        (g (wText.drop j) tl).ret ≠ TextTag.TEXT_TAG_HYPERLINK_END) →
      ∀ e ∈ (Update.parseLoop g hx wText dc fuel st).logicalVis,
        e ∈ st.logicalVis ∨ (p : Int) ≤ e.logicalPos := by
  intro fuel
  induction fuel with
  | zero => intro st _ _ e he; exact Or.inl he
  | succ f ih =>
    intro st h1 hno e he
    by_cases hip : st.i < p
    · unfold Update.parseLoop at he
      split_ifs at he with hi
      · obtain ⟨a, b, _⟩ := parseStep_metadata g hx wText dc st h1
          (hno st.i st.tagLen (Nat.le_refl _) hip)
        have hlt := parseStep_i g hx wText dc st
        have := ih _ a (fun j tl hj1 hj2 => hno j tl (by omega) hj2) e he
        rw [b] at this
        exact this
      · exact Or.inl he
    · rcases parseLoop_later g hx wText dc (f + 1) st e he with h | h
      · exact Or.inl h
      · exact Or.inr (by omega)

/-- From a state in the hyperlink-metadata state with no hyperlink-end tag in the rest
of the text, the loop leaves the visible stream and the link targets as they are. -/
theorem parseLoop_unterminated (g : TagReader) (hx : List Nat → Nat) (wText : List Nat)
    (dc : Nat) :
    ∀ (fuel : Nat) (st : ParseState), st.hyperlinkStep = 1 →
      (∀ j tl, st.i ≤ j → j < wText.length →
        (g (wText.drop j) tl).ret ≠ TextTag.TEXT_TAG_HYPERLINK_END) →
      (Update.parseLoop g hx wText dc fuel st).logicalVis = st.logicalVis ∧
      (Update.parseLoop g hx wText dc fuel st).linkTargets = st.linkTargets ∧
      (Update.parseLoop g hx wText dc fuel st).hyperlinkStep = 1 := by
  intro fuel
  induction fuel with
  | zero => intro st h1 _; exact ⟨rfl, rfl, h1⟩
  | succ f ih =>
    intro st h1 hno
    unfold Update.parseLoop
    split_ifs with hi
    · obtain ⟨a, b, c⟩ := parseStep_metadata g hx wText dc st h1
        (hno st.i st.tagLen (Nat.le_refl _) hi)
      have hlt := parseStep_i g hx wText dc st
      obtain ⟨x, y, z⟩ := ih _ a (fun j tl hj1 hj2 => hno j tl (by omega) hj2)
      exact ⟨x.trans b, y.trans c, z⟩
    · exact ⟨rfl, rfl, h1⟩

/-- The tag-parsing loop ends at the end of the text when its bound on the number of
iterations is at least `wTextLen - i`. -/
theorem parseLoop_done (g : TagReader) (hx : List Nat → Nat) (wText : List Nat) (dc : Nat) :
    ∀ (fuel : Nat) (st : ParseState), wText.length ≤ st.i + fuel →
      wText.length ≤ (Update.parseLoop g hx wText dc fuel st).i := by
  intro fuel
  induction fuel with
  | zero => intro st h; simpa [Update.parseLoop] using h
  | succ f ih =>
    intro st h
    unfold Update.parseLoop
    split_ifs with hi
    · have hlt := parseStep_i g hx wText dc st
      exact ih _ (by omega)
    · omega

/-- C17: in the tag-parsing loop of `Update`, for every tag reader and text: a hyperlink-
start tag puts the loop in the metadata state; from a state in the metadata state, no
character read before the next hyperlink-end tag is appended to the visible stream
(every entry added later has a logical position at or after the position `p` up to
which no hyperlink-end tag is read); when no hyperlink-end tag follows at all, the
visible stream and the list of link targets stay as they were, so no target is
committed and every later character is absent; and the loop runs to the end of the
text. -/
theorem C17_metadata_not_visible (g : TagReader) (hx : List Nat → Nat) (wText : List Nat)
    (dc : Nat) (st : ParseState) (p fuel : Nat)
    (hstate : st.hyperlinkStep = 1)
    (hnoend : ∀ j tl, st.i ≤ j → j < p →
      (g (wText.drop j) tl).ret ≠ TextTag.TEXT_TAG_HYPERLINK_END)
    (hfuel : wText.length ≤ st.i + fuel) :
    (∀ e ∈ (Update.parseLoop g hx wText dc fuel st).logicalVis,
      e ∈ st.logicalVis ∨ (p : Int) ≤ e.logicalPos) ∧
    (wText.length ≤ p →
      (Update.parseLoop g hx wText dc fuel st).logicalVis = st.logicalVis ∧
      (Update.parseLoop g hx wText dc fuel st).linkTargets = st.linkTargets) ∧
    wText.length ≤ (Update.parseLoop g hx wText dc fuel st).i ∧
    (∀ s0 : ParseState,
      (g (wText.drop s0.i) s0.tagLen).ret = TextTag.TEXT_TAG_HYPERLINK_START →
      (Update.parseStep g hx wText dc s0).hyperlinkStep = 1 ∧
      (Update.parseStep g hx wText dc s0).logicalVis = s0.logicalVis ∧
      (Update.parseStep g hx wText dc s0).linkTargets = s0.linkTargets) := by
  refine ⟨parseLoop_metadata_window g hx wText dc p fuel st hstate hnoend, ?_,
    parseLoop_done g hx wText dc fuel st hfuel, ?_⟩
  · intro hp
    have := parseLoop_unterminated g hx wText dc fuel st hstate
      (fun j tl h1 h2 => hnoend j tl h1 (by omega))
    exact ⟨this.1, this.2.1⟩
  · intro s0 hs
    unfold Update.parseStep
    simp only
    have hp : ¬ (g (List.drop s0.i wText) s0.tagLen).ret = TextTag.TEXT_TAG_PLAIN := by
      rw [hs]; decide
    rw [if_neg hp]
    obtain ⟨a, b, c⟩ := applyTag_fields hx dc (g (List.drop s0.i wText) s0.tagLen) s0
    have hne : (g (List.drop s0.i wText) s0.tagLen).ret ≠ TextTag.TEXT_TAG_HYPERLINK_END := by
      rw [hs]; decide
    exact ⟨(c hs).1, a, (b hne).1⟩

/-- The statement of C17 at the text `a|Hxyz` read by `GetTextTag`, in the state after the
hyperlink-start tag: the visible stream stays the single `a` and no target is
committed; the whole parse gives the same. -/
theorem C17_metadata_not_visible_witness :
    openLinkState.hyperlinkStep = 1 ∧
    (∀ j tl, openLinkState.i ≤ j → j < 6 →
      (GetTextTag (openLinkText.drop j) tl).ret ≠ TextTag.TEXT_TAG_HYPERLINK_END) ∧
    openLinkText.length ≤ openLinkState.i + 3 ∧
    (Update.parseLoop GetTextTag htoi openLinkText 5 3 openLinkState).logicalVis =
      openLinkState.logicalVis ∧
    (Update.parseLoop GetTextTag htoi openLinkText 5 3 openLinkState).linkTargets =
      openLinkState.linkTargets ∧
    (Update.parse GetTextTag htoi openLinkText 5).logicalVis =
      [{ ch := 97, color := 5, linkIndex := -1, logicalPos := 0 }] ∧
    (Update.parse GetTextTag htoi openLinkText 5).linkTargets = [] :=
  have hno : ∀ j tl, openLinkState.i ≤ j → j < 6 →
      (GetTextTag (openLinkText.drop j) tl).ret ≠ TextTag.TEXT_TAG_HYPERLINK_END := by
    intro j tl h1 h2
    have h1' : 3 ≤ j := h1
    interval_cases j <;> simp [GetTextTag, openLinkText]
  ⟨by decide, hno, by decide,
    ((C17_metadata_not_visible GetTextTag htoi openLinkText 5 openLinkState 6 3 (by decide)
      hno (by decide)).2.1 (by decide)).1,
    ((C17_metadata_not_visible GetTextTag htoi openLinkText 5 openLinkState 6 3 (by decide)
      hno (by decide)).2.1 (by decide)).2,
    by decide, by decide⟩


/-! ## A colored word (C18) -/

/-- The tag-parsing loop of `Update` on `|cFF0000FFRed|r normal`, for every default color
`dc`: the visible stream and the (empty) list of link targets. -/
theorem parse_redText (dc : Nat) :
    (Update.parse GetTextTag htoi redText dc).logicalVis =
      [ { ch := 82, color := 0xFF0000FF, linkIndex := -1, logicalPos := 10 },
        { ch := 101, color := 0xFF0000FF, linkIndex := -1, logicalPos := 11 },
        { ch := 100, color := 0xFF0000FF, linkIndex := -1, logicalPos := 12 },
        { ch := 32, color := dc, linkIndex := -1, logicalPos := 15 },
        { ch := 110, color := dc, linkIndex := -1, logicalPos := 16 },
        { ch := 111, color := dc, linkIndex := -1, logicalPos := 17 },
        { ch := 114, color := dc, linkIndex := -1, logicalPos := 18 },
        { ch := 109, color := dc, linkIndex := -1, logicalPos := 19 },
        { ch := 97, color := dc, linkIndex := -1, logicalPos := 20 },
        { ch := 108, color := dc, linkIndex := -1, logicalPos := 21 } ] ∧
    (Update.parse GetTextTag htoi redText dc).linkTargets = [] := by
  simp [Update.parse, Update.parseLoop, Update.parseStep, Update.applyTag, GetTextTag,
    redText, htoi, htoi.digit]

/-- C18: the tagged text `|cFF0000FFRed|r normal` laid out by `Update` with the automatic
direction takes the tagged path with an LTR base; its visible stream is the 10
characters of `Red normal`, the three of `Red` with the color 0xFF0000FF of the tag
and the seven of ` normal` with the default color `dc`, each with the index of the
character in the tagged text; the two tags give no visible character. -/
theorem C18_red_normal (dc : Nat) (m_isCursor : Bool) :
    Update.hasTags redText = true ∧
    Update.baseRTL ETextDirection.Auto redText = false ∧
    (Update.tagged GetTextTag htoi redText dc
        (Update.baseRTL ETextDirection.Auto redText) m_isCursor).logicalVis =
      [ { ch := 82, color := 0xFF0000FF, linkIndex := -1, logicalPos := 10 },
        { ch := 101, color := 0xFF0000FF, linkIndex := -1, logicalPos := 11 },
        { ch := 100, color := 0xFF0000FF, linkIndex := -1, logicalPos := 12 },
        { ch := 32, color := dc, linkIndex := -1, logicalPos := 15 },
        { ch := 110, color := dc, linkIndex := -1, logicalPos := 16 },
        { ch := 111, color := dc, linkIndex := -1, logicalPos := 17 },
        { ch := 114, color := dc, linkIndex := -1, logicalPos := 18 },
        { ch := 109, color := dc, linkIndex := -1, logicalPos := 19 },
        { ch := 97, color := dc, linkIndex := -1, logicalPos := 20 },
        { ch := 108, color := dc, linkIndex := -1, logicalPos := 21 } ] ∧
    (Update.tagged GetTextTag htoi redText dc
        (Update.baseRTL ETextDirection.Auto redText) m_isCursor).logicalVis.map
        (fun e => e.ch) = [82, 101, 100, 32, 110, 111, 114, 109, 97, 108] ∧
    (Update.tagged GetTextTag htoi redText dc
        (Update.baseRTL ETextDirection.Auto redText) m_isCursor).logicalVis.length = 10 ∧
    (Update.tagged GetTextTag htoi redText dc
        (Update.baseRTL ETextDirection.Auto redText) m_isCursor).linkTargets = [] := by
  have hb : Update.baseRTL ETextDirection.Auto redText = false := by decide
  have hr : redText.any IsRTLCodepoint = false := by decide
  obtain ⟨hp, hl⟩ := parse_redText dc
  have hv : (Update.tagged GetTextTag htoi redText dc
      (Update.baseRTL ETextDirection.Auto redText) m_isCursor).logicalVis =
      (Update.parse GetTextTag htoi redText dc).logicalVis := by
    rw [hb]
    unfold Update.tagged Update.reorderSegments
    simp only [hr]
    simp
  refine ⟨by decide, hb, ?_, ?_, ?_, ?_⟩
  · rw [hv, hp]
  · rw [hv, hp]; rfl
  · rw [hv, hp]; rfl
  · simp only [Update.tagged, hl]


/-! ## Text without RTL runs (C19) -/

/-- One iteration of the run-splitting loop at an index classified LTR, from a state
with no closed run and the run start `0`: the state keeps both and the current run
direction is LTR. -/
theorem step_all_ltr (s : List Nat) (base : EBidiDir) (c : TStrongDirCache) (st : RunState)
    (i : Nat) (hi : GetCharDirSmart s i = ECharDir.LTR) (h0 : st.runStart = 0)
    (hr : st.s_runs = []) (hd : 0 < i → st.currentRunDir = EBidiDir.LTR) :
    (BuildVisualBidiText_Tagless.step s base c st i).runStart = 0 ∧
    (BuildVisualBidiText_Tagless.step s base c st i).s_runs = [] ∧
    (BuildVisualBidiText_Tagless.step s base c st i).currentRunDir = EBidiDir.LTR := by
  unfold BuildVisualBidiText_Tagless.step
  simp only [hi]
  by_cases hc : EBidiDir.LTR ≠ st.currentRunDir
  · rw [if_pos hc]
    have hi0 : i = 0 := by
      by_contra hne
      exact hc (hd (Nat.pos_of_ne_zero hne)).symm
    subst hi0
    simp [h0, hr]
  · rw [if_neg hc]
    push_neg at hc
    exact ⟨h0, hr, hc.symm⟩

/-- The run-splitting loop over the first `k` indexes of a text whose indexes are all
classified LTR: no run is closed, the run start is `0`, and after the first index the
current run direction is LTR. -/
theorem fold_all_ltr (s : List Nat) (base : EBidiDir) (c : TStrongDirCache)
    (h : ∀ i, i < s.length → GetCharDirSmart s i = ECharDir.LTR) :
    ∀ k, k ≤ s.length →
      ((List.range k).foldl (BuildVisualBidiText_Tagless.step s base c)
        { lastStrong := base, currentRunDir := base, runStart := 0, s_runs := [] }).runStart = 0 ∧
      ((List.range k).foldl (BuildVisualBidiText_Tagless.step s base c)
        { lastStrong := base, currentRunDir := base, runStart := 0, s_runs := [] }).s_runs = [] ∧
      (0 < k → ((List.range k).foldl (BuildVisualBidiText_Tagless.step s base c)
        { lastStrong := base, currentRunDir := base, runStart := 0, s_runs := [] }).currentRunDir
          = EBidiDir.LTR) := by
  intro k
  induction k with
  | zero => intro _; exact ⟨rfl, rfl, fun h => absurd h (Nat.lt_irrefl 0)⟩
  | succ k ih =>
    intro hk
    obtain ⟨a, b, d⟩ := ih (by omega)
    rw [List.range_succ, List.foldl_append, List.foldl_cons, List.foldl_nil]
    obtain ⟨x, y, z⟩ := step_all_ltr s base c _ k (h k (by omega)) a b d
    exact ⟨x, y, fun _ => z⟩

/-- The runs of a non-empty text whose indexes are all classified LTR: the single LTR
run over the whole text. -/
theorem runs_all_ltr (s : List Nat) (forceRTL : Bool) (hne : s ≠ [])
    (h : ∀ i, i < s.length → GetCharDirSmart s i = ECharDir.LTR) :
    BuildVisualBidiText_Tagless.runs s forceRTL =
      [{ start := 0, end_ := s.length, dir := EBidiDir.LTR }] := by
  have hpos : 0 < s.length := List.length_pos.2 hne
  unfold BuildVisualBidiText_Tagless.runs
  simp only
  obtain ⟨a, b, d⟩ := fold_all_ltr s (if forceRTL = true then EBidiDir.RTL
    else DetectBaseDir_FirstStrong s)
    (TStrongDirCache.mk' s (if forceRTL = true then EBidiDir.RTL
      else DetectBaseDir_FirstStrong s)) h s.length (Nat.le_refl _)
  rw [a, b, d hpos, if_pos hpos]
  rfl

/-- C19: for every text in which every index is classified LTR by `GetCharDirSmart`,
`BuildVisualBidiText_Tagless` returns the text unchanged, for `forceRTL = false` and
for `forceRTL = true`; when the text is not empty its run list is the single LTR run
over the whole text. -/
theorem C19_all_ltr_unchanged (s : List Nat) (forceRTL : Bool)
    (h : ∀ i, i < s.length → GetCharDirSmart s i = ECharDir.LTR) :
    BuildVisualBidiText_Tagless s forceRTL = s ∧
    (s ≠ [] → BuildVisualBidiText_Tagless.runs s forceRTL =
      [{ start := 0, end_ := s.length, dir := EBidiDir.LTR }]) := by
  refine ⟨?_, fun hne => runs_all_ltr s forceRTL hne h⟩
  unfold BuildVisualBidiText_Tagless
  by_cases hs : s.length = 0
  · rw [if_pos hs]
    exact (List.length_eq_zero.1 hs).symm
  · rw [if_neg hs]
    have hne : s ≠ [] := fun h0 => hs (by rw [h0]; rfl)
    simp only [runs_all_ltr s forceRTL hne h]
    have he : BuildVisualBidiText_Tagless.emitRun s
        { start := 0, end_ := s.length, dir := EBidiDir.LTR } = s := by
      unfold BuildVisualBidiText_Tagless.emitRun
      simp
    split_ifs <;> simp [he]

/-- The statement of C19 at the text `20%`: each of its three characters is classified
LTR, the percent sign because it follows digits, and the text comes back unchanged
with the flag on and with the flag off. -/
theorem C19_all_ltr_unchanged_witness :
    (∀ i, i < [50, 48, 37].length → GetCharDirSmart [50, 48, 37] i = ECharDir.LTR) ∧
    GetCharDirSmart [50, 48, 37] 2 = ECharDir.LTR ∧
    BuildVisualBidiText_Tagless [50, 48, 37] true = [50, 48, 37] ∧
    BuildVisualBidiText_Tagless [50, 48, 37] false = [50, 48, 37] :=
  ⟨by decide, by decide,
    (C19_all_ltr_unchanged [50, 48, 37] true (by decide)).1,
    (C19_all_ltr_unchanged [50, 48, 37] false (by decide)).1⟩


/-! ## Base direction from the first strong character (C20) -/

/-- The loop of `DetectBaseDir_FirstStrong` returns RTL exactly when an RTL-flagged
character stands at an index before which no character is RTL-flagged or alphabetic. -/
theorem detect_loop_rtl_iff (s : List Nat) :
    DetectBaseDir_FirstStrong.loop s = EBidiDir.RTL ↔
      ∃ i, i < s.length ∧ IsRTLCodepoint (s.getD i 0) = true ∧
        ∀ j, j < i → IsRTLCodepoint (s.getD j 0) = false ∧ IsStrongAlpha (s.getD j 0) = false := by
  induction s with
  | nil =>
    constructor
    · intro h; exact absurd h (by decide)
    · rintro ⟨i, hi, _⟩; exact absurd hi (Nat.not_lt_zero i)
  | cons ch rest ih =>
    unfold DetectBaseDir_FirstStrong.loop
    by_cases h1 : IsRTLCodepoint ch = true
    · rw [if_pos h1]
      constructor
      · intro _
        exact ⟨0, Nat.succ_pos _, h1, fun j hj => absurd hj (Nat.not_lt_zero j)⟩
      · intro _; rfl
    · rw [if_neg h1]
      by_cases h2 : IsStrongAlpha ch = true
      · rw [if_pos h2]
        constructor
        · intro h; exact absurd h (by decide)
        · rintro ⟨i, _, hr, hb⟩
          cases i with
          | zero => exact absurd hr h1
          | succ i =>
            have := (hb 0 (Nat.succ_pos _)).2
            rw [show (ch :: rest).getD 0 0 = ch from rfl] at this
            rw [this] at h2
            exact absurd h2 (by decide)
      · rw [if_neg h2, ih]
        constructor
        · rintro ⟨i, hi, hr, hb⟩
          refine ⟨i + 1, Nat.succ_lt_succ hi, hr, ?_⟩
          intro j hj
          cases j with
          | zero =>
            exact ⟨by simpa using h1, by simpa using h2⟩
          | succ j => exact hb j (by omega)
        · rintro ⟨i, hi, hr, hb⟩
          cases i with
          | zero => exact absurd hr h1
          | succ i =>
            exact ⟨i, Nat.lt_of_succ_lt_succ hi, hr, fun j hj => hb (j + 1) (by omega)⟩

/-- C20: `DetectBaseDir_FirstStrong` returns RTL exactly when the text has an index `i`
with an RTL-flagged character before which no character is RTL-flagged or
alphabetic (the first strong character is RTL-flagged); in every other case (the
first strong character is alphabetic and not RTL-flagged, or the text has no strong
character, or is empty) it returns LTR. -/
theorem C20_first_strong (s : List Nat) :
    (DetectBaseDir_FirstStrong s = EBidiDir.RTL ↔
      ∃ i, i < s.length ∧ IsRTLCodepoint (s.getD i 0) = true ∧
        ∀ j, j < i → IsRTLCodepoint (s.getD j 0) = false ∧ IsStrongAlpha (s.getD j 0) = false) ∧
    (DetectBaseDir_FirstStrong s = EBidiDir.LTR ↔
      ¬ ∃ i, i < s.length ∧ IsRTLCodepoint (s.getD i 0) = true ∧
        ∀ j, j < i → IsRTLCodepoint (s.getD j 0) = false ∧ IsStrongAlpha (s.getD j 0) = false) ∧
    ((∃ i, i < s.length ∧ IsRTLCodepoint (s.getD i 0) = false ∧
        IsStrongAlpha (s.getD i 0) = true ∧
        ∀ j, j < i → IsRTLCodepoint (s.getD j 0) = false ∧ IsStrongAlpha (s.getD j 0) = false) →
      DetectBaseDir_FirstStrong s = EBidiDir.LTR) ∧
    ((∀ i, i < s.length → IsRTLCodepoint (s.getD i 0) = false ∧
        IsStrongAlpha (s.getD i 0) = false) →
      DetectBaseDir_FirstStrong s = EBidiDir.LTR) ∧
    DetectBaseDir_FirstStrong [] = EBidiDir.LTR ∧
    DetectBaseDir_FirstStrong [49, 50, 44, 32, 33] = EBidiDir.LTR ∧
    DetectBaseDir_FirstStrong [49, 32, 0x05D0, 97] = EBidiDir.RTL ∧
    DetectBaseDir_FirstStrong [49, 32, 97, 0x05D0] = EBidiDir.LTR := by
  have hrtl : DetectBaseDir_FirstStrong s = EBidiDir.RTL ↔
      ∃ i, i < s.length ∧ IsRTLCodepoint (s.getD i 0) = true ∧
        ∀ j, j < i → IsRTLCodepoint (s.getD j 0) = false ∧
          IsStrongAlpha (s.getD j 0) = false := by
    unfold DetectBaseDir_FirstStrong
    by_cases hs : s.length = 0
    · rw [if_pos hs]
      constructor
      · intro h; exact absurd h (by decide)
      · rintro ⟨i, hi, _⟩; omega
    · rw [if_neg hs]
      exact detect_loop_rtl_iff s
  have hltr : DetectBaseDir_FirstStrong s = EBidiDir.LTR ↔
      ¬ ∃ i, i < s.length ∧ IsRTLCodepoint (s.getD i 0) = true ∧
        ∀ j, j < i → IsRTLCodepoint (s.getD j 0) = false ∧
          IsStrongAlpha (s.getD j 0) = false := by
    rw [← hrtl]
    cases DetectBaseDir_FirstStrong s <;> simp
  refine ⟨hrtl, hltr, ?_, ?_, by decide, by decide, by decide, by decide⟩
  · rintro ⟨i, hi, hn, ha, hb⟩
    rw [hltr]
    rintro ⟨k, hk, hr, hkb⟩
    rcases Nat.lt_trichotomy i k with h | h | h
    · have := (hkb i h).2
      rw [this] at ha
      exact absurd ha (by decide)
    · subst h
      rw [hn] at hr
      exact absurd hr (by decide)
    · have := (hb k h).1
      rw [this] at hr
      exact absurd hr (by decide)
  · intro hall
    rw [hltr]
    rintro ⟨k, hk, hr, _⟩
    have := (hall k hk).1
    rw [this] at hr
    exact absurd hr (by decide)


/-! ## Digits in RTL text (C21) -/

/-- One iteration of the run-splitting loop keeps the invariant `LtrInv`. -/
theorem ltrInv_step (s : List Nat) (base : EBidiDir) (c : TStrongDirCache) (k : Nat)
    (st : RunState) (h : LtrInv s k st) :
    LtrInv s (k + 1) (BuildVisualBidiText_Tagless.step s base c st k) := by
  obtain ⟨h1, h2⟩ := h
  unfold BuildVisualBidiText_Tagless.step
  simp only
  split
  · rename_i hd
    refine ⟨?_, ?_⟩
    · intro r hr
      by_cases hk : k > st.runStart
      · simp only [hk, if_true] at hr
        rcases List.mem_append.1 hr with hr | hr
        · exact h1 r hr
        · simp only [List.mem_singleton] at hr
          subst hr
          intro j hj1 hj2 hcd
          exact h2 j hj1 hj2 hcd
      · simp only [hk, if_false] at hr
        exact h1 r hr
    · intro j hj1 hj2 hcd
      have hjk : j = k := by
        simp only at hj1
        omega
      subst hjk
      simp only [hcd]
  · rename_i hd
    refine ⟨h1, ?_⟩
    intro j hj1 hj2 hcd
    by_cases hjk : j < k
    · exact h2 j hj1 hjk hcd
    · have hjk2 : j = k := by omega
      subst hjk2
      simp only [hcd, ne_eq, not_not] at hd
      exact hd.symm

/-- The run-splitting loop keeps the invariant `LtrInv`. -/
theorem ltrInv_foldl (s : List Nat) (base : EBidiDir) (c : TStrongDirCache) (st0 : RunState)
    (h0 : LtrInv s 0 st0) (n : Nat) :
    LtrInv s n ((List.range n).foldl (BuildVisualBidiText_Tagless.step s base c) st0) := by
  induction n with
  | zero => simpa using h0
  | succ n ih =>
    rw [List.range_succ, List.foldl_append]
    exact ltrInv_step s base c n _ ih

/-- In the run list of a text, every run that holds an index classified LTR is an LTR
run. -/
theorem runs_ltr (s : List Nat) (forceRTL : Bool) :
    ∀ r ∈ BuildVisualBidiText_Tagless.runs s forceRTL, LtrRun s r := by
  unfold BuildVisualBidiText_Tagless.runs
  simp only
  generalize (if forceRTL = true then EBidiDir.RTL else DetectBaseDir_FirstStrong s) = base
  have hinv := ltrInv_foldl s base (TStrongDirCache.mk' s base)
    { lastStrong := base, currentRunDir := base, runStart := 0, s_runs := [] }
    ⟨fun r hr => absurd hr (List.not_mem_nil r), fun j _ hj => absurd hj (Nat.not_lt_zero j)⟩
    s.length
  generalize (List.range s.length).foldl _ _ = st at hinv ⊢
  obtain ⟨h1, h2⟩ := hinv
  intro r hr
  split_ifs at hr
  · rcases List.mem_append.1 hr with hr | hr
    · exact h1 r hr
    · simp only [List.mem_singleton] at hr
      subst hr
      intro j hj1 hj2 hcd
      exact h2 j hj1 hj2 hcd
  · exact h1 r hr

/-- In a chain of runs from `a` to `b`, two neighbouring indexes that are both classified
LTR lie in one run, an LTR run. -/
theorem chain_same_run (s : List Nat) (i : Nat)
    (hi : GetCharDirSmart s i = ECharDir.LTR)
    (hi1 : GetCharDirSmart s (i + 1) = ECharDir.LTR) :
    ∀ (runs : List TRunInfo) (a b : Nat),
      List.Chain' (fun x y : TRunInfo => y.start = x.end_ ∧ y.dir ≠ x.dir) runs →
      (∀ r ∈ runs, r.start < r.end_) → (∀ r ∈ runs, LtrRun s r) →
      (∀ r, runs.head? = some r → r.start = a) →
      (∀ r, runs.getLast? = some r → r.end_ = b) →
      runs ≠ [] → a ≤ i → i + 1 < b →
      ∃ r ∈ runs, r.dir = EBidiDir.LTR ∧ r.start ≤ i ∧ i + 1 < r.end_ := by
  intro runs
  induction runs with
  | nil => intro a b _ _ _ _ _ h; exact absurd rfl h
  | cons r rest ih =>
    intro a b hc hpos hltr hhead hlast _ ha hb
    have hra : r.start = a := hhead r rfl
    by_cases hin : i + 1 < r.end_
    · exact ⟨r, List.mem_cons_self _ _,
        hltr r (List.mem_cons_self _ _) i (by omega) (by omega) hi, by omega, hin⟩
    · cases rest with
      | nil =>
        have := hlast r rfl
        omega
      | cons r2 rest2 =>
        have hlink : r2.start = r.end_ ∧ r2.dir ≠ r.dir := by
          have := List.chain'_cons.1 hc
          exact this.1
        have hc2 : List.Chain' (fun x y : TRunInfo => y.start = x.end_ ∧ y.dir ≠ x.dir)
            (r2 :: rest2) := (List.chain'_cons.1 hc).2
        by_cases hedge : i + 1 = r.end_
        · exfalso
          have hr : r.dir = EBidiDir.LTR :=
            hltr r (List.mem_cons_self _ _) i (by omega) (by omega) hi
          have hr2pos := hpos r2 (List.mem_cons_of_mem _ (List.mem_cons_self _ _))
          have hr2 : r2.dir = EBidiDir.LTR :=
            hltr r2 (List.mem_cons_of_mem _ (List.mem_cons_self _ _)) (i + 1) (by omega)
              (by omega) hi1
          exact hlink.2 (by rw [hr, hr2])
        · obtain ⟨x, hx, hx1, hx2, hx3⟩ := ih r.end_ b hc2
            (fun y hy => hpos y (List.mem_cons_of_mem _ hy))
            (fun y hy => hltr y (List.mem_cons_of_mem _ hy))
            (fun y hy => by
              simp only [List.head?_cons, Option.some.injEq] at hy
              rw [← hy]; exact hlink.1)
            (fun y hy => hlast y (by
              rw [List.getLast?_cons_cons]; exact hy))
            (List.cons_ne_nil _ _) (by omega) hb
          exact ⟨x, List.mem_cons_of_mem _ hx, hx1, hx2, hx3⟩

/-- A member of a list of lists is an infix of the concatenation. -/
theorem infix_flatten_of_mem (x : List Nat) :
    ∀ (L : List (List Nat)), x ∈ L → List.IsInfix x L.flatten := by
  intro L
  induction L with
  | nil => intro h; exact absurd h (List.not_mem_nil x)
  | cons y L ih =>
    intro h
    rw [List.flatten_cons]
    rcases List.mem_cons.1 h with h | h
    · subst h
      exact List.infix_append' [] x L.flatten |>.trans (by simp)
    · exact (ih h).trans (List.suffix_append y L.flatten).isInfix

/-- Two neighbouring indexes inside a slice of the text give two neighbouring characters
of the slice. -/
theorem pair_infix_slice (s : List Nat) (a b i : Nat) (ha : a ≤ i) (hb : i + 1 < b)
    (hn : i + 1 < s.length) :
    List.IsInfix [s.getD i 0, s.getD (i + 1) 0] ((s.drop a).take (b - a)) := by
  refine ⟨(s.drop a).take (i - a), (s.drop (i + 2)).take (b - (i + 2)), ?_⟩
  have hi : i < s.length := by omega
  have h1 : [s.getD i 0, s.getD (i + 1) 0] = (s.drop i).take 2 := by
    rw [List.drop_eq_getElem_cons hi, List.take_succ_cons, List.drop_eq_getElem_cons hn,
      List.take_succ_cons, List.take_zero, List.getD_eq_getElem _ _ hi,
      List.getD_eq_getElem _ _ hn]
  rw [h1]
  have e1 := slice_append s a i (i + 2) ha (by omega)
  have e2 := slice_append s a (i + 2) b (by omega) (by omega)
  have e3 : i + 2 - i = 2 := by omega
  rw [e3] at e1
  rw [e1, e2]

/-- Two neighbouring indexes that are both classified LTR keep their characters next to
each other and in order in the visual text. -/
theorem ltr_pair_kept (s : List Nat) (forceRTL : Bool) (i : Nat) (hlen : i + 1 < s.length)
    (hi : GetCharDirSmart s i = ECharDir.LTR)
    (hi1 : GetCharDirSmart s (i + 1) = ECharDir.LTR) :
    List.IsInfix [s.getD i 0, s.getD (i + 1) 0] (BuildVisualBidiText_Tagless s forceRTL) := by
  have hne : s ≠ [] := by
    intro e; rw [e] at hlen; simp at hlen
  obtain ⟨⟨r0, hr0, hr0s⟩, hpos, hchain, ⟨rl, hrl, hrle⟩⟩ := runs_partition_aux s forceRTL hne
  have hrne : BuildVisualBidiText_Tagless.runs s forceRTL ≠ [] := by
    intro e; rw [e] at hr0; simp at hr0
  obtain ⟨r, hr, hdir, hstart, hend⟩ := chain_same_run s i hi hi1 _ 0 s.length hchain hpos
    (runs_ltr s forceRTL)
    (fun x hx => by rw [hr0] at hx; simp only [Option.some.injEq] at hx; rw [← hx]; exact hr0s)
    (fun x hx => by rw [hrl] at hx; simp only [Option.some.injEq] at hx; rw [← hx]; exact hrle)
    hrne (Nat.zero_le _) hlen
  have hemit : BuildVisualBidiText_Tagless.emitRun s r =
      (s.drop r.start).take (r.end_ - r.start) := by
    unfold BuildVisualBidiText_Tagless.emitRun
    rw [hdir, if_neg (by decide)]
  have hpair := pair_infix_slice s r.start r.end_ i hstart hend hlen
  rw [← hemit] at hpair
  unfold BuildVisualBidiText_Tagless
  rw [if_neg (by intro e; exact hne (List.length_eq_zero.1 e))]
  simp only
  have hA := hpair.trans (infix_flatten_of_mem _ _
    (List.mem_map_of_mem (BuildVisualBidiText_Tagless.emitRun s) hr))
  have hB := hpair.trans (infix_flatten_of_mem _ _
    (List.mem_map_of_mem (BuildVisualBidiText_Tagless.emitRun s) (List.mem_reverse.2 hr)))
  split_ifs <;> first | exact hA | exact hB

/-- A digit that is not RTL-flagged is classified LTR by `GetCharDirSmart`. -/
theorem digit_not_rtl_ltr (s : List Nat) (i : Nat) (hd : IsDigit (s.getD i 0) = true)
    (hr : IsRTLCodepoint (s.getD i 0) = false) :
    GetCharDirSmart s i = ECharDir.LTR := by
  have h2 : IsStrongLTR (s.getD i 0) = true := by
    unfold IsDigit BiDiTables.IsDigit at hd
    unfold IsRTLCodepoint BiDiTables.IsRTL at hr
    unfold IsStrongLTR BiDiTables.IsStrongLTR
    rw [hd, hr]
    simp
  unfold GetCharDirSmart
  simp only [hr, h2]
  simp

/-- C21 (the code at the failing input): the Arabic-Indic digits U+0661 U+0662 carry the
digit flag and the RTL flag; `GetCharDirSmart` tests the RTL flag first, so they form an
RTL run and come out in the reverse order, for both values of `forceRTL` and also after
Latin text. Two adjacent digits that are not RTL-flagged (the ASCII digits) do stay
adjacent and in order in the visual text, for every text and both values of
`forceRTL`. -/
theorem C21_arabic_indic_digits_reversed :
    IsDigit 0x0661 = true ∧ IsDigit 0x0662 = true ∧
    IsRTLCodepoint 0x0661 = true ∧ IsStrongLTR 0x0661 = false ∧
    GetCharDirSmart [0x0661, 0x0662] 0 = ECharDir.RTL ∧
    BuildVisualBidiText_Tagless [0x0661, 0x0662] false = [0x0662, 0x0661] ∧
    BuildVisualBidiText_Tagless [0x0661, 0x0662] true = [0x0662, 0x0661] ∧
    BuildVisualBidiText_Tagless [97, 32, 0x0661, 0x0662] false = [97, 32, 0x0662, 0x0661] ∧
    ¬ List.IsInfix [0x0661, 0x0662] (BuildVisualBidiText_Tagless [0x0661, 0x0662] false) ∧
    BuildVisualBidiText_Tagless [0x05D0, 32, 49, 50] true = [32, 49, 50, 0x05D0] ∧
    (∀ (s : List Nat) (forceRTL : Bool) (i : Nat), i + 1 < s.length →
      IsDigit (s.getD i 0) = true → IsRTLCodepoint (s.getD i 0) = false →
      IsDigit (s.getD (i + 1) 0) = true → IsRTLCodepoint (s.getD (i + 1) 0) = false →
      List.IsInfix [s.getD i 0, s.getD (i + 1) 0] (BuildVisualBidiText_Tagless s forceRTL)) ∧
    (∀ ch, 48 ≤ ch ∧ ch ≤ 57 → IsDigit ch = true ∧ IsRTLCodepoint ch = false) := by
  refine ⟨by decide, by decide, by decide, by decide, by decide, by decide, by decide,
    by decide, ?_, by decide, ?_, ?_⟩
  · have h : BuildVisualBidiText_Tagless [0x0661, 0x0662] false = [0x0662, 0x0661] := by
      decide
    rw [h]
    rintro ⟨a, b, hab⟩
    have hl := congrArg List.length hab
    simp only [List.length_append, List.length_cons, List.length_nil] at hl
    have ha : a = [] := List.length_eq_zero.1 (by omega)
    subst ha
    simp at hab
  · intro s f i hlen hd1 hr1 hd2 hr2
    exact ltr_pair_kept s f i hlen (digit_not_rtl_ltr s i hd1 hr1)
      (digit_not_rtl_ltr s (i + 1) hd2 hr2)
  · rintro ch ⟨a, b⟩
    interval_cases ch <;> decide


/-! ## Sanitizing a wide string (C22) -/

/-- For a 16-bit code unit, the mask test `(ch & 0xFFFE) == 0xFFFE` holds exactly for
U+FFFE and U+FFFF. -/
theorem land_fffe_iff (ch : Nat) (h : ch < 65536) :
    (ch &&& 0xFFFE) = 0xFFFE ↔ ch = 0xFFFE ∨ ch = 0xFFFF := by
  constructor
  · intro e
    have hle : ch &&& 0xFFFE ≤ ch := Nat.and_le_left
    rw [e] at hle
    omega
  · rintro (e | e) <;> subst e <;> decide

/-- `IsValidUnicodeScalar` rejects exactly the surrogates, U+FDD0..U+FDEF, U+FFFE and
U+FFFF among the 16-bit code units. -/
theorem isValid_iff (ch : Nat) (h : ch < 65536) :
    IsValidUnicodeScalar ch = true ↔ ¬ IsInvalidScalar ch := by
  unfold IsValidUnicodeScalar IsInvalidScalar
  have hl := land_fffe_iff ch h
  by_cases h1 : 0xD800 ≤ ch ∧ ch ≤ 0xDFFF
  · rw [if_pos h1]
    simp [h1]
  · rw [if_neg h1]
    by_cases h2 : (0xFDD0 ≤ ch ∧ ch ≤ 0xFDEF) ∨ (ch &&& 0xFFFE) = 0xFFFE
    · rw [if_pos h2]
      rw [hl] at h2
      simp only [Bool.false_eq_true, false_iff, not_not]
      rcases h2 with h2 | h2
      · exact Or.inr (Or.inl h2)
      · exact Or.inr (Or.inr h2)
    · rw [if_neg h2]
      rw [hl] at h2
      simp only [true_iff]
      rintro (h3 | h3 | h3)
      · exact h1 h3
      · exact h2 (Or.inl h3)
      · exact h2 (Or.inr h3)

/-- C22: on 16-bit code units, `SanitizeWideString` returns the input with exactly the
surrogates, the codes U+FDD0..U+FDEF, U+FFFE and U+FFFF removed and the other units
kept in their order; the result holds no such unit, sanitizing it again changes nothing,
and a text of such units only becomes the empty text. -/
theorem C22_sanitize (ws : List Nat) (h16 : ∀ ch ∈ ws, ch < 65536) :
    SanitizeWideString ws = ws.filter (fun ch => decide (¬ IsInvalidScalar ch)) ∧
    List.Sublist (SanitizeWideString ws) ws ∧
    (∀ ch ∈ SanitizeWideString ws, ¬ IsInvalidScalar ch) ∧
    (∀ ch ∈ ws, ¬ IsInvalidScalar ch → ch ∈ SanitizeWideString ws) ∧
    SanitizeWideString (SanitizeWideString ws) = SanitizeWideString ws ∧
    ((∀ ch ∈ ws, IsInvalidScalar ch) → SanitizeWideString ws = []) := by
  have heq : SanitizeWideString ws = ws.filter (fun ch => decide (¬ IsInvalidScalar ch)) := by
    unfold SanitizeWideString
    apply List.filter_congr
    intro ch hch
    have := isValid_iff ch (h16 ch hch)
    by_cases hv : IsValidUnicodeScalar ch = true
    · rw [hv]; simpa using this.1 hv
    · have hv' : IsValidUnicodeScalar ch = false := by simpa using hv
      rw [hv']
      have : ¬ ¬ IsInvalidScalar ch := fun hn => hv (this.2 hn)
      simpa using this
  refine ⟨heq, ?_, ?_, ?_, ?_, ?_⟩
  · rw [heq]; exact List.filter_sublist _
  · intro ch hch
    rw [heq] at hch
    simpa using (List.mem_filter.1 hch).2
  · intro ch hch hn
    rw [heq]
    exact List.mem_filter.2 ⟨hch, by simpa using hn⟩
  · unfold SanitizeWideString
    rw [List.filter_filter]
    apply List.filter_congr
    intro ch _
    cases IsValidUnicodeScalar ch <;> rfl
  · intro hall
    rw [heq]
    apply List.filter_eq_nil_iff.2
    intro ch hch
    simpa using hall ch hch

/-- The statement of C22 at the text `a`, U+D800, `b`, U+FDD0, U+FFFE, U+FFFF, `c`: the
result is `abc`. -/
theorem C22_sanitize_witness :
    (∀ ch ∈ [97, 0xD800, 98, 0xFDD0, 0xFFFE, 0xFFFF, 99], ch < 65536) ∧
    SanitizeWideString [97, 0xD800, 98, 0xFDD0, 0xFFFE, 0xFFFF, 99] = [97, 98, 99] ∧
    SanitizeWideString (SanitizeWideString [97, 0xD800, 98, 0xFDD0, 0xFFFE, 0xFFFF, 99]) =
      SanitizeWideString [97, 0xD800, 98, 0xFDD0, 0xFFFE, 0xFFFF, 99] ∧
    SanitizeWideString [0xD800, 0xDFFF, 0xFDEF, 0xFFFF] = [] :=
  ⟨by decide, by decide,
    (C22_sanitize [97, 0xD800, 98, 0xFDD0, 0xFFFE, 0xFFFF, 99] (by decide)).2.2.2.2.1,
    by decide⟩


/-! ## Oversized input (C23) -/

/-- C23: a byte string longer than `MAX_TEXT_LENGTH` is converted by `Utf8ToWide` to the
empty string, and a wide string longer than `MAX_TEXT_LENGTH` is converted by
`WideToUtf8` to the empty string, whatever the Windows conversion functions return;
`BuildVisualChatMessage` with an empty name or an empty message returns an empty
visual text. -/
theorem C23_oversized_rejected (mbLen wcLen : List Nat → Int)
    (mbWrite wcWrite : List Nat → Nat → Int × List Nat) (s ws : List Nat)
    (hs : s.length > MAX_TEXT_LENGTH) (hws : ws.length > MAX_TEXT_LENGTH) :
    Utf8ToWide mbLen mbWrite s = [] ∧
    WideToUtf8 wcLen wcWrite ws = [] ∧
    (∀ (msg : List Nat) (forceRTL : Bool), BuildVisualChatMessage [] msg forceRTL = []) ∧
    (∀ (name : List Nat) (forceRTL : Bool), BuildVisualChatMessage name [] forceRTL = []) ∧
    BuildVisualChatMessage (Utf8ToWide mbLen mbWrite s) [104, 105] true = [] ∧
    BuildVisualChatMessage [66, 111, 98] (Utf8ToWide mbLen mbWrite s) false = [] := by
  have h1 : Utf8ToWide mbLen mbWrite s = [] := by
    unfold Utf8ToWide
    have h0 : ¬ s.length = 0 := by unfold MAX_TEXT_LENGTH at hs; omega
    rw [if_neg h0, if_pos (Or.inl hs)]
  have h2 : WideToUtf8 wcLen wcWrite ws = [] := by
    unfold WideToUtf8
    have h0 : ¬ ws.length = 0 := by unfold MAX_TEXT_LENGTH at hws; omega
    rw [if_neg h0, if_pos (Or.inl hws)]
  have h3 : ∀ (msg : List Nat) (forceRTL : Bool), BuildVisualChatMessage [] msg forceRTL = [] := by
    intro msg f
    simp [BuildVisualChatMessage]
  have h4 : ∀ (name : List Nat) (forceRTL : Bool),
      BuildVisualChatMessage name [] forceRTL = [] := by
    intro name f
    simp [BuildVisualChatMessage]
  refine ⟨h1, h2, h3, h4, ?_, ?_⟩
  · rw [h1]; exact h3 _ _
  · rw [h1]; exact h4 _ _

/-- The statement of C23 at a string of 65537 bytes `a` and a wide string of 65537 units
`a`, with conversion functions that would return the input as it is. -/
theorem C23_oversized_rejected_witness :
    (List.replicate 65537 97).length > MAX_TEXT_LENGTH ∧
    Utf8ToWide (fun b => (b.length : Int)) (fun b _ => ((b.length : Int), b))
      (List.replicate 65537 97) = [] ∧
    WideToUtf8 (fun b => (b.length : Int)) (fun b _ => ((b.length : Int), b))
      (List.replicate 65537 97) = [] :=
  have h : (List.replicate 65537 97).length > MAX_TEXT_LENGTH := by
    rw [List.length_replicate]; decide
  ⟨h,
    (C23_oversized_rejected (fun b => (b.length : Int)) (fun b => (b.length : Int))
      (fun b _ => ((b.length : Int), b)) (fun b _ => ((b.length : Int), b))
      (List.replicate 65537 97) (List.replicate 65537 97) h h).1,
    (C23_oversized_rejected (fun b => (b.length : Int)) (fun b => (b.length : Int))
      (fun b _ => ((b.length : Int), b)) (fun b _ => ((b.length : Int), b))
      (List.replicate 65537 97) (List.replicate 65537 97) h h).2.1⟩


/-! ## Neutral resolution (C24) -/

/-- The decision of `ResolveNeutralDir` once `nextStrong` is known. -/
theorem resolve_cases (baseDir lastStrong nextStrong : EBidiDir) :
    ((if lastStrong = nextStrong then lastStrong
      else if nextStrong = baseDir ∧ lastStrong ≠ baseDir then lastStrong
      else if lastStrong = baseDir ∧ nextStrong ≠ baseDir then nextStrong
      else baseDir) =
      if lastStrong = nextStrong then lastStrong
      else (match baseDir with
        | EBidiDir.LTR => EBidiDir.RTL
        | EBidiDir.RTL => EBidiDir.LTR)) ∧
    (lastStrong ≠ nextStrong →
      (if lastStrong = nextStrong then lastStrong
        else if nextStrong = baseDir ∧ lastStrong ≠ baseDir then lastStrong
        else if lastStrong = baseDir ∧ nextStrong ≠ baseDir then nextStrong
        else baseDir) ≠ baseDir ∧
      ((if lastStrong = nextStrong then lastStrong
        else if nextStrong = baseDir ∧ lastStrong ≠ baseDir then lastStrong
        else if lastStrong = baseDir ∧ nextStrong ≠ baseDir then nextStrong
        else baseDir) = lastStrong ∨
       (if lastStrong = nextStrong then lastStrong
        else if nextStrong = baseDir ∧ lastStrong ≠ baseDir then lastStrong
        else if lastStrong = baseDir ∧ nextStrong ≠ baseDir then nextStrong
        else baseDir) = nextStrong) ∧
      ¬ (¬ (nextStrong = baseDir ∧ lastStrong ≠ baseDir) ∧
         ¬ (lastStrong = baseDir ∧ nextStrong ≠ baseDir))) := by
  cases baseDir <;> cases lastStrong <;> cases nextStrong <;> simp

/-- C24: `ResolveNeutralDir` returns `lastStrong` when it equals the next strong
direction, and the direction opposite to the base direction when the two differ (the
one of the two that is not the base direction); the last `return baseDir` is not
reached with two different sides. `nextStrong` is the value the function computes, from
the cache or by the linear scan. -/
theorem C24_resolve_neutral (s : List Nat) (i : Nat) (baseDir lastStrong : EBidiDir)
    (cache : Option TStrongDirCache) :
    (ResolveNeutralDir s i baseDir lastStrong cache =
      if lastStrong =
          (match cache with
            | some c => c.GetNextStrong i
            | none => ResolveNeutralDir.scan s baseDir (s.length - (i + 1)))
        then lastStrong
      else (match baseDir with
        | EBidiDir.LTR => EBidiDir.RTL
        | EBidiDir.RTL => EBidiDir.LTR)) ∧
    (lastStrong ≠
        (match cache with
          | some c => c.GetNextStrong i
          | none => ResolveNeutralDir.scan s baseDir (s.length - (i + 1))) →
      ResolveNeutralDir s i baseDir lastStrong cache ≠ baseDir ∧
      (ResolveNeutralDir s i baseDir lastStrong cache = lastStrong ∨
        ResolveNeutralDir s i baseDir lastStrong cache =
          (match cache with
            | some c => c.GetNextStrong i
            | none => ResolveNeutralDir.scan s baseDir (s.length - (i + 1)))) ∧
      ¬ (¬ ((match cache with
            | some c => c.GetNextStrong i
            | none => ResolveNeutralDir.scan s baseDir (s.length - (i + 1))) = baseDir ∧
            lastStrong ≠ baseDir) ∧
         ¬ (lastStrong = baseDir ∧
            (match cache with
            | some c => c.GetNextStrong i
            | none => ResolveNeutralDir.scan s baseDir (s.length - (i + 1))) ≠ baseDir))) := by
  unfold ResolveNeutralDir
  cases cache with
  | some c => exact resolve_cases baseDir lastStrong (c.GetNextStrong i)
  | none =>
    exact resolve_cases baseDir lastStrong
      (ResolveNeutralDir.scan s baseDir (s.length - (i + 1)))


/-! ## The next-strong cache (C25) -/

/-- One iteration of the constructor loop of `TStrongDirCache`. -/
theorem cache_scan_succ (s : List Nat) (base : EBidiDir) (k : Nat) :
    TStrongDirCache.scan s base (k + 1) =
      ((match GetCharDirSmart s (s.length - (k + 1)) with
        | .LTR => EBidiDir.LTR
        | .RTL => EBidiDir.RTL
        | .Neutral => (TStrongDirCache.scan s base k).1),
       (match GetCharDirSmart s (s.length - (k + 1)) with
        | .LTR => EBidiDir.LTR
        | .RTL => EBidiDir.RTL
        | .Neutral => (TStrongDirCache.scan s base k).1) :: (TStrongDirCache.scan s base k).2) := by
  rfl

/-- One iteration of the linear scan of `ResolveNeutralDir`. -/
theorem linear_scan_succ (s : List Nat) (base : EBidiDir) (k : Nat) :
    ResolveNeutralDir.scan s base (k + 1) =
      (match GetCharDirSmart s (s.length - (k + 1)) with
        | .LTR => EBidiDir.LTR
        | .RTL => EBidiDir.RTL
        | .Neutral => ResolveNeutralDir.scan s base k) := by
  rfl

/-- The constructor loop of `TStrongDirCache` after `k` iterations: `k` entries are
written, `lastSeen` is the result of the linear scan over the last `k` indexes, and
the entry for the index `n - k + m` is the result of the linear scan over the last
`k - m` indexes. -/
theorem cache_scan_spec (s : List Nat) (base : EBidiDir) :
    ∀ k, (TStrongDirCache.scan s base k).2.length = k ∧
      (TStrongDirCache.scan s base k).1 = ResolveNeutralDir.scan s base k ∧
      ∀ m, m < k → (TStrongDirCache.scan s base k).2.getD m base =
        ResolveNeutralDir.scan s base (k - m) := by
  intro k
  induction k with
  | zero => exact ⟨rfl, rfl, fun m hm => absurd hm (Nat.not_lt_zero m)⟩
  | succ k ih =>
    obtain ⟨h1, h2, h3⟩ := ih
    have hlast : (TStrongDirCache.scan s base (k + 1)).1 =
        ResolveNeutralDir.scan s base (k + 1) := by
      rw [cache_scan_succ, linear_scan_succ, h2]
    refine ⟨?_, hlast, ?_⟩
    · rw [cache_scan_succ]
      simp only [List.length_cons, h1]
    · intro m hm
      cases m with
      | zero =>
        have : (TStrongDirCache.scan s base (k + 1)).2.getD 0 base =
            (TStrongDirCache.scan s base (k + 1)).1 := by
          rw [cache_scan_succ]
          rfl
        rw [this, hlast]
        rfl
      | succ m =>
        have : (TStrongDirCache.scan s base (k + 1)).2.getD (m + 1) base =
            (TStrongDirCache.scan s base k).2.getD m base := by
          rw [cache_scan_succ]
          rfl
        rw [this, h3 m (by omega)]
        congr 1
        omega

/-- The cached lookup gives what the linear scan from `i + 1` gives. -/
theorem getNextStrong_eq_scan (s : List Nat) (base : EBidiDir) (i : Nat) :
    (TStrongDirCache.mk' s base).GetNextStrong i =
      ResolveNeutralDir.scan s base (s.length - (i + 1)) := by
  obtain ⟨h1, _, h3⟩ := cache_scan_spec s base s.length
  unfold TStrongDirCache.GetNextStrong TStrongDirCache.mk'
  simp only [h1]
  by_cases hi : i + 1 < s.length
  · rw [if_pos hi, h3 (i + 1) hi]
  · rw [if_neg hi]
    have : s.length - (i + 1) = 0 := by omega
    rw [this]
    rfl

/-- The linear scan over the last `k` indexes gives the direction of the first index
from `n - k` on that is classified LTR or RTL, or the base direction. -/
theorem linear_scan_spec (s : List Nat) (base : EBidiDir) :
    ∀ k, k ≤ s.length →
      (∃ j, s.length - k ≤ j ∧ j < s.length ∧
        (∀ m, s.length - k ≤ m → m < j → GetCharDirSmart s m = ECharDir.Neutral) ∧
        ((GetCharDirSmart s j = ECharDir.LTR ∧
            ResolveNeutralDir.scan s base k = EBidiDir.LTR) ∨
          (GetCharDirSmart s j = ECharDir.RTL ∧
            ResolveNeutralDir.scan s base k = EBidiDir.RTL))) ∨
      ((∀ m, s.length - k ≤ m → m < s.length → GetCharDirSmart s m = ECharDir.Neutral) ∧
        ResolveNeutralDir.scan s base k = base) := by
  intro k
  induction k with
  | zero =>
    intro _
    exact Or.inr ⟨fun m h1 h2 => absurd h2 (by omega), rfl⟩
  | succ k ih =>
    intro hk
    rw [linear_scan_succ]
    cases hd : GetCharDirSmart s (s.length - (k + 1)) with
    | LTR =>
      exact Or.inl ⟨s.length - (k + 1), Nat.le_refl _, by omega,
        fun m h1 h2 => absurd h2 (by omega), Or.inl ⟨hd, rfl⟩⟩
    | RTL =>
      exact Or.inl ⟨s.length - (k + 1), Nat.le_refl _, by omega,
        fun m h1 h2 => absurd h2 (by omega), Or.inr ⟨hd, rfl⟩⟩
    | Neutral =>
      simp only
      have hstep : ∀ m, s.length - (k + 1) ≤ m → m < s.length - k →
          GetCharDirSmart s m = ECharDir.Neutral := by
        intro m h1 h2
        have : m = s.length - (k + 1) := by omega
        rw [this]; exact hd
      rcases ih (by omega) with ⟨j, hj1, hj2, hj3, hj4⟩ | ⟨hall, hb⟩
      · refine Or.inl ⟨j, by omega, hj2, ?_, hj4⟩
        intro m h1 h2
        by_cases hm : m < s.length - k
        · exact hstep m h1 hm
        · exact hj3 m (by omega) h2
      · refine Or.inr ⟨?_, hb⟩
        intro m h1 h2
        by_cases hm : m < s.length - k
        · exact hstep m h1 hm
        · exact hall m (by omega) h2

/-- C25: for every text, base direction and index `i`, the lookup `GetNextStrong(i)` in
the cache built for the text and the base direction is the direction of the first
index after `i` classified LTR or RTL by `GetCharDirSmart`, or the base direction when
there is none; it equals the result of the linear scan, so `ResolveNeutralDir` returns
the same direction with this cache as without a cache. -/
theorem C25_cache_equals_scan (s : List Nat) (base : EBidiDir) (i : Nat)
    (lastStrong : EBidiDir) :
    IsNextStrongAfter s base i ((TStrongDirCache.mk' s base).GetNextStrong i) ∧
    (TStrongDirCache.mk' s base).GetNextStrong i =
      ResolveNeutralDir.scan s base (s.length - (i + 1)) ∧
    ResolveNeutralDir s i base lastStrong (some (TStrongDirCache.mk' s base)) =
      ResolveNeutralDir s i base lastStrong none := by
  have heq := getNextStrong_eq_scan s base i
  refine ⟨?_, heq, ?_⟩
  · rw [heq]
    unfold IsNextStrongAfter
    rcases linear_scan_spec s base (s.length - (i + 1)) (by omega) with
      ⟨j, hj1, hj2, hj3, hj4⟩ | ⟨hall, hb⟩
    · exact Or.inl ⟨j, by omega, hj2, fun m h1 h2 => hj3 m (by omega) h2, hj4⟩
    · exact Or.inr ⟨fun m h1 h2 => hall m (by omega) h2, hb⟩
  · unfold ResolveNeutralDir
    simp only
    rw [heq]


/-! ## The percent sign (C26) -/

/-- One iteration of the backward loop of the `%` rule. -/
theorem percentBack_succ (s : List Nat) (i j : Nat) :
    GetCharDirSmart.percentBack s i (j + 1) =
      if i - j < 5 then
        if IsPercentAnchor (s.getD j 0) then true
        else if s.getD j 0 ≠ 32 ∧ s.getD j 0 ≠ 9 then false
        else GetCharDirSmart.percentBack s i j
      else false := rfl

/-- One iteration of the forward loop of the `%` rule. -/
theorem percentFwd_succ (s : List Nat) (i k : Nat) :
    GetCharDirSmart.percentFwd s i (k + 1) =
      if s.length - (k + 1) - i < 5 then
        if IsPercentAnchor (s.getD (s.length - (k + 1)) 0) then true
        else if s.getD (s.length - (k + 1)) 0 ≠ 32 ∧ s.getD (s.length - (k + 1)) 0 ≠ 9 then false
        else GetCharDirSmart.percentFwd s i k
      else false := rfl

/-- The backward loop of the `%` rule from the index `m - 1` down: it returns `true`
exactly when an anchor stands at an index `j < m` within 4 of `i`, with only spaces
and tabs at the indexes between `j` and `m`. -/
theorem percentBack_iff (s : List Nat) (i : Nat) :
    ∀ m, m ≤ i →
      (GetCharDirSmart.percentBack s i m = true ↔
        ∃ j, j < m ∧ i - j ≤ 4 ∧ IsPercentAnchor (s.getD j 0) = true ∧
          ∀ k, j < k → k < m → s.getD k 0 = 32 ∨ s.getD k 0 = 9) := by
  intro m
  induction m with
  | zero =>
    intro _
    constructor
    · intro h; exact absurd h (by simp [GetCharDirSmart.percentBack])
    · rintro ⟨j, hj, _⟩; exact absurd hj (Nat.not_lt_zero j)
  | succ m ih =>
    intro hm
    rw [percentBack_succ]
    by_cases hd : i - m < 5
    · rw [if_pos hd]
      by_cases ha : IsPercentAnchor (s.getD m 0) = true
      · rw [if_pos ha]
        simp only [true_iff]
        exact ⟨m, Nat.lt_succ_self m, by omega, ha, fun k h1 h2 => absurd h2 (by omega)⟩
      · rw [if_neg ha]
        by_cases hsp : s.getD m 0 ≠ 32 ∧ s.getD m 0 ≠ 9
        · rw [if_pos hsp]
          simp only [Bool.false_eq_true, false_iff]
          rintro ⟨j, hj, _, hanch, hbetween⟩
          by_cases hjm : j = m
          · subst hjm; exact ha hanch
          · rcases hbetween m (by omega) (Nat.lt_succ_self m) with h | h
            · exact hsp.1 h
            · exact hsp.2 h
        · rw [if_neg hsp, ih (by omega)]
          have hsp' : s.getD m 0 = 32 ∨ s.getD m 0 = 9 := by
            by_contra hc
            push_neg at hc
            exact hsp hc
          constructor
          · rintro ⟨j, hj, hdist, hanch, hbetween⟩
            refine ⟨j, by omega, hdist, hanch, ?_⟩
            intro k h1 h2
            by_cases hk : k = m
            · subst hk; exact hsp'
            · exact hbetween k h1 (by omega)
          · rintro ⟨j, hj, hdist, hanch, hbetween⟩
            have hjm : j ≠ m := by
              intro e; subst e; exact ha hanch
            exact ⟨j, by omega, hdist, hanch, fun k h1 h2 => hbetween k h1 (by omega)⟩
    · rw [if_neg hd]
      simp only [Bool.false_eq_true, false_iff]
      rintro ⟨j, hj, hdist, _⟩
      omega

/-- The forward loop of the `%` rule over the last `k` indexes (which lie after `i`):
it returns `true` exactly when an anchor stands at an index `j` from `n - k` on within
4 of `i`, with only spaces and tabs at the indexes from `n - k` up to `j`. -/
theorem percentFwd_iff (s : List Nat) (i : Nat) :
    ∀ k, k + i < s.length →
      (GetCharDirSmart.percentFwd s i k = true ↔
        ∃ j, s.length - k ≤ j ∧ j < s.length ∧ j - i ≤ 4 ∧
          IsPercentAnchor (s.getD j 0) = true ∧
          ∀ m, s.length - k ≤ m → m < j → s.getD m 0 = 32 ∨ s.getD m 0 = 9) := by
  intro k
  induction k with
  | zero =>
    intro _
    constructor
    · intro h; exact absurd h (by simp [GetCharDirSmart.percentFwd])
    · rintro ⟨j, h1, h2, _⟩; omega
  | succ k ih =>
    intro hk
    rw [percentFwd_succ]
    obtain ⟨p, hp⟩ : ∃ p, p = s.length - (k + 1) := ⟨_, rfl⟩
    rw [← hp]
    have hp1 : s.length - k = p + 1 := by omega
    rw [hp1] at ih
    by_cases hd : p - i < 5
    · rw [if_pos hd]
      by_cases ha : IsPercentAnchor (s.getD p 0) = true
      · rw [if_pos ha]
        simp only [true_iff]
        exact ⟨p, Nat.le_refl _, by omega, by omega, ha, fun m h1 h2 => absurd h2 (by omega)⟩
      · rw [if_neg ha]
        by_cases hsp : s.getD p 0 ≠ 32 ∧ s.getD p 0 ≠ 9
        · rw [if_pos hsp]
          simp only [Bool.false_eq_true, false_iff]
          rintro ⟨j, hj1, hj2, _, hanch, hbetween⟩
          by_cases hjp : j = p
          · subst hjp; exact ha hanch
          · rcases hbetween p (Nat.le_refl _) (by omega) with h | h
            · exact hsp.1 h
            · exact hsp.2 h
        · rw [if_neg hsp, ih (by omega)]
          have hsp' : s.getD p 0 = 32 ∨ s.getD p 0 = 9 := by
            by_contra hc
            push_neg at hc
            exact hsp hc
          constructor
          · rintro ⟨j, hj1, hj2, hdist, hanch, hbetween⟩
            refine ⟨j, by omega, hj2, hdist, hanch, ?_⟩
            intro m h1 h2
            by_cases hm : m = p
            · subst hm; exact hsp'
            · exact hbetween m (by omega) h2
          · rintro ⟨j, hj1, hj2, hdist, hanch, hbetween⟩
            have hjp : j ≠ p := by
              intro e; subst e; exact ha hanch
            exact ⟨j, by omega, hj2, hdist, hanch, fun m h1 h2 => hbetween m (by omega) h2⟩
    · rw [if_neg hd]
      simp only [Bool.false_eq_true, false_iff]
      rintro ⟨j, hj1, hj2, hdist, _⟩
      omega

/-- At a percent sign, `GetCharDirSmart` is decided by the two loops of the `%` rule. -/
theorem getCharDirSmart_percent (s : List Nat) (i : Nat) (h : s.getD i 0 = 37) :
    GetCharDirSmart s i =
      if GetCharDirSmart.percentBack s i i = true then ECharDir.LTR
      else if GetCharDirSmart.percentFwd s i (s.length - (i + 1)) = true then ECharDir.LTR
      else ECharDir.Neutral := by
  unfold GetCharDirSmart
  simp only [h]
  have h1 : IsRTLCodepoint 37 = false := by decide
  have h2 : IsStrongLTR 37 = false := by decide
  rw [h1, h2]
  simp

/-- C26: at an index `i` that holds a percent sign, `GetCharDirSmart` returns LTR exactly
when some index `j` on the left or on the right of `i`, at a distance of 1 to 4, holds
a digit, `%`, `-` or `+` and every index strictly between `i` and `j` holds a space or
a tab; otherwise it returns Neutral. -/
theorem C26_percent_rule (s : List Nat) (i : Nat) (hi : i < s.length)
    (h : s.getD i 0 = 37) :
    (GetCharDirSmart s i = ECharDir.LTR ↔
      ∃ j, j < s.length ∧ ((j < i ∧ i - j ≤ 4) ∨ (i < j ∧ j - i ≤ 4)) ∧
        IsPercentAnchor (s.getD j 0) = true ∧
        ∀ k, ((j < k ∧ k < i) ∨ (i < k ∧ k < j)) → s.getD k 0 = 32 ∨ s.getD k 0 = 9) ∧
    (GetCharDirSmart s i ≠ ECharDir.LTR → GetCharDirSmart s i = ECharDir.Neutral) ∧
    GetCharDirSmart s i ≠ ECharDir.RTL := by
  have hb := percentBack_iff s i i (Nat.le_refl _)
  have hf := percentFwd_iff s i (s.length - (i + 1)) (by omega)
  have hn : s.length - (s.length - (i + 1)) = i + 1 := by omega
  rw [hn] at hf
  rw [getCharDirSmart_percent s i h]
  refine ⟨?_, ?_, ?_⟩
  · constructor
    · intro hl
      by_cases h1 : GetCharDirSmart.percentBack s i i = true
      · obtain ⟨j, hj, hdist, hanch, hbetween⟩ := hb.1 h1
        exact ⟨j, by omega, Or.inl ⟨hj, hdist⟩, hanch, fun k hk => by
          rcases hk with ⟨a, b⟩ | ⟨a, b⟩
          · exact hbetween k a b
          · omega⟩
      · rw [if_neg h1] at hl
        by_cases h2 : GetCharDirSmart.percentFwd s i (s.length - (i + 1)) = true
        · obtain ⟨j, hj1, hj2, hdist, hanch, hbetween⟩ := hf.1 h2
          exact ⟨j, hj2, Or.inr ⟨by omega, hdist⟩, hanch, fun k hk => by
            rcases hk with ⟨a, b⟩ | ⟨a, b⟩
            · omega
            · exact hbetween k (by omega) b⟩
        · rw [if_neg h2] at hl
          exact absurd hl (by decide)
    · rintro ⟨j, hj, hside, hanch, hbetween⟩
      rcases hside with ⟨a, b⟩ | ⟨a, b⟩
      · have : GetCharDirSmart.percentBack s i i = true :=
          hb.2 ⟨j, a, b, hanch, fun k h1 h2 => hbetween k (Or.inl ⟨h1, h2⟩)⟩
        rw [if_pos this]
      · have : GetCharDirSmart.percentFwd s i (s.length - (i + 1)) = true :=
          hf.2 ⟨j, by omega, hj, b, hanch, fun k h1 h2 => hbetween k (Or.inr ⟨by omega, h2⟩)⟩
        split_ifs <;> rfl
  · intro hne
    split_ifs at hne ⊢ <;> first | rfl | exact absurd rfl hne
  · split_ifs <;> decide

/-- The statement of C26 at the texts `20%` and `a%`: the percent sign after digits is
LTR, the one after a letter is Neutral. -/
theorem C26_percent_rule_witness :
    [50, 48, 37].getD 2 0 = 37 ∧ GetCharDirSmart [50, 48, 37] 2 = ECharDir.LTR ∧
    GetCharDirSmart [97, 37] 1 = ECharDir.Neutral ∧
    (GetCharDirSmart [50, 48, 37] 2 = ECharDir.LTR ↔
      ∃ j, j < [50, 48, 37].length ∧ ((j < 2 ∧ 2 - j ≤ 4) ∨ (2 < j ∧ j - 2 ≤ 4)) ∧
        IsPercentAnchor ([50, 48, 37].getD j 0) = true ∧
        ∀ k, ((j < k ∧ k < 2) ∨ (2 < k ∧ k < j)) →
          [50, 48, 37].getD k 0 = 32 ∨ [50, 48, 37].getD k 0 = 9) :=
  ⟨by decide, by decide, by decide, (C26_percent_rule [50, 48, 37] 2 (by decide) (by decide)).1⟩


/-! ## The plus sign (C27) -/

/-- C27 (counterexample): in the text Seen, `+`, `9` the `+` is followed by a digit and
the nearest strong character to its left is the RTL letter Seen, which the backward
loop of the rule for `+` before a digit would report; `GetCharDirSmart` returns LTR,
not RTL. -/
theorem C27_counterexample :
    [0x0633, 43, 57].getD 1 0 = 43 ∧
    IsDigit ([0x0633, 43, 57].getD 2 0) = true ∧
    IsRTLCodepoint ([0x0633, 43, 57].getD 0 0) = true ∧
    GetCharDirSmart.plusBack [0x0633, 43, 57] 1 = ECharDir.RTL ∧
    GetCharDirSmart [0x0633, 43, 57] 1 = ECharDir.LTR ∧
    GetCharDirSmart [0x0633, 43, 57] 1 ≠ ECharDir.RTL ∧
    BuildVisualBidiText_Tagless [0x0633, 43, 57] false = [43, 57, 0xFEB1] := by
  decide

/-- C27 (as amended): at every index that holds a `+`, `GetCharDirSmart` returns LTR,
whether or not a digit follows and whatever stands to the left: the rule for common
punctuation, which comes first, decides, and the rule for `+` before a digit is not
reached. The same holds for `-`. -/
theorem C27_plus_is_ltr (s : List Nat) (i : Nat) (h : s.getD i 0 = 43 ∨ s.getD i 0 = 45) :
    GetCharDirSmart s i = ECharDir.LTR := by
  unfold GetCharDirSmart
  rcases h with h | h
  · simp only [h]
    have h1 : IsRTLCodepoint 43 = false := by decide
    have h2 : IsStrongLTR 43 = false := by decide
    rw [h1, h2]
    simp
  · simp only [h]
    have h1 : IsRTLCodepoint 45 = false := by decide
    have h2 : IsStrongLTR 45 = false := by decide
    rw [h1, h2]
    simp

/-- The statement of C27 at the `+` of the text `a+9` and at the `+` of `+`, space, Seen:
with a strong LTR character to the left, and with no character to the left and no
digit after it. -/
theorem C27_plus_is_ltr_witness :
    ([97, 43, 57].getD 1 0 = 43 ∨ [97, 43, 57].getD 1 0 = 45) ∧
    GetCharDirSmart [97, 43, 57] 1 = ECharDir.LTR ∧
    GetCharDirSmart [43, 32, 0x0633] 0 = ECharDir.LTR :=
  ⟨by decide, C27_plus_is_ltr [97, 43, 57] 1 (by decide),
    C27_plus_is_ltr [43, 32, 0x0633] 0 (by decide)⟩

/-! ## Letters that do not join to the right (C28) -/

/-- A letter of the joining block for which `Arabic_CanJoinRight` is false has neither
an Initial nor a Medial form. -/
theorem no_right_forms (c : Nat) (hc : Arabic_IsInMap c = true)
    (hr : Arabic_CanJoinRight c = false) :
    Arabic_GetMap c .INITIAL = 0 ∧ Arabic_GetMap c .MEDIAL = 0 := by
  unfold Arabic_CanJoinRight at hr
  rw [hc] at hr
  simpa using hr

/-- The form selection for a letter without an Initial and without a Medial form: the
Final form when `prevJoins` holds and the table has one, else the Isolated form, else
the code itself; `curJoinsRight` is false. -/
theorem selectForm_no_right (c : Nat) (pj : Bool) (next : Nat)
    (hI : Arabic_GetMap c .INITIAL = 0) (hM : Arabic_GetMap c .MEDIAL = 0) :
    Arabic_MakeShape.selectForm c pj next = (finalOrIsolated c pj, false) := by
  unfold Arabic_MakeShape.selectForm finalOrIsolated
  simp only [hI, hM]
  cases pj <;> by_cases hn : next = 0 <;> by_cases hF : Arabic_GetMap c .FINAL = 0 <;>
    by_cases hS : Arabic_GetMap c .ISOLATED = 0 <;> simp [hn, hF, hS]

/-- The form selection sets `curJoinsRight` only when there is a next letter to join. -/
theorem selectForm_joins_next (c : Nat) (pj : Bool) (next : Nat)
    (h : (Arabic_MakeShape.selectForm c pj next).2 = true) : next ≠ 0 := by
  intro hn
  subst hn
  unfold Arabic_MakeShape.selectForm at h
  simp only [ne_eq, not_true_eq_false, decide_False, Bool.and_false, Bool.false_eq_true,
    if_false] at h
  split_ifs at h

/-- The forward pass from a loop state with `prevJoins = false` at the index `k` writes
the shaping of the rest of the text taken on its own. -/
theorem loop_eq_makeShape_drop (src : List Nat) (k d0 dstLen fuel : Nat)
    (hfuel : src.length - k ≤ fuel) (hdst : d0 + (src.length - k) ≤ dstLen) :
    Arabic_MakeShape.loop src dstLen (Arabic_MakeShape.s_nextArabic src) fuel k false d0 =
      Arabic_MakeShape (src.drop k) (dstLen - d0) := by
  have := loop_shift src k dstLen d0 fuel 0 false 0
  rw [Nat.add_zero, Nat.add_zero] at this
  rw [this]
  unfold Arabic_MakeShape
  have hl : (src.drop k).length = src.length - k := List.length_drop _ _
  by_cases hr : (src.drop k).length = 0
  · rw [if_pos (Or.inl hr)]
    cases fuel with
    | zero => rfl
    | succ f =>
      rw [Arabic_MakeShape.loop, if_neg (by omega)]
  · have hnot : ¬ ((src.drop k).length = 0 ∨ dstLen - d0 < (src.drop k).length) := by omega
    rw [if_neg hnot]
    exact loop_fuel (src.drop k) _ fuel (src.drop k).length 0 false 0 (by omega) (by omega)

/-- The forward pass at a letter without an Initial and without a Medial form: it writes
the Final or the Isolated form and goes on with `prevJoins = false`. -/
theorem loop_no_right (src : List Nat) (dstLen fuel i d : Nat) (pj : Bool)
    (hi : i < src.length) (hc : Arabic_IsInMap (src.getD i 0) = true)
    (hr : Arabic_CanJoinRight (src.getD i 0) = false) (hd : d < dstLen) :
    Arabic_MakeShape.loop src dstLen (Arabic_MakeShape.s_nextArabic src) (fuel + 1) i pj d =
      finalOrIsolated (src.getD i 0) pj ::
        Arabic_MakeShape.loop src dstLen (Arabic_MakeShape.s_nextArabic src) fuel (i + 1)
          false (d + 1) := by
  obtain ⟨hI, hM⟩ := no_right_forms _ hc hr
  have hc1 : Arabic_IsComb1 (src.getD i 0) = false := by
    by_contra hne
    have h1 : Arabic_IsComb1 (src.getD i 0) = true := by simpa using hne
    unfold Arabic_IsComb1 at h1
    have h644 : src.getD i 0 = 0x0644 := by simpa using h1
    rw [h644] at hr
    exact absurd hr (by decide)
  rw [Arabic_MakeShape.loop]
  simp only [hi, if_true, isInMap_not_composing _ hc, hc, hc1, hd, Bool.false_and,
    Bool.false_eq_true, if_false]
  rw [selectForm_no_right _ _ _ hI hM]

/-- A character outside the joining block at the start of a text is copied, and the rest
is shaped on its own. -/
theorem Arabic_MakeShape_cons_nonletter (x : Nat) (t : List Nat) (n : Nat)
    (hx : Arabic_IsInMap x = false) (hn : (x :: t).length ≤ n) :
    Arabic_MakeShape (x :: t) n = x :: Arabic_MakeShape t (n - 1) := by
  have hlen : (x :: t).length = t.length + 1 := List.length_cons _ _
  have hnot : ¬ ((x :: t).length = 0 ∨ n < (x :: t).length) := by omega
  have hd : 0 < n := by omega
  conv_lhs => unfold Arabic_MakeShape
  rw [if_neg hnot, hlen, Arabic_MakeShape.loop]
  have h0 : 0 < (x :: t).length := by omega
  have hcur : (x :: t).getD 0 0 = x := rfl
  have hrest := loop_eq_makeShape_drop (x :: t) 1 1 n t.length (by omega) (by omega)
  rw [show (x :: t).drop 1 = t from rfl] at hrest
  simp only [h0, if_true, hcur, hx, hd, Bool.false_eq_true, if_false]
  split_ifs <;> rw [hrest]

/-- Characters outside the joining block at the start of a text are copied, and the rest
is shaped on its own. -/
theorem Arabic_MakeShape_append_nonletters (mid t : List Nat) :
    ∀ n, (∀ x ∈ mid, Arabic_IsInMap x = false) → (mid ++ t).length ≤ n →
      Arabic_MakeShape (mid ++ t) n = mid ++ Arabic_MakeShape t (n - mid.length) := by
  induction mid with
  | nil => intro n _ _; simp
  | cons x mid ih =>
    intro n hmid hn
    rw [List.cons_append, Arabic_MakeShape_cons_nonletter x (mid ++ t) n
      (hmid x (List.mem_cons_self _ _)) hn]
    have hn2 : (mid ++ t).length + 1 ≤ n := by simpa using hn
    rw [ih (n - 1) (fun y hy => hmid y (List.mem_cons_of_mem _ hy)) (by omega)]
    have e : n - 1 - mid.length = n - (x :: mid).length := by
      simp only [List.length_cons]; omega
    rw [e]
    rfl

/-- Every loop state of the forward pass has its index inside the text, and when
`prevJoins` is true the first letter from the index on can join to its left side. -/
theorem states_inv (src : List Nat) :
    ∀ (fuel i : Nat) (pj : Bool),
      (pj = true → ∃ n, FirstLetterFrom src i n ∧ n < src.length ∧
        Arabic_CanJoinLeft (src.getD n 0) = true) →
      ∀ st ∈ Arabic_MakeShape.states src (Arabic_MakeShape.s_nextArabic src) fuel i pj,
        st.1 < src.length ∧
        (st.2 = true → ∃ n, FirstLetterFrom src st.1 n ∧ n < src.length ∧
          Arabic_CanJoinLeft (src.getD n 0) = true) := by
  intro fuel
  induction fuel with
  | zero =>
    intro i pj _ st hst
    simp [Arabic_MakeShape.states] at hst
  | succ f ih =>
    intro i pj hinv st hst
    rw [Arabic_MakeShape.states] at hst
    by_cases hi : i < src.length
    · rw [if_pos hi] at hst
      rcases List.mem_cons.1 hst with hst | hst
      · rw [hst]
        exact ⟨hi, hinv⟩
      · by_cases hcomp : Arabic_IsInComposing (src.getD i 0) = true
        · simp only [hcomp, if_true] at hst
          refine ih (i + 1) pj ?_ st hst
          intro hpj
          obtain ⟨n, ⟨h1, h2, h3, h4⟩, hn, hj⟩ := hinv hpj
          have hni : n ≠ i := by
            intro e
            have := h4 hn
            rw [e] at this
            unfold Arabic_MakeShape.isLetter at this
            rw [hcomp] at this
            simp at this
          exact ⟨n, ⟨by omega, h2, fun m hm1 hm2 => h3 m (by omega) hm2, h4⟩, hn, hj⟩
        · simp only [hcomp, Bool.false_eq_true, if_false] at hst
          by_cases hmap : Arabic_IsInMap (src.getD i 0) = true
          · simp only [hmap, if_true] at hst
            by_cases hcomb : (Arabic_IsComb1 (src.getD i 0) &&
                decide ((Arabic_MakeShape.s_nextArabic src).getD i 0 < src.length) &&
                Arabic_IsComb2 (src.getD ((Arabic_MakeShape.s_nextArabic src).getD i 0) 0)) = true
            · rw [if_pos hcomb] at hst
              exact ih _ false (fun h => absurd h (by decide)) st hst
            · rw [if_neg hcomb] at hst
              refine ih (i + 1) _ ?_ st hst
              intro hj
              have hnext := selectForm_joins_next _ _ _ hj
              by_cases hlt : (Arabic_MakeShape.s_nextArabic src).getD i 0 < src.length
              · rw [if_pos hlt] at hnext
                by_cases hl : Arabic_CanJoinLeft
                    (src.getD ((Arabic_MakeShape.s_nextArabic src).getD i 0) 0) = true
                · exact ⟨_, s_nextArabic_spec src i hi, hlt, hl⟩
                · rw [if_neg hl] at hnext
                  exact absurd rfl hnext
              · rw [if_neg hlt] at hnext
                exact absurd rfl hnext
          · simp only [hmap, Bool.false_eq_true, if_false] at hst
            exact ih _ false (fun h => absurd h (by decide)) st hst
    · rw [if_neg hi] at hst
      exact absurd hst (List.not_mem_nil _)

/-- The forward pass of `Arabic_MakeShape` reaches a letter with `prevJoins = true` only
when the letter can join to its left side. -/
theorem prevJoins_reaches (src : List Nat) (i : Nat)
    (h : (i, true) ∈ Arabic_MakeShape.states src (Arabic_MakeShape.s_nextArabic src)
      src.length 0 false)
    (hmap : Arabic_IsInMap (src.getD i 0) = true) :
    Arabic_CanJoinLeft (src.getD i 0) = true := by
  obtain ⟨hi, hinv⟩ := states_inv src src.length 0 false (fun h => absurd h (by decide)) _ h
  obtain ⟨n, hfirst, hn, hj⟩ := hinv rfl
  have hself : FirstLetterFrom src i i := by
    refine ⟨Nat.le_refl _, Nat.le_of_lt hi, fun m h1 h2 => absurd h2 (by omega), fun _ => ?_⟩
    rw [isLetter_eq_isInMap]
    exact hmap
  have : n = i := firstLetterFrom_unique src i n i hfirst hself
  rw [this] at hj
  exact hj

/-- The letters of the joining block without an Initial and without a Medial form. -/
theorem no_right_letters (c : Nat) (hc : Arabic_IsInMap c = true)
    (hr : Arabic_CanJoinRight c = false) :
    c ∈ [0x0621, 0x0622, 0x0623, 0x0624, 0x0625, 0x0627, 0x0629, 0x062F, 0x0630, 0x0631,
      0x0632, 0x063B, 0x063C, 0x063D, 0x063E, 0x063F, 0x0640, 0x0648, 0x0649] := by
  unfold Arabic_IsInMap ARABIC_CODE_BASE ARABIC_CODE_LAST at hc
  simp only [Bool.and_eq_true, decide_eq_true_eq] at hc
  obtain ⟨h1, h2⟩ := hc
  interval_cases c <;> first | decide | exact absurd hr (by decide)

/-- C28: in the forward pass of `Arabic_MakeShape`, at a letter `c` of the joining block
that has neither an Initial nor a Medial form (Hamza, the Alef variants, Waw-Hamza,
Teh Marbuta, Dal, Thal, Reh, Zain, Waw, Alef Maksura, the Tatweel and the codes
U+063B..U+063F without a table entry), the pass writes the Final form of `c` when
`prevJoins` holds and the Isolated form otherwise (for the Hamza, which has no Final
form, the Isolated form; a code without a table entry unchanged), and goes on with
`prevJoins = false`: the rest of the text is shaped on its own, so the next letter of
the joining block comes out in its Initial or Isolated form (or unchanged, or as an
Isolated ligature). The pass never reaches a letter with `prevJoins = true` unless the
letter can join to its left side, which the Hamza and the codes without an entry
cannot. -/
theorem C28_no_right_join (pre rest : List Nat) (c : Nat) (prevJoins : Bool)
    (dstIndex dstLen fuel : Nat)
    (hc : Arabic_IsInMap c = true) (hr : Arabic_CanJoinRight c = false)
    (hdst : dstIndex + 1 + rest.length ≤ dstLen) (hfuel : rest.length ≤ fuel) :
    c ∈ [0x0621, 0x0622, 0x0623, 0x0624, 0x0625, 0x0627, 0x0629, 0x062F, 0x0630, 0x0631,
      0x0632, 0x063B, 0x063C, 0x063D, 0x063E, 0x063F, 0x0640, 0x0648, 0x0649] ∧
    Arabic_MakeShape.loop (pre ++ c :: rest) dstLen
        (Arabic_MakeShape.s_nextArabic (pre ++ c :: rest)) (fuel + 1) pre.length prevJoins
        dstIndex =
      finalOrIsolated c prevJoins :: Arabic_MakeShape rest (dstLen - (dstIndex + 1)) ∧
    (c ∈ [0x0622, 0x0623, 0x0624, 0x0625, 0x0627, 0x0629, 0x062F, 0x0630, 0x0631, 0x0632,
        0x0648, 0x0649] →
      Arabic_GetMap c .FINAL ≠ 0 ∧ Arabic_GetMap c .ISOLATED ≠ 0 ∧
      finalOrIsolated c true = Arabic_GetMap c .FINAL ∧
      finalOrIsolated c false = Arabic_GetMap c .ISOLATED) ∧
    (c = 0x0621 → finalOrIsolated c prevJoins = 0xFE80 ∧ Arabic_CanJoinLeft c = false) ∧
    (0x063B ≤ c ∧ c ≤ 0x063F →
      finalOrIsolated c prevJoins = c ∧ Arabic_CanJoinLeft c = false) ∧
    (∀ (mid : List Nat) (c2 : Nat) (rest2 : List Nat), rest = mid ++ c2 :: rest2 →
      (∀ x ∈ mid, Arabic_IsInMap x = false) → Arabic_IsInMap c2 = true →
      ∃ e tail, Arabic_MakeShape rest (dstLen - (dstIndex + 1)) = mid ++ e :: tail ∧
        (e = Arabic_GetMap c2 .INITIAL ∨ e = Arabic_GetMap c2 .ISOLATED ∨
          (e = c2 ∧ Arabic_GetMap c2 .ISOLATED = 0) ∨
          (c2 = 0x0644 ∧ e ∈ [0xFEF5, 0xFEF7, 0xFEF9, 0xFEFB]))) ∧
    (∀ (src : List Nat) (i : Nat),
      (i, true) ∈ Arabic_MakeShape.states src (Arabic_MakeShape.s_nextArabic src)
        src.length 0 false →
      Arabic_IsInMap (src.getD i 0) = true → Arabic_CanJoinLeft (src.getD i 0) = true) := by
  refine ⟨no_right_letters c hc hr, ?_, ?_, ?_, ?_, ?_, prevJoins_reaches⟩
  · obtain ⟨src, hsrc⟩ : ∃ src, src = pre ++ c :: rest := ⟨_, rfl⟩
    rw [← hsrc]
    have hlen : src.length = pre.length + 1 + rest.length := by
      rw [hsrc]; simp; omega
    have hcur : src.getD pre.length 0 = c := by
      rw [hsrc]; exact getD_append_length pre _ _
    have hdrop : src.drop (pre.length + 1) = rest := by
      rw [hsrc, List.drop_append]
      rfl
    rw [loop_no_right src dstLen fuel pre.length dstIndex prevJoins (by omega)
      (by rw [hcur]; exact hc) (by rw [hcur]; exact hr) (by omega), hcur,
      loop_eq_makeShape_drop src (pre.length + 1) (dstIndex + 1) dstLen fuel (by omega)
        (by omega), hdrop]
  · intro hmem
    simp only [List.mem_cons, List.mem_singleton, List.not_mem_nil, or_false] at hmem
    rcases hmem with h | h | h | h | h | h | h | h | h | h | h | h <;> subst h <;> decide
  · intro h
    subst h
    cases prevJoins <;> decide
  · rintro ⟨h1, h2⟩
    interval_cases c <;> cases prevJoins <;> decide
  · intro mid c2 rest2 hrest hmid hc2
    have hlen : (mid ++ c2 :: rest2).length ≤ dstLen - (dstIndex + 1) := by
      rw [← hrest]; omega
    rw [hrest, Arabic_MakeShape_append_nonletters mid (c2 :: rest2) _ hmid hlen]
    have hlen2 : (c2 :: rest2).length ≤ dstLen - (dstIndex + 1) - mid.length := by
      simp only [List.length_append] at hlen
      omega
    obtain ⟨e, tail, he, hform⟩ := Arabic_MakeShape_head c2 rest2 _ hc2 hlen2
    exact ⟨e, tail, by rw [he], hform⟩

/-- The statement of C28 at the text Beh, Alef, Beh, at the Alef reached with
`prevJoins = true`: the Alef is written in its Final form and the Beh after it in its
Isolated form. -/
theorem C28_no_right_join_witness :
    Arabic_IsInMap 0x0627 = true ∧ Arabic_CanJoinRight 0x0627 = false ∧
    Arabic_MakeShape.loop ([0x0628] ++ 0x0627 :: [0x0628]) 3
        (Arabic_MakeShape.s_nextArabic ([0x0628] ++ 0x0627 :: [0x0628])) (1 + 1)
        [0x0628].length true 1 =
      finalOrIsolated 0x0627 true :: Arabic_MakeShape [0x0628] (3 - (1 + 1)) ∧
    finalOrIsolated 0x0627 true = 0xFE8E ∧
    Arabic_MakeShape [0x0628, 0x0627, 0x0628] 3 = [0xFE91, 0xFE8E, 0xFE8F] ∧
    Arabic_MakeShape [0x0628, 0x0621] 2 = [0xFE8F, 0xFE80] ∧
    Arabic_MakeShape [0x0628, 0x063B, 0x0628] 3 = [0xFE8F, 0x063B, 0xFE8F] :=
  ⟨by decide, by decide,
    (C28_no_right_join [0x0628] [0x0628] 0x0627 true 1 3 1 (by decide) (by decide)
      (by decide) (by decide)).2.1,
    by decide, by decide, by decide, by decide⟩


/-! ## The length of the shaped text (C29) -/

/-- The forward pass of `Arabic_MakeShape` does not depend on `dstLen` once the buffer
has room for one character per source index left: the guards `dstIndex < dstLen` are
then always true. -/
theorem loop_dstLen (src : List Nat) (dstLen1 dstLen2 : Nat) :
    ∀ (fuel i : Nat) (pj : Bool) (d : Nat),
      d + (src.length - i) ≤ dstLen1 → d + (src.length - i) ≤ dstLen2 →
      Arabic_MakeShape.loop src dstLen1 (Arabic_MakeShape.s_nextArabic src) fuel i pj d =
        Arabic_MakeShape.loop src dstLen2 (Arabic_MakeShape.s_nextArabic src) fuel i pj d := by
  intro fuel
  induction fuel with
  | zero => intro i pj d _ _; rfl
  | succ f ih =>
    intro i pj d h1 h2
    rw [Arabic_MakeShape.loop, Arabic_MakeShape.loop]
    by_cases hi : i < src.length
    · have hnext := s_nextArabic_spec src i hi
      have hge : i + 1 ≤ (Arabic_MakeShape.s_nextArabic src).getD i 0 := hnext.1
      have hd1 : d < dstLen1 := by omega
      have hd2 : d < dstLen2 := by omega
      simp only [hi, hd1, hd2, if_true]
      have e1 : ∀ pj, Arabic_MakeShape.loop src dstLen1 (Arabic_MakeShape.s_nextArabic src)
          f (i + 1) pj (d + 1) =
          Arabic_MakeShape.loop src dstLen2 (Arabic_MakeShape.s_nextArabic src)
          f (i + 1) pj (d + 1) := fun pj => ih (i + 1) pj (d + 1) (by omega) (by omega)
      have e2 : ∀ pj, Arabic_MakeShape.loop src dstLen1 (Arabic_MakeShape.s_nextArabic src)
          f ((Arabic_MakeShape.s_nextArabic src).getD i 0 + 1) pj (d + 1) =
          Arabic_MakeShape.loop src dstLen2 (Arabic_MakeShape.s_nextArabic src)
          f ((Arabic_MakeShape.s_nextArabic src).getD i 0 + 1) pj (d + 1) :=
        fun pj => ih _ pj (d + 1) (by omega) (by omega)
      simp only [e1, e2]
    · rw [if_neg hi, if_neg hi]

/-- `Arabic_MakeShape` writes the same characters into every buffer of at least `srcLen`
units. -/
theorem Arabic_MakeShape_dstLen (src : List Nat) (dstLen1 dstLen2 : Nat)
    (h1 : src.length ≤ dstLen1) (h2 : src.length ≤ dstLen2) :
    Arabic_MakeShape src dstLen1 = Arabic_MakeShape src dstLen2 := by
  unfold Arabic_MakeShape
  by_cases h0 : src.length = 0
  · rw [if_pos (Or.inl h0), if_pos (Or.inl h0)]
  · rw [if_neg (by omega), if_neg (by omega)]
    exact loop_dstLen src dstLen1 dstLen2 _ 0 false 0 (by omega) (by omega)

/-- The first iteration of the forward pass writes a character: the pass on a non-empty
text with a buffer of at least one unit writes at least one character. -/
theorem loop_first (src : List Nat) (dstLen : Nat) (tbl : List Nat) (fuel : Nat) (pj : Bool)
    (hsrc : 0 < src.length) (hdst : 0 < dstLen) :
    Arabic_MakeShape.loop src dstLen tbl (fuel + 1) 0 pj 0 ≠ [] := by
  rw [Arabic_MakeShape.loop]
  simp only [hsrc, hdst, if_true]
  split_ifs <;> exact List.cons_ne_nil _ _

/-- The return value of `Arabic_MakeShape` is `0` exactly when `srcLen = 0` or
`dstLen < srcLen`. -/
theorem Arabic_MakeShape_eq_nil_iff (src : List Nat) (dstLen : Nat) :
    (Arabic_MakeShape src dstLen).length = 0 ↔ src.length = 0 ∨ dstLen < src.length := by
  constructor
  · intro h
    by_contra hc
    have hpos : 0 < src.length := by omega
    have hd : 0 < dstLen := by omega
    unfold Arabic_MakeShape at h
    rw [if_neg hc] at h
    obtain ⟨k, hk⟩ : ∃ k, src.length = k + 1 := ⟨src.length - 1, by omega⟩
    rw [hk] at h
    exact loop_first src dstLen _ k false hpos hd (List.length_eq_zero.1 h)
  · intro h
    unfold Arabic_MakeShape
    rw [if_pos h]
    rfl

/-- For a buffer size below `2^31` the casts on the way to `dstLen` change nothing. -/
theorem toSizeT_toInt32 (x : Nat) (h : x ≤ INT_MAX) : toSizeT (toInt32 x) = x := by
  unfold INT_MAX at h
  unfold toSizeT toInt32
  have h1 : x % 4294967296 = x := Nat.mod_eq_of_lt (by omega)
  rw [h1, if_pos (by omega)]
  omega

/-- C29 (as amended): for a non-empty text and `dstLen >= srcLen`, `Arabic_MakeShape`
returns a length between `1` and `srcLen`; what it writes is the same for every such
`dstLen`, so the guards `dstIndex < dstLen` drop nothing; it returns `0` exactly when
`srcLen = 0` or `dstLen < srcLen`; and for a non-empty run inside the text whose buffer
size `len * 2 + 16` fits an `int`, `shapeRun` returns the shaped run, at least one
character, and not the unshaped run of the branch `outLen <= 0`. -/
theorem C29_shape_length_bounds (src : List Nat) (dstLen : Nat) (hsrc : 1 ≤ src.length)
    (hdst : src.length ≤ dstLen) :
    1 ≤ (Arabic_MakeShape src dstLen).length ∧
    (Arabic_MakeShape src dstLen).length ≤ src.length ∧
    (∀ dstLen2, src.length ≤ dstLen2 →
      Arabic_MakeShape src dstLen2 = Arabic_MakeShape src dstLen) ∧
    (∀ (t : List Nat) (n : Nat),
      (Arabic_MakeShape t n).length = 0 ↔ t.length = 0 ∨ n < t.length) ∧
    (∀ (s : List Nat) (a b : Nat), a < b → b ≤ s.length → (b - a) * 2 + 16 ≤ INT_MAX →
      BuildVisualBidiText_Tagless.shapeRun s a b =
        Arabic_MakeShape ((s.drop a).take (b - a)) ((b - a) * 2 + 16) ∧
      1 ≤ (BuildVisualBidiText_Tagless.shapeRun s a b).length) := by
  have hge : ∀ (t : List Nat) (n : Nat), 1 ≤ t.length → t.length ≤ n →
      1 ≤ (Arabic_MakeShape t n).length := by
    intro t n h1 h2
    by_contra hc
    have h0 : (Arabic_MakeShape t n).length = 0 := by omega
    have := (Arabic_MakeShape_eq_nil_iff t n).1 h0
    omega
  refine ⟨hge src dstLen hsrc hdst, Arabic_MakeShape_length_le src dstLen,
    fun d2 h2 => Arabic_MakeShape_dstLen src d2 dstLen h2 hdst,
    Arabic_MakeShape_eq_nil_iff, ?_⟩
  intro s a b hab hb hint
  have hlen : ((s.drop a).take (b - a)).length = b - a := by
    rw [List.length_take, List.length_drop]; omega
  have hout := hge ((s.drop a).take (b - a)) ((b - a) * 2 + 16) (by omega) (by omega)
  have heq : BuildVisualBidiText_Tagless.shapeRun s a b =
      Arabic_MakeShape ((s.drop a).take (b - a)) ((b - a) * 2 + 16) := by
    unfold BuildVisualBidiText_Tagless.shapeRun
    simp only
    have hcast : toSizeT (toInt32 ((b - a) * ARABIC_SHAPING_EXPANSION_FACTOR +
        ARABIC_SHAPING_SAFETY_MARGIN)) = (b - a) * 2 + 16 := toSizeT_toInt32 _ hint
    rw [hcast]
    have h1 : ¬ (b - a = 0) := by omega
    have h2 : ¬ (b - a > SIZE_MAX / ARABIC_SHAPING_EXPANSION_FACTOR_RETRY -
        ARABIC_SHAPING_SAFETY_MARGIN_RETRY) := by
      unfold SIZE_MAX ARABIC_SHAPING_EXPANSION_FACTOR_RETRY ARABIC_SHAPING_SAFETY_MARGIN_RETRY
      unfold INT_MAX at hint
      omega
    have h3 : ¬ ((Arabic_MakeShape ((s.drop a).take (b - a)) ((b - a) * 2 + 16)).length = 0) := by
      omega
    rw [if_neg h1, if_neg h2, if_neg h3]
  exact ⟨heq, by rw [heq]; exact hout⟩

/-- The statement of C29 at the text Beh, Lam, Alef: the shaped run has two characters,
the Initial Beh and the Final ligature. -/
theorem C29_shape_length_bounds_witness :
    1 ≤ [0x0628, 0x0644, 0x0627].length ∧ [0x0628, 0x0644, 0x0627].length ≤ 3 ∧
    1 ≤ (Arabic_MakeShape [0x0628, 0x0644, 0x0627] 3).length ∧
    (Arabic_MakeShape [0x0628, 0x0644, 0x0627] 3).length ≤ [0x0628, 0x0644, 0x0627].length ∧
    Arabic_MakeShape [0x0628, 0x0644, 0x0627] 3 = [0xFE91, 0xFEFC] ∧
    BuildVisualBidiText_Tagless.shapeRun [0x0628, 0x0644, 0x0627] 0 3 =
      Arabic_MakeShape (([0x0628, 0x0644, 0x0627].drop 0).take (3 - 0)) ((3 - 0) * 2 + 16) :=
  ⟨by decide, by decide,
    (C29_shape_length_bounds [0x0628, 0x0644, 0x0627] 3 (by decide) (by decide)).1,
    (C29_shape_length_bounds [0x0628, 0x0644, 0x0627] 3 (by decide) (by decide)).2.1,
    by decide,
    ((C29_shape_length_bounds [0x0628, 0x0644, 0x0627] 3 (by decide) (by decide)).2.2.2.2
      [0x0628, 0x0644, 0x0627] 0 3 (by decide) (by decide) (by decide)).1⟩

/-- When the buffer size that reaches `dstLen` through the cast `(int)` is smaller than
the run, `Arabic_MakeShape` returns `0` and `shapeRun` returns the unshaped run, by its
branch `outLen <= 0`. -/
theorem shapeRun_short_buffer (s : List Nat) (a b : Nat) (hab : a < b) (hb : b ≤ s.length)
    (hsize : ¬ b - a > SIZE_MAX / ARABIC_SHAPING_EXPANSION_FACTOR_RETRY -
      ARABIC_SHAPING_SAFETY_MARGIN_RETRY)
    (hdst : toSizeT (toInt32 ((b - a) * ARABIC_SHAPING_EXPANSION_FACTOR +
      ARABIC_SHAPING_SAFETY_MARGIN)) < b - a) :
    (Arabic_MakeShape ((s.drop a).take (b - a))
      (toSizeT (toInt32 ((b - a) * ARABIC_SHAPING_EXPANSION_FACTOR +
        ARABIC_SHAPING_SAFETY_MARGIN)))).length = 0 ∧
    BuildVisualBidiText_Tagless.shapeRun s a b = (s.drop a).take (b - a) := by
  have hlen : ((s.drop a).take (b - a)).length = b - a := by
    rw [List.length_take, List.length_drop]; omega
  have hout : (Arabic_MakeShape ((s.drop a).take (b - a))
      (toSizeT (toInt32 ((b - a) * ARABIC_SHAPING_EXPANSION_FACTOR +
        ARABIC_SHAPING_SAFETY_MARGIN)))).length = 0 := by
    rw [Arabic_MakeShape_eq_nil_iff, hlen]
    exact Or.inr hdst
  refine ⟨hout, ?_⟩
  unfold BuildVisualBidiText_Tagless.shapeRun
  simp only
  rw [if_neg (by omega), if_neg hsize, if_pos hout]

/-- C29 (counterexample): for a run of 2147483640 letters Beh (`2^31 - 8`, a length that
fits an `int`), the buffer has `2^32` units and the cast `(int)` turns that size into
`dstLen = 0`; `Arabic_MakeShape` returns `0` and `shapeRun` takes the branch
`outLen <= 0`: it returns the run unshaped. -/
theorem C29_counterexample :
    2147483640 ≤ INT_MAX ∧
    (List.replicate 2147483640 0x0628).length = 2147483640 ∧
    toSizeT (toInt32 (2147483640 * ARABIC_SHAPING_EXPANSION_FACTOR +
      ARABIC_SHAPING_SAFETY_MARGIN)) = 0 ∧
    (Arabic_MakeShape (((List.replicate 2147483640 0x0628).drop 0).take (2147483640 - 0))
      (toSizeT (toInt32 ((2147483640 - 0) * ARABIC_SHAPING_EXPANSION_FACTOR +
        ARABIC_SHAPING_SAFETY_MARGIN)))).length = 0 ∧
    BuildVisualBidiText_Tagless.shapeRun (List.replicate 2147483640 0x0628) 0 2147483640 =
      ((List.replicate 2147483640 0x0628).drop 0).take (2147483640 - 0) ∧
    ((List.replicate 2147483640 0x0628).drop 0).take (2147483640 - 0) =
      List.replicate 2147483640 0x0628 := by
  have hcast : toSizeT (toInt32 (2147483640 * ARABIC_SHAPING_EXPANSION_FACTOR +
      ARABIC_SHAPING_SAFETY_MARGIN)) = 0 := by decide
  have hl : (List.replicate 2147483640 0x0628).length = 2147483640 :=
    List.length_replicate _ _
  have h := shapeRun_short_buffer (List.replicate 2147483640 0x0628) 0 2147483640
    (by omega) (by rw [hl]) (by decide) (by rw [Nat.sub_zero, hcast]; omega)
  refine ⟨by decide, hl, hcast, h.1, h.2, ?_⟩
  rw [List.drop_zero, Nat.sub_zero]
  exact List.take_of_length_le (by rw [hl])


/-! ## Reordering is a permutation (C30) -/

/-- C30: for every non-empty text without a character of the Arabic joining block
U+0621..U+064A and for either value of `forceRTL`, the output of
`BuildVisualBidiText_Tagless` is a permutation of the text: the same length and, for
every character, the same number of occurrences. -/
theorem C30_reorder_is_permutation (s : List Nat) (forceRTL : Bool) (hne : s ≠ [])
    (hs : ∀ c ∈ s, ¬ (0x0621 ≤ c ∧ c ≤ 0x064A)) :
    List.Perm (BuildVisualBidiText_Tagless s forceRTL) s ∧
    (BuildVisualBidiText_Tagless s forceRTL).length = s.length ∧
    (∀ c, (BuildVisualBidiText_Tagless s forceRTL).count c = s.count c) ∧
    BuildVisualBidiText_Tagless s forceRTL ≠ [] := by
  have hmap : ∀ c ∈ s, Arabic_IsInMap c = false := by
    intro c hc
    have := hs c hc
    unfold Arabic_IsInMap ARABIC_CODE_BASE ARABIC_CODE_LAST
    simp only [Bool.and_eq_false_imp, decide_eq_true_eq, decide_eq_false_iff_not]
    intro h1 h2
    exact this ⟨h1, h2⟩
  have hp := BuildVisualBidiText_Tagless_perm s forceRTL hmap
  refine ⟨hp, hp.length_eq, fun c => hp.count_eq c, ?_⟩
  intro he
  rw [he] at hp
  exact hne (List.Perm.nil_eq hp).symm

/-- The statement of C30 at the text Alef-Bet (Hebrew), space, `ab`, space, `12`, for
both values of `forceRTL`. -/
theorem C30_reorder_is_permutation_witness :
    ([0x05D0, 0x05D1, 32, 97, 98, 32, 49, 50] : List Nat) ≠ [] ∧
    (∀ c ∈ [0x05D0, 0x05D1, 32, 97, 98, 32, 49, 50], ¬ (0x0621 ≤ c ∧ c ≤ 0x064A)) ∧
    List.Perm (BuildVisualBidiText_Tagless [0x05D0, 0x05D1, 32, 97, 98, 32, 49, 50] true)
      [0x05D0, 0x05D1, 32, 97, 98, 32, 49, 50] ∧
    List.Perm (BuildVisualBidiText_Tagless [0x05D0, 0x05D1, 32, 97, 98, 32, 49, 50] false)
      [0x05D0, 0x05D1, 32, 97, 98, 32, 49, 50] ∧
    BuildVisualBidiText_Tagless [0x05D0, 0x05D1, 32, 97, 98, 32, 49, 50] false =
      [32, 97, 98, 32, 49, 50, 0x05D1, 0x05D0] :=
  ⟨by decide, by decide,
    (C30_reorder_is_permutation [0x05D0, 0x05D1, 32, 97, 98, 32, 49, 50] true (by decide)
      (by decide)).1,
    (C30_reorder_is_permutation [0x05D0, 0x05D1, 32, 97, 98, 32, 49, 50] false (by decide)
      (by decide)).1,
    by decide⟩


end Kosmt
